import Mathlib

/-! # Migration: board game core and minimax search

A shallow embedding of `Game.cpp` / `Game.hpp`.

* C++ `int` is modelled by `Int`.  The one computation that can leave the
  32-bit range is the score of `evaluate`, which sums over all cells (from
  `n = 755` on the sum can pass `2^31 - 1`); its arithmetic is reduced to 32
  bits by `wrapInt32`, the two's-complement wrap-around of the compiled code.
  Coordinates, depths and the search bounds stay far inside the range.
* `std::vector<std::vector<int>>` is modelled by `List (List Int)`; the outer
  index is `x`, the inner index is `y`, as in `b[x][y]`.
* A read outside the vectors is undefined behaviour in C++; `cell` returns `0`
  there and `setCell` leaves the board alone.  Every theorem that depends on a
  read or write being meaningful carries the hypothesis `IsBoard b n`.
* `AIPlayer::minimax` mutates its board argument through a reference, so the
  embedding threads the board through the loops and returns it with the score.
  The recursion is bounded by an explicit `fuel`; `none` means the fuel ran out.
* `calculateBotMove` hands `decideMove` to `std::async` and waits for the
  result at once; it is modelled as a direct call.
* The section on checked indexing repeats the core functions with every index
  into the vectors checked, and the theorems show that on a well-formed board
  the checked and the unchecked functions agree.
-/

namespace Migration

/-- The C++ `struct Move { int x1, y1, x2, y2; }`. -/
structure Move where
  x1 : Int
  y1 : Int
  x2 : Int
  y2 : Int
deriving DecidableEq

/-- The C++ `std::vector<std::vector<int>>`, indexed `b[x][y]`. -/
abbrev Board := List (List Int)

/-- The read `b[x][y]`; `0` outside the vectors. -/
def cell (b : Board) (x y : Int) : Int :=
  if 0 ≤ x ∧ 0 ≤ y then (b.getD x.toNat []).getD y.toNat 0 else 0

/-- The write `b[x][y] = v`; no effect outside the vectors. -/
def setCell (b : Board) (x y : Int) (v : Int) : Board :=
  if 0 ≤ x ∧ 0 ≤ y then b.set x.toNat ((b.getD x.toNat []).set y.toNat v) else b

/-- A well-formed `n`×`n` board: `n` rows, each of `n` cells. -/
def IsBoard (b : Board) (n : Int) : Prop :=
  0 ≤ n ∧ b.length = n.toNat ∧ ∀ row ∈ b, row.length = n.toNat

instance (b : Board) (n : Int) : Decidable (IsBoard b n) := by
  unfold IsBoard; infer_instance

/-- The sentinel `{-1,-1,-1,-1}` returned when there is no move. -/
def sentinel : Move := ⟨-1, -1, -1, -1⟩

/-! ## Move generator -/

/-- Body of the two nested `for` loops of `getMovesStatic` at cell `(x, y)`:
the `push_back` is an append at the end of `moves`. -/
def getMovesStep (p : Int) (b : Board) (n : Int) (dx dy : Int)
    (moves : List Move) (x y : Int) : List Move :=
  if cell b x y = p then
    let nx := x + dx
    let ny := y + dy
    if nx ≥ 0 ∧ ny ≥ 0 ∧ nx < n ∧ ny < n ∧ cell b nx ny = 0 then
      moves ++ [⟨x, y, nx, ny⟩]
    else moves
  else moves

/-- `MigrationGame::getMovesStatic`: `for x in 0..n-1`, `for y in 0..n-1`. -/
def getMovesStatic (p : Int) (b : Board) (n : Int) : List Move :=
  let dx : Int := if p = 2 then 1 else 0
  let dy : Int := if p = 1 then -1 else 0
  (List.range n.toNat).foldl
    (fun (moves : List Move) (i : Nat) =>
      (List.range n.toNat).foldl
        (fun (moves : List Move) (j : Nat) => getMovesStep p b n dx dy moves (i : Int) (j : Int)) moves)
    []

/-! ## Evaluator -/

/-- The value of a 32-bit `int` computation whose exact result is `z`:
two's-complement wrap-around into `[-2^31, 2^31)`. -/
def wrapInt32 (z : Int) : Int :=
  (z + 2147483648) % 4294967296 - 2147483648

/-- Body of the two nested `for` loops of `evaluate` at cell `(x, y)`; every
`int` operation on the way to `score` is a 32-bit operation. -/
def evaluateStep (b : Board) (n : Int) (score : Int) (x y : Int) : Int :=
  let score := if cell b x y = 2 then wrapInt32 (score + wrapInt32 (x * 10)) else score
  let score :=
    if cell b x y = 1 then wrapInt32 (score - wrapInt32 (wrapInt32 (n - y) * 10)) else score
  score

/-- `AIPlayer::evaluate`. -/
def evaluate (b : Board) (n : Int) : Int :=
  (List.range n.toNat).foldl
    (fun (score : Int) (i : Nat) =>
      (List.range n.toNat).foldl
        (fun (score : Int) (j : Nat) => evaluateStep b n score (i : Int) (j : Int)) score)
    0

/-! ## Game session -/

/-- The data members of `MigrationGame`; `botDepth` is the `maxDepth` of the
owned `AIPlayer`. -/
structure MigrationGame where
  n : Int
  currentPlayer : Int
  board : Board
  botDepth : Int
deriving DecidableEq

/-- `MigrationGame::isValid`. -/
def MigrationGame.isValid (g : MigrationGame) (x y : Int) : Bool :=
  decide (x ≥ 0) && decide (y ≥ 0) && decide (x < g.n) && decide (y < g.n)

/-- `MigrationGame::makeMove`. -/
def MigrationGame.makeMove (g : MigrationGame) (x1 y1 x2 y2 : Int) : MigrationGame :=
  if !g.isValid x1 y1 || !g.isValid x2 y2 then g
  else
    let p := cell g.board x1 y1
    if p = 0 then g
    else if cell g.board x2 y2 ≠ 0 then g
    else
      let board := setCell g.board x2 y2 p
      let board := setCell board x1 y1 0
      { g with board := board, currentPlayer := if g.currentPlayer = 1 then 2 else 1 }

/-- `MigrationGame::getMoves`. -/
def MigrationGame.getMoves (g : MigrationGame) (p : Int) : List Move :=
  getMovesStatic p g.board g.n

/-! ## Search engine -/

/-- The pair of writes `b[m.x2][m.y2] = v; b[m.x1][m.y1] = 0;`. -/
def applyMove (b : Board) (m : Move) (v : Int) : Board :=
  setCell (setCell b m.x2 m.y2 v) m.x1 m.y1 0

/-- The pair of writes `b[m.x1][m.y1] = v; b[m.x2][m.y2] = 0;`. -/
def undoMove (b : Board) (m : Move) (v : Int) : Board :=
  setCell (setCell b m.x1 m.y1 v) m.x2 m.y2 0

/-- The `for(const auto& m : moves)` loop of the maximizing branch of
`minimax`.  `call b alpha beta` is the recursive call
`minimax(b, depth-1, false, alpha, beta, n)`; the loop state is the board,
`maxEval` and `alpha`. -/
def maxLoop (call : Board → Int → Int → Option (Int × Board)) (beta : Int) :
    List Move → Board → Int → Int → Option (Int × Board)
  | [], b, maxEval, _ => some (maxEval, b)
  | m :: ms, b, maxEval, alpha =>
    match call (applyMove b m 2) alpha beta with
    | none => none
    | some (eval, b) =>
      let b := undoMove b m 2
      let maxEval := max maxEval eval
      let alpha := max alpha eval
      if beta ≤ alpha then some (maxEval, b)
      else maxLoop call beta ms b maxEval alpha

/-- The `for(const auto& m : moves)` loop of the minimizing branch of
`minimax`; the loop state is the board, `minEval` and `beta`. -/
def minLoop (call : Board → Int → Int → Option (Int × Board)) (alpha : Int) :
    List Move → Board → Int → Int → Option (Int × Board)
  | [], b, minEval, _ => some (minEval, b)
  | m :: ms, b, minEval, beta =>
    match call (applyMove b m 1) alpha beta with
    | none => none
    | some (eval, b) =>
      let b := undoMove b m 1
      let minEval := min minEval eval
      let beta := min beta eval
      if beta ≤ alpha then some (minEval, b)
      else minLoop call alpha ms b minEval beta

/-- `AIPlayer::minimax`, returning the score and the board left in the
by-reference buffer.  One unit of `fuel` is spent per call. -/
def minimax : Nat → Board → Int → Bool → Int → Int → Int → Option (Int × Board)
  | 0, _, _, _, _, _, _ => none
  | fuel + 1, b, depth, isMax, alpha, beta, n =>
    if depth = 0 then some (evaluate b n, b)
    else
      let player : Int := if isMax then 2 else 1
      let moves := getMovesStatic player b n
      if moves.isEmpty then some (if isMax then -10000 else 10000, b)
      else if isMax then
        maxLoop (fun b a be => minimax fuel b (depth - 1) false a be n) beta
          moves b (-100000) alpha
      else
        minLoop (fun b a be => minimax fuel b (depth - 1) true a be n) alpha
          moves b 100000 beta

/-- The `for(const auto& m : moves)` loop of `decideMove`; the loop state is
the working copy `b`, `maxEval` and `bestMove`. -/
def decideLoop (call : Board → Option (Int × Board)) :
    List Move → Board → Int → Move → Option (Move × Int × Board)
  | [], b, maxEval, bestMove => some (bestMove, maxEval, b)
  | m :: ms, b, maxEval, bestMove =>
    match call (applyMove b m 2) with
    | none => none
    | some (eval, b) =>
      let b := undoMove b m 2
      if eval > maxEval then decideLoop call ms b eval m
      else decideLoop call ms b maxEval bestMove

/-- `AIPlayer::decideMove` with the final contents of the working copy `b`:
the chosen move, and the working copy when the function returns. -/
def decideMoveState (fuel : Nat) (maxDepth : Int) (board : Board) (n : Int) :
    Option (Move × Board) :=
  let b := board
  let moves := getMovesStatic 2 b n
  match moves with
  | [] => some (sentinel, b)
  | m0 :: _ =>
    match decideLoop (fun b => minimax fuel b (maxDepth - 1) false (-100000) 100000 n)
        moves b (-100000) m0 with
    | none => none
    | some (bestMove, _, b) => some (bestMove, b)

/-- `AIPlayer::decideMove`: the move returned. -/
def decideMove (fuel : Nat) (maxDepth : Int) (board : Board) (n : Int) : Option Move :=
  (decideMoveState fuel maxDepth board n).map Prod.fst

/-! ## Specification-side definitions -/

/-- The cells of an `n`×`n` grid in x-major, y-minor order. -/
def cellsInOrder (n : Int) : List (Int × Int) :=
  (List.range n.toNat).flatMap fun (i : Nat) =>
    (List.range n.toNat).map fun (j : Nat) => ((i : Int), (j : Int))

/-- The per-player offset as the specification words it: `(1, 0)` for player 2
and `(0, -1)` for player 1. -/
def specOffset (p : Int) : Int × Int :=
  if p = 2 then (1, 0) else (0, -1)

/-- The move list as the specification words it: visit the cells in x-major,
y-minor order and emit one move for each cell that holds `p` and whose offset
destination is inside the grid and empty. -/
def specMoves (p : Int) (b : Board) (n : Int) : List Move :=
  (cellsInOrder n).filterMap fun c =>
    let d := specOffset p
    if cell b c.1 c.2 = p ∧
        (0 ≤ c.1 + d.1 ∧ c.1 + d.1 < n ∧ 0 ≤ c.2 + d.2 ∧ c.2 + d.2 < n) ∧
        cell b (c.1 + d.1) (c.2 + d.2) = 0 then
      some ⟨c.1, c.2, c.1 + d.1, c.2 + d.2⟩
    else none

/-- The score as the specification words it: ten times the `x` of every cell
holding 2, minus ten times `n - y` of every cell holding 1. -/
def specEvaluate (b : Board) (n : Int) : Int :=
  (((cellsInOrder n).filter fun c => cell b c.1 c.2 = 2).map fun c => 10 * c.1).sum
    - (((cellsInOrder n).filter fun c => cell b c.1 c.2 = 1).map fun c => 10 * (n - c.2)).sum

/-- What the loop body of `getMovesStatic` contributes at cell `c`, with the
offsets computed at the top of the function. -/
def srcStep (p : Int) (b : Board) (n : Int) (c : Int × Int) : Option Move :=
  let dx : Int := if p = 2 then 1 else 0
  let dy : Int := if p = 1 then -1 else 0
  if cell b c.1 c.2 = p ∧ c.1 + dx ≥ 0 ∧ c.2 + dy ≥ 0 ∧ c.1 + dx < n ∧ c.2 + dy < n ∧
      cell b (c.1 + dx) (c.2 + dy) = 0 then
    some ⟨c.1, c.2, c.1 + dx, c.2 + dy⟩
  else none


/-! ## Reference search: the same search without the two cutoffs -/

/-- The maximizing loop of `minimax` with the line `if(beta <= alpha) break;`
removed. -/
def refMaxLoop (call : Board → Int → Int → Option (Int × Board)) (beta : Int) :
    List Move → Board → Int → Int → Option (Int × Board)
  | [], b, maxEval, _ => some (maxEval, b)
  | m :: ms, b, maxEval, alpha =>
    match call (applyMove b m 2) alpha beta with
    | none => none
    | some (eval, b) =>
      let b := undoMove b m 2
      let maxEval := max maxEval eval
      let alpha := max alpha eval
      refMaxLoop call beta ms b maxEval alpha

/-- The minimizing loop of `minimax` with the line `if(beta <= alpha) break;`
removed. -/
def refMinLoop (call : Board → Int → Int → Option (Int × Board)) (alpha : Int) :
    List Move → Board → Int → Int → Option (Int × Board)
  | [], b, minEval, _ => some (minEval, b)
  | m :: ms, b, minEval, beta =>
    match call (applyMove b m 1) alpha beta with
    | none => none
    | some (eval, b) =>
      let b := undoMove b m 1
      let minEval := min minEval eval
      let beta := min beta eval
      refMinLoop call alpha ms b minEval beta

/-- Reference minimax: `minimax` with both cutoffs removed, everything else
(move generator, `evaluate`, the stuck values ±10000, the initial ∓100000) kept. -/
def refMinimax : Nat → Board → Int → Bool → Int → Int → Int → Option (Int × Board)
  | 0, _, _, _, _, _, _ => none
  | fuel + 1, b, depth, isMax, alpha, beta, n =>
    if depth = 0 then some (evaluate b n, b)
    else
      let player : Int := if isMax then 2 else 1
      let moves := getMovesStatic player b n
      if moves.isEmpty then some (if isMax then -10000 else 10000, b)
      else if isMax then
        refMaxLoop (fun b a be => refMinimax fuel b (depth - 1) false a be n) beta
          moves b (-100000) alpha
      else
        refMinLoop (fun b a be => refMinimax fuel b (depth - 1) true a be n) alpha
          moves b 100000 beta

/-- Reference root search: `decideMove` calling the reference minimax, with the
same strict `>` (first wins) at the root. -/
def refDecideMove (fuel : Nat) (maxDepth : Int) (board : Board) (n : Int) : Option Move :=
  let b := board
  let moves := getMovesStatic 2 b n
  match moves with
  | [] => some sentinel
  | m0 :: _ =>
    match decideLoop (fun b => refMinimax fuel b (maxDepth - 1) false (-100000) 100000 n)
        moves b (-100000) m0 with
    | none => none
    | some (bestMove, _, _) => some bestMove

/-! ## Potential bounding the length of a play -/

/-- The sum over the cells holding 2 of `n - 1 - x` plus the sum over the cells
holding 1 of `y`: the number of steps all pieces together can still make. -/
def Phi (b : Board) (n : Int) : Int :=
  (((cellsInOrder n).filter fun c => cell b c.1 c.2 = 2).map fun c => n - 1 - c.1).sum
    + (((cellsInOrder n).filter fun c => cell b c.1 c.2 = 1).map fun c => c.2).sum

/-- Fuel that lets `minimax` at `depth` on `b` return: more than the depth when
the depth is non-negative, or more than the number of steps left in the game. -/
def EnoughFuel (fuel : Nat) (b : Board) (depth : Int) (n : Int) : Prop :=
  (0 ≤ depth ∧ depth < fuel) ∨ Phi b n < fuel

instance (fuel : Nat) (b : Board) (depth : Int) (n : Int) : Decidable (EnoughFuel fuel b depth n) := by
  unfold EnoughFuel; infer_instance

/-! ## Weighted sums over the grid -/

/-- A weighted sum over the cells of the grid. -/
def cellSum (w : Int → Int → Int → Int) (b : Board) (n : Int) : Int :=
  ((cellsInOrder n).map fun c => w (cell b c.1 c.2) c.1 c.2).sum

/-- The contribution of one cell to `evaluate`. -/
def evalWeight (n : Int) (v x y : Int) : Int :=
  if v = 2 then x * 10 else if v = 1 then -((n - y) * 10) else 0

/-- The contribution of one cell to `Phi`. -/
def phiWeight (n : Int) (v x y : Int) : Int :=
  if v = 2 then n - 1 - x else if v = 1 then y else 0

/-! ## Scores without the board buffer

The score computed by the search, as a function of an immutable board: each
candidate is tried on `applyMove b m v`.  These are used to reason about the
scores; the theorems relate them to `minimax`. -/

/-- Scores of the maximizing loop, given the score of each candidate as a
function of the window it is searched with. -/
def maxLoopVal (beta : Int) : List (Int → Int → Int) → Int → Int → Int
  | [], maxEval, _ => maxEval
  | c :: cs, maxEval, alpha =>
    let eval := c alpha beta
    if beta ≤ max alpha eval then max maxEval eval
    else maxLoopVal beta cs (max maxEval eval) (max alpha eval)

/-- Scores of the minimizing loop. -/
def minLoopVal (alpha : Int) : List (Int → Int → Int) → Int → Int → Int
  | [], minEval, _ => minEval
  | c :: cs, minEval, beta =>
    let eval := c alpha beta
    if min beta eval ≤ alpha then min minEval eval
    else minLoopVal alpha cs (min minEval eval) (min beta eval)

/-- The score `minimax` returns, without the board buffer. -/
def abVal (n : Int) : Nat → Board → Int → Bool → Int → Int → Int
  | 0, _, _, _, _, _ => 0
  | fuel + 1, b, depth, isMax, alpha, beta =>
    if depth = 0 then evaluate b n
    else if (getMovesStatic (if isMax then 2 else 1) b n).isEmpty then
      (if isMax then -10000 else 10000)
    else if isMax then
      maxLoopVal beta ((getMovesStatic 2 b n).map fun m a be =>
        abVal n fuel (applyMove b m 2) (depth - 1) false a be) (-100000) alpha
    else
      minLoopVal alpha ((getMovesStatic 1 b n).map fun m a be =>
        abVal n fuel (applyMove b m 1) (depth - 1) true a be) 100000 beta

/-- The score the reference minimax returns, without the board buffer. -/
def refVal (n : Int) : Nat → Board → Int → Bool → Int
  | 0, _, _, _ => 0
  | fuel + 1, b, depth, isMax =>
    if depth = 0 then evaluate b n
    else if (getMovesStatic (if isMax then 2 else 1) b n).isEmpty then
      (if isMax then -10000 else 10000)
    else if isMax then
      ((getMovesStatic 2 b n).map fun m =>
        refVal n fuel (applyMove b m 2) (depth - 1) false).foldl max (-100000)
    else
      ((getMovesStatic 1 b n).map fun m =>
        refVal n fuel (applyMove b m 1) (depth - 1) true).foldl min 100000

/-- The root loop of `decideMove` over the scores `s` of the candidates. -/
def decideLoopVal (s : Move → Int) : List Move → Int → Move → Move × Int
  | [], maxEval, bestMove => (bestMove, maxEval)
  | m :: ms, maxEval, bestMove =>
    if s m > maxEval then decideLoopVal s ms (s m) m
    else decideLoopVal s ms maxEval bestMove

/-- Agreement between a pruned score `r` and an exact score `v` under the
window `(alpha, beta)`: equal inside the window, on the same side outside. -/
def WindowRel (alpha beta v r : Int) : Prop :=
  (v ≤ alpha → r ≤ alpha) ∧ (beta ≤ v → beta ≤ r) ∧ (alpha < v → v < beta → r = v)


/-! ## Board initialisation and the rest of the game session -/

/-- The C++ `ceil(n/2.0 - 1)`.  For a 32-bit `n` the double `n/2.0 - 1` is the
exact rational `(n - 2)/2`, so its ceiling is the integer `-⌊(2 - n)/2⌋`. -/
def ceilHalfMinusOne (n : Int) : Int :=
  -((2 - n) / 2)

/-- `MigrationGame::initBoard`: `board.assign(n, vector<int>(n, 0))`, then the
two pairs of nested `for` loops.  The inner loop `for(x = y+1; x < n-y-1; x++)`
runs over `x = y + 1 + i` for `i` below `(n - y - 1) - (y + 1)`. -/
def initBoard (n : Int) : Board :=
  let board : Board := List.replicate n.toNat (List.replicate n.toNat 0)
  let k := ceilHalfMinusOne n
  let board := (List.range k.toNat).foldl
    (fun (board : Board) (y : Nat) =>
      (List.range ((n - y - 1) - (y + 1)).toNat).foldl
        (fun (board : Board) (i : Nat) => setCell board ((y : Int) + 1 + i) (n - 1 - y) 1) board)
    board
  let board := (List.range k.toNat).foldl
    (fun (board : Board) (x : Nat) =>
      (List.range ((n - x - 1) - (x + 1)).toNat).foldl
        (fun (board : Board) (i : Nat) => setCell board (x : Int) ((x : Int) + 1 + i) 2) board)
    board
  board

/-- The constructor `MigrationGame(size, difficulty)`: `n(size)`,
`currentPlayer(1)`, a bot of depth `difficulty`, then `initBoard()`. -/
def MigrationGame.new (size difficulty : Int) : MigrationGame :=
  { n := size, currentPlayer := 1, board := initBoard size, botDepth := difficulty }

/-- `MigrationGame::calculateBotMove`: the board and `n` are copied, the bot's
`decideMove` runs on the copies and the caller waits for the result.  The
method writes no member; the state is returned next to the move. -/
def MigrationGame.calculateBotMove (fuel : Nat) (g : MigrationGame) :
    Option (Move × MigrationGame) :=
  let boardCopy := g.board
  let currentN := g.n
  match decideMove fuel g.botDepth boardCopy currentN with
  | none => none
  | some m => some (m, g)

/-- `MigrationGame::runBot`. -/
def MigrationGame.runBot (fuel : Nat) (g : MigrationGame) : Option MigrationGame :=
  match g.calculateBotMove fuel with
  | none => none
  | some (m, g) => if m.x1 ≠ -1 then some (g.makeMove m.x1 m.y1 m.x2 m.y2) else some g

/-- `MigrationGame::isGameOver`. -/
def MigrationGame.isGameOver (g : MigrationGame) : Bool :=
  (g.getMoves g.currentPlayer).isEmpty

/-- The calls a client can make on a game that change its state. -/
inductive GameOp where
  | makeMove (x1 y1 x2 y2 : Int)
  | runBot
deriving DecidableEq

/-- One call on the game. -/
def MigrationGame.step (fuel : Nat) (g : MigrationGame) : GameOp → Option MigrationGame
  | GameOp.makeMove x1 y1 x2 y2 => some (g.makeMove x1 y1 x2 y2)
  | GameOp.runBot => g.runBot fuel

/-- A sequence of calls on the game, in order. -/
def MigrationGame.run (fuel : Nat) : MigrationGame → List GameOp → Option MigrationGame
  | g, [] => some g
  | g, op :: ops =>
    match g.step fuel op with
    | none => none
    | some g => MigrationGame.run fuel g ops

/-- The number of cells of the grid holding `v`. -/
def countCells (v : Int) (b : Board) (n : Int) : Nat :=
  ((cellsInOrder n).filter fun c => cell b c.1 c.2 = v).length

/-- A chain of successively generated and applied moves: each step names the
player `p` (1 or 2) and a move generated for `p` on the current board, which is
then applied with `destination := p`, `source := 0`. -/
def playMoves (n : Int) : Board → List (Int × Move) → Option Board
  | b, [] => some b
  | b, (p, m) :: rest =>
    if (p = 1 ∨ p = 2) ∧ m ∈ getMovesStatic p b n then playMoves n (applyMove b m p) rest
    else none

/-- The board invariant of a game of size `n` with bot depth `d`: the board is
`n`×`n`, every cell holds 0, 1 or 2, and there are `ones` cells holding 1 and
`twos` cells holding 2. -/
def BoardInv (n d : Int) (ones twos : Nat) (g : MigrationGame) : Prop :=
  g.n = n ∧ g.botDepth = d ∧ IsBoard g.board n ∧
    (∀ x y : Int, cell g.board x y = 0 ∨ cell g.board x y = 1 ∨ cell g.board x y = 2) ∧
    countCells 1 g.board n = ones ∧ countCells 2 g.board n = twos

/-! ## Checked indexing

The same functions with every index into the vectors checked: a read or write
outside the vectors yields `none` (for the search: `Outcome.outOfRange`) in
place of the undefined behaviour of C++.  The short-circuit `&&` of the source
is kept: a guarded read is only performed when its guard holds. -/

/-- The read `b[x][y]`, `none` when an index is outside its vector. -/
def readCell (b : Board) (x y : Int) : Option Int :=
  if 0 ≤ x ∧ 0 ≤ y then
    match b[x.toNat]? with
    | none => none
    | some row => row[y.toNat]?
  else none

/-- The write `b[x][y] = v`, `none` when an index is outside its vector. -/
def writeCell (b : Board) (x y : Int) (v : Int) : Option Board :=
  if 0 ≤ x ∧ 0 ≤ y then
    match b[x.toNat]? with
    | none => none
    | some row =>
      if y.toNat < row.length then some (b.set x.toNat (row.set y.toNat v)) else none
  else none

/-- `MigrationGame::getCell`: `return board[x][y];`, with the indexing checked. -/
def MigrationGame.getCell (g : MigrationGame) (x y : Int) : Option Int :=
  readCell g.board x y

/-- Loop body of `getMovesStatic` with checked reads; `b[nx][ny]` is read only
after the four bounds tests of the `&&` chain have passed. -/
def getMovesStepC (p : Int) (b : Board) (n : Int) (dx dy : Int)
    (moves : Option (List Move)) (x y : Int) : Option (List Move) :=
  match moves with
  | none => none
  | some moves =>
    match readCell b x y with
    | none => none
    | some c =>
      if c = p then
        let nx := x + dx
        let ny := y + dy
        if nx ≥ 0 ∧ ny ≥ 0 ∧ nx < n ∧ ny < n then
          match readCell b nx ny with
          | none => none
          | some d => if d = 0 then some (moves ++ [⟨x, y, nx, ny⟩]) else some moves
        else some moves
      else some moves

/-- `getMovesStatic` with checked reads. -/
def getMovesStaticC (p : Int) (b : Board) (n : Int) : Option (List Move) :=
  let dx : Int := if p = 2 then 1 else 0
  let dy : Int := if p = 1 then -1 else 0
  (List.range n.toNat).foldl
    (fun (moves : Option (List Move)) (i : Nat) =>
      (List.range n.toNat).foldl
        (fun (moves : Option (List Move)) (j : Nat) =>
          getMovesStepC p b n dx dy moves (i : Int) (j : Int)) moves)
    (some [])

/-- Loop body of `evaluate` with checked reads: `b[x][y]` is read twice. -/
def evaluateStepC (b : Board) (n : Int) (score : Option Int) (x y : Int) : Option Int :=
  match score with
  | none => none
  | some score =>
    match readCell b x y with
    | none => none
    | some c =>
      let score := if c = 2 then wrapInt32 (score + wrapInt32 (x * 10)) else score
      match readCell b x y with
      | none => none
      | some c =>
        some (if c = 1 then wrapInt32 (score - wrapInt32 (wrapInt32 (n - y) * 10)) else score)

/-- `evaluate` with checked reads. -/
def evaluateC (b : Board) (n : Int) : Option Int :=
  (List.range n.toNat).foldl
    (fun (score : Option Int) (i : Nat) =>
      (List.range n.toNat).foldl
        (fun (score : Option Int) (j : Nat) => evaluateStepC b n score (i : Int) (j : Int)) score)
    (some 0)

/-- `makeMove` with checked reads and writes. -/
def MigrationGame.makeMoveC (g : MigrationGame) (x1 y1 x2 y2 : Int) : Option MigrationGame :=
  if !g.isValid x1 y1 || !g.isValid x2 y2 then some g
  else
    match readCell g.board x1 y1 with
    | none => none
    | some p =>
      if p = 0 then some g
      else
        match readCell g.board x2 y2 with
        | none => none
        | some d =>
          if d ≠ 0 then some g
          else
            match writeCell g.board x2 y2 p with
            | none => none
            | some board =>
              match writeCell board x1 y1 0 with
              | none => none
              | some board =>
                some { g with board := board,
                              currentPlayer := if g.currentPlayer = 1 then 2 else 1 }

/-- Result of a checked search: a value, fuel exhausted, or an index outside
the vectors. -/
inductive Outcome (α : Type) where
  | ok : α → Outcome α
  | outOfFuel : Outcome α
  | outOfRange : Outcome α

/-- An unchecked result seen as a checked one: `none` is fuel exhaustion. -/
def Outcome.ofOption {α : Type} : Option α → Outcome α
  | none => Outcome.outOfFuel
  | some a => Outcome.ok a

/-- The writes `b[m.x2][m.y2] = v; b[m.x1][m.y1] = 0;`, checked. -/
def applyMoveC (b : Board) (m : Move) (v : Int) : Option Board :=
  match writeCell b m.x2 m.y2 v with
  | none => none
  | some b => writeCell b m.x1 m.y1 0

/-- The writes `b[m.x1][m.y1] = v; b[m.x2][m.y2] = 0;`, checked. -/
def undoMoveC (b : Board) (m : Move) (v : Int) : Option Board :=
  match writeCell b m.x1 m.y1 v with
  | none => none
  | some b => writeCell b m.x2 m.y2 0

/-- The maximizing loop of `minimax` with checked writes. -/
def maxLoopC (call : Board → Int → Int → Outcome (Int × Board)) (beta : Int) :
    List Move → Board → Int → Int → Outcome (Int × Board)
  | [], b, maxEval, _ => Outcome.ok (maxEval, b)
  | m :: ms, b, maxEval, alpha =>
    match applyMoveC b m 2 with
    | none => Outcome.outOfRange
    | some b =>
      match call b alpha beta with
      | Outcome.outOfFuel => Outcome.outOfFuel
      | Outcome.outOfRange => Outcome.outOfRange
      | Outcome.ok (eval, b) =>
        match undoMoveC b m 2 with
        | none => Outcome.outOfRange
        | some b =>
          let maxEval := max maxEval eval
          let alpha := max alpha eval
          if beta ≤ alpha then Outcome.ok (maxEval, b)
          else maxLoopC call beta ms b maxEval alpha

/-- The minimizing loop of `minimax` with checked writes. -/
def minLoopC (call : Board → Int → Int → Outcome (Int × Board)) (alpha : Int) :
    List Move → Board → Int → Int → Outcome (Int × Board)
  | [], b, minEval, _ => Outcome.ok (minEval, b)
  | m :: ms, b, minEval, beta =>
    match applyMoveC b m 1 with
    | none => Outcome.outOfRange
    | some b =>
      match call b alpha beta with
      | Outcome.outOfFuel => Outcome.outOfFuel
      | Outcome.outOfRange => Outcome.outOfRange
      | Outcome.ok (eval, b) =>
        match undoMoveC b m 1 with
        | none => Outcome.outOfRange
        | some b =>
          let minEval := min minEval eval
          let beta := min beta eval
          if beta ≤ alpha then Outcome.ok (minEval, b)
          else minLoopC call alpha ms b minEval beta

/-- `minimax` with checked reads and writes. -/
def minimaxC : Nat → Board → Int → Bool → Int → Int → Int → Outcome (Int × Board)
  | 0, _, _, _, _, _, _ => Outcome.outOfFuel
  | fuel + 1, b, depth, isMax, alpha, beta, n =>
    if depth = 0 then
      match evaluateC b n with
      | none => Outcome.outOfRange
      | some score => Outcome.ok (score, b)
    else
      let player : Int := if isMax then 2 else 1
      match getMovesStaticC player b n with
      | none => Outcome.outOfRange
      | some moves =>
        if moves.isEmpty then Outcome.ok (if isMax then -10000 else 10000, b)
        else if isMax then
          maxLoopC (fun b a be => minimaxC fuel b (depth - 1) false a be n) beta
            moves b (-100000) alpha
        else
          minLoopC (fun b a be => minimaxC fuel b (depth - 1) true a be n) alpha
            moves b 100000 beta

/-- The root loop of `decideMove` with checked writes. -/
def decideLoopC (call : Board → Outcome (Int × Board)) :
    List Move → Board → Int → Move → Outcome (Move × Int × Board)
  | [], b, maxEval, bestMove => Outcome.ok (bestMove, maxEval, b)
  | m :: ms, b, maxEval, bestMove =>
    match applyMoveC b m 2 with
    | none => Outcome.outOfRange
    | some b =>
      match call b with
      | Outcome.outOfFuel => Outcome.outOfFuel
      | Outcome.outOfRange => Outcome.outOfRange
      | Outcome.ok (eval, b) =>
        match undoMoveC b m 2 with
        | none => Outcome.outOfRange
        | some b =>
          if eval > maxEval then decideLoopC call ms b eval m
          else decideLoopC call ms b maxEval bestMove

/-- `decideMove` with checked reads and writes. -/
def decideMoveC (fuel : Nat) (maxDepth : Int) (board : Board) (n : Int) : Outcome Move :=
  let b := board
  match getMovesStaticC 2 b n with
  | none => Outcome.outOfRange
  | some moves =>
    match moves with
    | [] => Outcome.ok sentinel
    | m0 :: _ =>
      match decideLoopC (fun b => minimaxC fuel b (maxDepth - 1) false (-100000) 100000 n)
          moves b (-100000) m0 with
      | Outcome.outOfFuel => Outcome.outOfFuel
      | Outcome.outOfRange => Outcome.outOfRange
      | Outcome.ok (bestMove, _, _) => Outcome.ok bestMove

/-! ## Boards at the edge of the 32-bit range -/

/-- The `k`×`k` board all of whose cells hold `v`. -/
def constBoard (k : Nat) (v : Int) : Board :=
  List.replicate k (List.replicate k v)

/-- The cells emptied in `edgeBoard`: `(754, 0)` to `(754, 199)` and `(261, 0)`. -/
def edgeCells : List (Int × Int) :=
  ((List.range 200).map fun (j : Nat) => ((754 : Int), (j : Int))) ++ [((261 : Int), (0 : Int))]

/-- The 755×755 board of 2s with the cells of `edgeCells` emptied; its exact
score is 2147483640, ten below `2^31`. -/
def edgeBoard : Board :=
  edgeCells.foldl (fun b c => setCell b c.1 c.2 0) (constBoard 755 2)

/-! # Theorems -/
/-! ## Loops over the grid -/

theorem foldl_grid {α : Type} (f : α → Int → Int → α) (l1 l2 : List Nat) (init : α) :
    l1.foldl (fun acc (i : Nat) => l2.foldl (fun acc (j : Nat) => f acc (i : Int) (j : Int)) acc) init
      = (l1.flatMap fun (i : Nat) => l2.map fun (j : Nat) => ((i : Int), (j : Int))).foldl
          (fun acc c => f acc c.1 c.2) init := by
  induction l1 generalizing init with
  | nil => rfl
  | cons i l1 ih =>
    simp only [List.foldl_cons, List.flatMap_cons, List.foldl_append, List.foldl_map]
    exact ih _

theorem mem_cellsInOrder {n : Int} {c : Int × Int} :
    c ∈ cellsInOrder n ↔ 0 ≤ c.1 ∧ c.1 < n ∧ 0 ≤ c.2 ∧ c.2 < n := by
  obtain ⟨x, y⟩ := c
  unfold cellsInOrder
  rw [List.mem_flatMap]
  constructor
  · rintro ⟨i, hi, hc⟩
    rw [List.mem_map] at hc
    obtain ⟨j, hj, hc⟩ := hc
    rw [List.mem_range] at hi hj
    rw [Prod.mk.injEq] at hc
    obtain ⟨h1, h2⟩ := hc
    simp only
    omega
  · intro h
    simp only at h
    refine ⟨x.toNat, List.mem_range.2 (by omega), ?_⟩
    rw [List.mem_map]
    refine ⟨y.toNat, List.mem_range.2 (by omega), ?_⟩
    rw [Prod.mk.injEq]
    omega

theorem foldl_push (p : Int) (b : Board) (n : Int) (l : List (Int × Int)) (init : List Move) :
    l.foldl (fun moves c => getMovesStep p b n (if p = 2 then 1 else 0)
        (if p = 1 then -1 else 0) moves c.1 c.2) init
      = init ++ l.filterMap (srcStep p b n) := by
  induction l generalizing init with
  | nil => simp
  | cons c l ih =>
    rw [List.foldl_cons, ih]
    by_cases h1 : cell b c.1 c.2 = p
    · by_cases h2 : c.1 + (if p = 2 then 1 else 0) ≥ 0 ∧ c.2 + (if p = 1 then -1 else 0) ≥ 0 ∧
          c.1 + (if p = 2 then 1 else 0) < n ∧ c.2 + (if p = 1 then -1 else 0) < n ∧
          cell b (c.1 + (if p = 2 then 1 else 0)) (c.2 + (if p = 1 then -1 else 0)) = 0
      · have h3 : srcStep p b n c = some ⟨c.1, c.2, c.1 + (if p = 2 then 1 else 0),
            c.2 + (if p = 1 then -1 else 0)⟩ := by
          simp only [srcStep]; rw [if_pos ⟨h1, h2⟩]
        rw [List.filterMap_cons, h3]
        simp only [getMovesStep]
        rw [if_pos h1, if_pos h2]
        simp
      · have h3 : srcStep p b n c = none := by
          simp only [srcStep]; rw [if_neg (fun h => h2 h.2)]
        rw [List.filterMap_cons, h3]
        simp only [getMovesStep]
        rw [if_pos h1, if_neg h2]
    · have h3 : srcStep p b n c = none := by
        simp only [srcStep]; rw [if_neg (fun h => h1 h.1)]
      rw [List.filterMap_cons, h3]
      simp only [getMovesStep]
      rw [if_neg h1]

theorem getMovesStatic_eq_filterMap (p : Int) (b : Board) (n : Int) :
    getMovesStatic p b n = (cellsInOrder n).filterMap (srcStep p b n) := by
  unfold getMovesStatic
  simp only []
  rw [foldl_grid (fun moves x y => getMovesStep p b n (if p = 2 then 1 else 0)
        (if p = 1 then -1 else 0) moves x y)]
  rw [foldl_push]
  simp [cellsInOrder]

theorem mem_getMovesStatic {p : Int} {b : Board} {n : Int} {m : Move} :
    m ∈ getMovesStatic p b n ↔
      (0 ≤ m.x1 ∧ m.x1 < n ∧ 0 ≤ m.y1 ∧ m.y1 < n) ∧ cell b m.x1 m.y1 = p ∧
      m.x2 = m.x1 + (if p = 2 then 1 else 0) ∧ m.y2 = m.y1 + (if p = 1 then -1 else 0) ∧
      (0 ≤ m.x2 ∧ m.x2 < n ∧ 0 ≤ m.y2 ∧ m.y2 < n) ∧ cell b m.x2 m.y2 = 0 := by
  rw [getMovesStatic_eq_filterMap, List.mem_filterMap]
  constructor
  · rintro ⟨c, hc, hm⟩
    rw [mem_cellsInOrder] at hc
    by_cases h : cell b c.1 c.2 = p ∧ c.1 + (if p = 2 then 1 else 0) ≥ 0 ∧
        c.2 + (if p = 1 then -1 else 0) ≥ 0 ∧ c.1 + (if p = 2 then 1 else 0) < n ∧
        c.2 + (if p = 1 then -1 else 0) < n ∧
        cell b (c.1 + (if p = 2 then 1 else 0)) (c.2 + (if p = 1 then -1 else 0)) = 0
    · simp only [srcStep] at hm
      rw [if_pos h] at hm
      cases hm
      refine ⟨hc, h.1, rfl, rfl, ⟨?_, ?_, ?_, ?_⟩, h.2.2.2.2.2⟩ <;> simp only <;> omega
    · simp only [srcStep] at hm
      rw [if_neg h] at hm
      cases hm
  · rintro ⟨h1, h2, h3, h4, h5, h6⟩
    refine ⟨(m.x1, m.y1), mem_cellsInOrder.2 h1, ?_⟩
    simp only [srcStep]
    rw [if_pos]
    · cases m; simp only at h3 h4; simp [h3, h4]
    · rw [← h3, ← h4]
      exact ⟨h2, h5.1, h5.2.2.1, h5.2.1, h5.2.2.2, h6⟩


theorem nodup_cellsInOrder (n : Int) : (cellsInOrder n).Nodup := by
  unfold cellsInOrder
  rw [List.nodup_flatMap]
  constructor
  · intro i _
    refine List.Nodup.map ?_ (List.nodup_range _)
    intro j1 j2 h
    simp only [Prod.mk.injEq, true_and] at h
    exact Int.ofNat_inj.1 h
  · refine List.Pairwise.imp ?_ (List.nodup_range n.toNat)
    intro i1 i2 hne
    show List.Disjoint _ _
    intro c h1 h2
    rw [List.mem_map] at h1 h2
    obtain ⟨j1, _, e1⟩ := h1
    obtain ⟨j2, _, e2⟩ := h2
    rw [← e2, Prod.mk.injEq] at e1
    exact hne (Int.ofNat_inj.1 e1.1)

theorem srcStep_source {p : Int} {b : Board} {n : Int} {c : Int × Int} {m : Move}
    (h : srcStep p b n c = some m) : (m.x1, m.y1) = c := by
  by_cases hc : cell b c.1 c.2 = p ∧ c.1 + (if p = 2 then 1 else 0) ≥ 0 ∧
      c.2 + (if p = 1 then -1 else 0) ≥ 0 ∧ c.1 + (if p = 2 then 1 else 0) < n ∧
      c.2 + (if p = 1 then -1 else 0) < n ∧
      cell b (c.1 + (if p = 2 then 1 else 0)) (c.2 + (if p = 1 then -1 else 0)) = 0
  · simp only [srcStep] at h
    rw [if_pos hc] at h
    cases h; rfl
  · simp only [srcStep] at h
    rw [if_neg hc] at h
    cases h

/-- C2: for `p` in {1,2} and an `n`×`n` board, `getMovesStatic p b n` is the list
obtained by visiting the cells in x-major, y-minor order and emitting, for each
cell holding `p`, the single move to the offset cell ((1,0) for player 2, (0,-1)
for player 1) exactly when that cell is inside the grid and empty; no two emitted
moves have the same source cell. -/
theorem getMovesStatic_eq_specMoves (p : Int) (b : Board) (n : Int)
    (hp : p = 1 ∨ p = 2) (_hb : IsBoard b n) :
    getMovesStatic p b n = specMoves p b n ∧
      ((getMovesStatic p b n).map fun m => (m.x1, m.y1)).Nodup := by
  constructor
  · rw [getMovesStatic_eq_filterMap]
    unfold specMoves
    congr 1
    funext c
    rcases hp with rfl | rfl
    · simp only [srcStep, specOffset, show ¬ ((1 : Int) = 2) by decide, if_false, if_true]
      apply if_congr _ rfl rfl
      constructor
      · rintro ⟨h1, h2, h3, h4, h5, h6⟩
        exact ⟨h1, ⟨h2, h4, h3, h5⟩, h6⟩
      · rintro ⟨h1, ⟨h2, h4, h3, h5⟩, h6⟩
        exact ⟨h1, h2, h3, h4, h5, h6⟩
    · simp only [srcStep, specOffset, show ¬ ((2 : Int) = 1) by decide, if_false, if_true]
      apply if_congr _ rfl rfl
      constructor
      · rintro ⟨h1, h2, h3, h4, h5, h6⟩
        exact ⟨h1, ⟨h2, h4, h3, h5⟩, h6⟩
      · rintro ⟨h1, ⟨h2, h4, h3, h5⟩, h6⟩
        exact ⟨h1, h2, h3, h4, h5, h6⟩
  · rw [getMovesStatic_eq_filterMap]
    have hsub : ((cellsInOrder n).filterMap (srcStep p b n)).map (fun m => (m.x1, m.y1))
        = (cellsInOrder n).filter (fun c => (srcStep p b n c).isSome) := by
      generalize cellsInOrder n = l
      induction l with
      | nil => rfl
      | cons c l ih =>
        cases h : srcStep p b n c with
        | none => simp only [List.filterMap_cons, h, List.filter_cons, Option.isSome_none]; exact ih
        | some m =>
          simp only [List.filterMap_cons, h, List.filter_cons, Option.isSome_some, List.map_cons,
            if_true]
          rw [ih, srcStep_source h]
    rw [hsub]
    exact (nodup_cellsInOrder n).filter _

/-- Witness for C2: on the 2×2 board whose only piece is a 2 at (0,0) the move
list is exactly `[(0,0,1,0)]`. -/
theorem getMovesStatic_eq_specMoves_witness :
    getMovesStatic 2 [[2, 0], [0, 0]] 2 = [⟨0, 0, 1, 0⟩] :=
  (getMovesStatic_eq_specMoves 2 [[2, 0], [0, 0]] 2 (Or.inr rfl) (by decide)).1.trans
    (by decide)

/-- C6: every move of `getMovesStatic p b n` on an `n`×`n` board has its source
holding `p`, its destination empty, and both coordinate pairs inside the grid. -/
theorem getMovesStatic_sound (p : Int) (b : Board) (n : Int) (_hb : IsBoard b n)
    (m : Move) (hm : m ∈ getMovesStatic p b n) :
    cell b m.x1 m.y1 = p ∧ cell b m.x2 m.y2 = 0 ∧
      (0 ≤ m.x1 ∧ m.x1 < n ∧ 0 ≤ m.y1 ∧ m.y1 < n) ∧
      (0 ≤ m.x2 ∧ m.x2 < n ∧ 0 ≤ m.y2 ∧ m.y2 < n) := by
  obtain ⟨h1, h2, _, _, h5, h6⟩ := mem_getMovesStatic.1 hm
  exact ⟨h2, h6, h1, h5⟩

/-- Witness for C6 on a 3×3 board with one piece of player 1. -/
theorem getMovesStatic_sound_witness :
    cell [[0, 0, 0], [0, 0, 1], [0, 0, 0]] 1 2 = 1 ∧ cell [[0, 0, 0], [0, 0, 1], [0, 0, 0]] 1 1 = 0 ∧
      ((0 : Int) ≤ 1 ∧ (1 : Int) < 3 ∧ (0 : Int) ≤ 2 ∧ (2 : Int) < 3) ∧
      ((0 : Int) ≤ 1 ∧ (1 : Int) < 3 ∧ (0 : Int) ≤ 1 ∧ (1 : Int) < 3) :=
  getMovesStatic_sound 1 [[0, 0, 0], [0, 0, 1], [0, 0, 0]] 3 (by decide) ⟨1, 2, 1, 1⟩ (by decide)

/-! ## Reads and writes of single cells -/

theorem cell_setCell_other (b : Board) (x y v x' y' : Int) (h : ¬ (x' = x ∧ y' = y)) :
    cell (setCell b x y v) x' y' = cell b x' y' := by
  unfold cell setCell
  by_cases hxy : 0 ≤ x ∧ 0 ≤ y
  · rw [if_pos hxy]
    by_cases hxy' : 0 ≤ x' ∧ 0 ≤ y'
    · rw [if_pos hxy', if_pos hxy']
      simp only [List.getD_eq_getElem?_getD, List.getElem?_set]
      by_cases hx : x.toNat = x'.toNat
      · have hy : y.toNat ≠ y'.toNat := by omega
        rw [if_pos hx]
        by_cases hlt : x.toNat < b.length
        · rw [if_pos hlt]
          simp only [Option.getD_some, List.getElem?_set, if_neg hy, hx]
        · rw [if_neg hlt]
          have : b[x'.toNat]? = none := by
            rw [List.getElem?_eq_none_iff]; omega
          rw [this]
      · rw [if_neg hx]
    · rw [if_neg hxy', if_neg hxy']
  · rw [if_neg hxy]

theorem cell_setCell_same (b : Board) (n : Int) (hb : IsBoard b n) (x y v : Int)
    (hx : 0 ≤ x ∧ x < n) (hy : 0 ≤ y ∧ y < n) :
    cell (setCell b x y v) x y = v := by
  obtain ⟨_, hlen, hrow⟩ := hb
  have hlt : x.toNat < b.length := by omega
  have hr : (b[x.toNat]).length = n.toNat := hrow _ (List.getElem_mem _)
  unfold cell setCell
  rw [if_pos ⟨hx.1, hy.1⟩, if_pos ⟨hx.1, hy.1⟩]
  simp only [List.getD_eq_getElem?_getD, List.getElem?_set, if_true, if_pos hlt,
    Option.getD_some, List.getElem?_eq_getElem hlt]
  rw [if_pos (by omega)]
  rfl

theorem isBoard_setCell (b : Board) (n : Int) (hb : IsBoard b n) (x y v : Int) :
    IsBoard (setCell b x y v) n := by
  obtain ⟨hn, hlen, hrow⟩ := hb
  unfold setCell
  split
  · by_cases hlt : x.toNat < b.length
    · refine ⟨hn, by rw [List.length_set]; exact hlen, ?_⟩
      intro row hmem
      rcases List.mem_or_eq_of_mem_set hmem with h | h
      · exact hrow row h
      · rw [h, List.length_set, List.getD_eq_getElem?_getD, List.getElem?_eq_getElem hlt]
        exact hrow _ (List.getElem_mem _)
    · rw [List.set_eq_of_length_le (by omega)]
      exact ⟨hn, hlen, hrow⟩
  · exact ⟨hn, hlen, hrow⟩

theorem board_ext (b b' : Board) (n : Int) (hb : IsBoard b n) (hb' : IsBoard b' n)
    (h : ∀ x y : Int, 0 ≤ x → x < n → 0 ≤ y → y < n → cell b x y = cell b' x y) : b = b' := by
  obtain ⟨hn, hlen, hrow⟩ := hb
  obtain ⟨_, hlen', hrow'⟩ := hb'
  apply List.ext_getElem (by omega)
  intro i h1 h2
  have hr : (b[i]).length = n.toNat := hrow _ (List.getElem_mem _)
  have hr' : (b'[i]).length = n.toNat := hrow' _ (List.getElem_mem _)
  apply List.ext_getElem (by omega)
  intro j h3 h4
  have hc := h (i : Int) (j : Int) (by omega) (by omega) (by omega) (by omega)
  unfold cell at hc
  rw [if_pos (by omega), if_pos (by omega)] at hc
  simp only [Int.toNat_ofNat, List.getD_eq_getElem?_getD, List.getElem?_eq_getElem h1,
    List.getElem?_eq_getElem h2, Option.getD_some, List.getElem?_eq_getElem h3,
    List.getElem?_eq_getElem h4] at hc
  exact hc

theorem cell_applyMove (b : Board) (n : Int) (hb : IsBoard b n) (m : Move) (v : Int)
    (h1 : 0 ≤ m.x1 ∧ m.x1 < n ∧ 0 ≤ m.y1 ∧ m.y1 < n)
    (h2 : 0 ≤ m.x2 ∧ m.x2 < n ∧ 0 ≤ m.y2 ∧ m.y2 < n) (x y : Int) :
    cell (applyMove b m v) x y =
      if x = m.x1 ∧ y = m.y1 then 0 else if x = m.x2 ∧ y = m.y2 then v else cell b x y := by
  unfold applyMove
  by_cases hs : x = m.x1 ∧ y = m.y1
  · rw [if_pos hs, hs.1, hs.2]
    exact cell_setCell_same _ n (isBoard_setCell b n hb _ _ _) _ _ _ ⟨h1.1, h1.2.1⟩ h1.2.2
  · rw [if_neg hs, cell_setCell_other _ _ _ _ _ _ hs]
    by_cases hd : x = m.x2 ∧ y = m.y2
    · rw [if_pos hd, hd.1, hd.2]
      exact cell_setCell_same b n hb _ _ _ ⟨h2.1, h2.2.1⟩ h2.2.2
    · rw [if_neg hd, cell_setCell_other _ _ _ _ _ _ hd]

theorem isBoard_applyMove (b : Board) (n : Int) (hb : IsBoard b n) (m : Move) (v : Int) :
    IsBoard (applyMove b m v) n :=
  isBoard_setCell _ n (isBoard_setCell b n hb _ _ _) _ _ _

/-- Undoing a just-applied move restores the board, when the move's source held
`v`, its destination was empty, and both lie inside the grid. -/
theorem undoMove_applyMove (b : Board) (n : Int) (hb : IsBoard b n) (m : Move) (v : Int)
    (h1 : 0 ≤ m.x1 ∧ m.x1 < n ∧ 0 ≤ m.y1 ∧ m.y1 < n)
    (h2 : 0 ≤ m.x2 ∧ m.x2 < n ∧ 0 ≤ m.y2 ∧ m.y2 < n)
    (hs : cell b m.x1 m.y1 = v) (hd : cell b m.x2 m.y2 = 0) :
    undoMove (applyMove b m v) m v = b := by
  have hA := isBoard_applyMove b n hb m v
  apply board_ext _ _ n (isBoard_setCell _ n (isBoard_setCell _ n hA _ _ _) _ _ _) hb
  intro x y _ _ _ _
  by_cases hdq : x = m.x2 ∧ y = m.y2
  · rw [hdq.1, hdq.2, cell_setCell_same _ n (isBoard_setCell _ n hA _ _ _) _ _ _
      ⟨h2.1, h2.2.1⟩ h2.2.2, hd]
  · rw [cell_setCell_other _ _ _ _ _ _ hdq]
    by_cases hsq : x = m.x1 ∧ y = m.y1
    · rw [hsq.1, hsq.2, cell_setCell_same _ n hA _ _ _ ⟨h1.1, h1.2.1⟩ h1.2.2, hs]
    · rw [cell_setCell_other _ _ _ _ _ _ hsq, cell_applyMove b n hb m v h1 h2,
        if_neg hsq, if_neg hdq]

/-! ## `makeMove` -/

theorem isValid_iff (g : MigrationGame) (x y : Int) :
    g.isValid x y = true ↔ 0 ≤ x ∧ x < g.n ∧ 0 ≤ y ∧ y < g.n := by
  unfold MigrationGame.isValid
  simp only [Bool.and_eq_true, decide_eq_true_eq]
  constructor
  · rintro ⟨⟨⟨h1, h2⟩, h3⟩, h4⟩
    exact ⟨h1, h3, h2, h4⟩
  · rintro ⟨h1, h3, h2, h4⟩
    exact ⟨⟨⟨h1, h2⟩, h3⟩, h4⟩

/-- The three guards of `makeMove` seen as one condition. -/
theorem makeMove_of_rejected (g : MigrationGame) (x1 y1 x2 y2 : Int)
    (h : ¬ (0 ≤ x1 ∧ x1 < g.n ∧ 0 ≤ y1 ∧ y1 < g.n) ∨ ¬ (0 ≤ x2 ∧ x2 < g.n ∧ 0 ≤ y2 ∧ y2 < g.n) ∨
      cell g.board x1 y1 = 0 ∨ cell g.board x2 y2 ≠ 0) :
    g.makeMove x1 y1 x2 y2 = g := by
  unfold MigrationGame.makeMove
  by_cases hv : (!g.isValid x1 y1 || !g.isValid x2 y2) = true
  · rw [if_pos hv]
  · rw [if_neg hv]
    simp only [Bool.or_eq_true, Bool.not_eq_true', not_or, Bool.not_eq_false, isValid_iff] at hv
    rcases h with h | h | h | h
    · exact absurd hv.1 h
    · exact absurd hv.2 h
    · simp only [h, if_true]
    · by_cases h0 : cell g.board x1 y1 = 0
      · simp only [h0, if_true]
      · simp only [h0, if_false, h, ne_eq, not_false_eq_true, if_true]

theorem makeMove_of_accepted (g : MigrationGame) (x1 y1 x2 y2 : Int)
    (h1 : 0 ≤ x1 ∧ x1 < g.n ∧ 0 ≤ y1 ∧ y1 < g.n) (h2 : 0 ≤ x2 ∧ x2 < g.n ∧ 0 ≤ y2 ∧ y2 < g.n)
    (hs : cell g.board x1 y1 ≠ 0) (hd : cell g.board x2 y2 = 0) :
    g.makeMove x1 y1 x2 y2 =
      { g with board := applyMove g.board ⟨x1, y1, x2, y2⟩ (cell g.board x1 y1),
               currentPlayer := if g.currentPlayer = 1 then 2 else 1 } := by
  unfold MigrationGame.makeMove
  have hv : ¬ ((!g.isValid x1 y1 || !g.isValid x2 y2) = true) := by
    simp only [Bool.or_eq_true, Bool.not_eq_true', not_or, Bool.not_eq_false, isValid_iff]
    exact ⟨h1, h2⟩
  rw [if_neg hv]
  simp only [hs, if_false, hd, ne_eq, not_true_eq_false, applyMove]

/-- C8: if a coordinate pair lies outside the grid, or the source cell is empty,
or the destination cell is occupied, `makeMove` leaves the whole state (board,
`currentPlayer`, `n`) unchanged. -/
theorem makeMove_rejected (g : MigrationGame) (x1 y1 x2 y2 : Int)
    (h : ¬ (0 ≤ x1 ∧ x1 < g.n ∧ 0 ≤ y1 ∧ y1 < g.n) ∨ ¬ (0 ≤ x2 ∧ x2 < g.n ∧ 0 ≤ y2 ∧ y2 < g.n) ∨
      cell g.board x1 y1 = 0 ∨ cell g.board x2 y2 ≠ 0) :
    (g.makeMove x1 y1 x2 y2).board = g.board ∧
      (g.makeMove x1 y1 x2 y2).currentPlayer = g.currentPlayer ∧
      (g.makeMove x1 y1 x2 y2).n = g.n := by
  rw [makeMove_of_rejected g x1 y1 x2 y2 h]
  exact ⟨rfl, rfl, rfl⟩

/-- Witness for C8: a move onto an occupied cell (scenario 3). -/
theorem makeMove_rejected_witness :
    ((⟨3, 1, [[2, 0, 0], [1, 0, 0], [0, 0, 0]], 3⟩ : MigrationGame).makeMove 0 0 1 0).board
        = [[2, 0, 0], [1, 0, 0], [0, 0, 0]] ∧
      ((⟨3, 1, [[2, 0, 0], [1, 0, 0], [0, 0, 0]], 3⟩ : MigrationGame).makeMove 0 0 1 0).currentPlayer
        = 1 ∧
      ((⟨3, 1, [[2, 0, 0], [1, 0, 0], [0, 0, 0]], 3⟩ : MigrationGame).makeMove 0 0 1 0).n = 3 :=
  makeMove_rejected ⟨3, 1, [[2, 0, 0], [1, 0, 0], [0, 0, 0]], 3⟩ 0 0 1 0
    (Or.inr (Or.inr (Or.inr (by decide))))

/-- C9: on an `n`×`n` board, with both coordinate pairs inside the grid, the
source holding `p ≠ 0` and the destination empty, `makeMove` puts `p` on the
destination, empties the source, leaves every other cell and `n` unchanged, and
flips `currentPlayer` (1 becomes 2, anything else becomes 1). -/
theorem makeMove_applied (g : MigrationGame) (x1 y1 x2 y2 p : Int)
    (hb : IsBoard g.board g.n)
    (h1 : 0 ≤ x1 ∧ x1 < g.n ∧ 0 ≤ y1 ∧ y1 < g.n) (h2 : 0 ≤ x2 ∧ x2 < g.n ∧ 0 ≤ y2 ∧ y2 < g.n)
    (hs : cell g.board x1 y1 = p) (hp : p ≠ 0) (hd : cell g.board x2 y2 = 0) :
    cell (g.makeMove x1 y1 x2 y2).board x2 y2 = p ∧
      cell (g.makeMove x1 y1 x2 y2).board x1 y1 = 0 ∧
      (∀ x y : Int, ¬ (x = x1 ∧ y = y1) → ¬ (x = x2 ∧ y = y2) →
        cell (g.makeMove x1 y1 x2 y2).board x y = cell g.board x y) ∧
      IsBoard (g.makeMove x1 y1 x2 y2).board g.n ∧
      (g.makeMove x1 y1 x2 y2).n = g.n ∧
      (g.makeMove x1 y1 x2 y2).currentPlayer = (if g.currentPlayer = 1 then 2 else 1) := by
  have hne : ¬ (x2 = x1 ∧ y2 = y1) := by
    rintro ⟨e1, e2⟩
    rw [e1, e2, hs] at hd
    exact hp hd
  rw [makeMove_of_accepted g x1 y1 x2 y2 h1 h2 (by rw [hs]; exact hp) hd]
  simp only
  have hc := cell_applyMove g.board g.n hb ⟨x1, y1, x2, y2⟩ (cell g.board x1 y1) h1 h2
  simp only at hc
  refine ⟨?_, ?_, ?_, isBoard_applyMove _ _ hb _ _, trivial, trivial⟩
  · rw [hc, if_neg hne, if_pos ⟨rfl, rfl⟩, hs]
  · rw [hc, if_pos ⟨rfl, rfl⟩]
  · intro x y hx hy
    rw [hc, if_neg hx, if_neg hy]

/-- Witness for C9: player 1 steps from (1,2) to (1,1) on a 3×3 board. -/
theorem makeMove_applied_witness :
    cell ((⟨3, 1, [[2, 0, 0], [0, 0, 1], [0, 0, 0]], 3⟩ : MigrationGame).makeMove 1 2 1 1).board 1 1
        = 1 ∧
      ((⟨3, 1, [[2, 0, 0], [0, 0, 1], [0, 0, 0]], 3⟩ : MigrationGame).makeMove 1 2 1 1).currentPlayer
        = 2 :=
  have h := makeMove_applied ⟨3, 1, [[2, 0, 0], [0, 0, 1], [0, 0, 0]], 3⟩ 1 2 1 1 1
    (by decide) (by decide) (by decide) (by decide) (by decide) (by decide)
  ⟨h.1, h.2.2.2.2.2⟩

/-- C10 as stated fails: with player 1 to move, `makeMove 0 0 1 0` moves the
piece of player 2 although `(0,0,1,0)` is not among the moves generated for the
current player; the board changes and `currentPlayer` flips. -/
theorem makeMove_ignores_turn_counterexample :
    ¬ ((⟨0, 0, 1, 0⟩ : Move) ∉ getMovesStatic 1 [[2, 0, 0], [0, 0, 1], [0, 0, 0]] 3 →
        ((⟨3, 1, [[2, 0, 0], [0, 0, 1], [0, 0, 0]], 3⟩ : MigrationGame).makeMove 0 0 1 0).board
            = [[2, 0, 0], [0, 0, 1], [0, 0, 0]] ∧
          ((⟨3, 1, [[2, 0, 0], [0, 0, 1], [0, 0, 0]], 3⟩ : MigrationGame).makeMove 0 0 1 0).currentPlayer
            = 1) := by
  decide

/-- C10 amended: `makeMove` changes neither the board nor `currentPlayer` if and
only if a coordinate pair lies outside the grid, or the source cell is empty, or
the destination cell is occupied.  These three guards are the only legality
checks: whose piece it is and where it goes are not examined. -/
theorem makeMove_ignored_iff (g : MigrationGame) (x1 y1 x2 y2 : Int)
    (_hb : IsBoard g.board g.n) :
    ((g.makeMove x1 y1 x2 y2).board = g.board ∧
        (g.makeMove x1 y1 x2 y2).currentPlayer = g.currentPlayer) ↔
      (¬ (0 ≤ x1 ∧ x1 < g.n ∧ 0 ≤ y1 ∧ y1 < g.n) ∨ ¬ (0 ≤ x2 ∧ x2 < g.n ∧ 0 ≤ y2 ∧ y2 < g.n) ∨
        cell g.board x1 y1 = 0 ∨ cell g.board x2 y2 ≠ 0) := by
  constructor
  · rintro ⟨_, hcp⟩
    by_contra hno
    simp only [not_or, not_not] at hno
    obtain ⟨h1, h2, hs, hd⟩ := hno
    rw [makeMove_of_accepted g x1 y1 x2 y2 h1 h2 hs hd] at hcp
    simp only at hcp
    by_cases hc : g.currentPlayer = 1
    · rw [if_pos hc] at hcp; omega
    · rw [if_neg hc] at hcp; omega
  · intro h
    rw [makeMove_of_rejected g x1 y1 x2 y2 h]
    exact ⟨rfl, rfl⟩

/-- Witness for C10 amended: the out-of-turn move of the counterexample passes
all three guards, so it is not ignored. -/
theorem makeMove_ignored_iff_witness :
    ¬ (((⟨3, 1, [[2, 0, 0], [0, 0, 1], [0, 0, 0]], 3⟩ : MigrationGame).makeMove 0 0 1 0).board
          = [[2, 0, 0], [0, 0, 1], [0, 0, 0]] ∧
        ((⟨3, 1, [[2, 0, 0], [0, 0, 1], [0, 0, 0]], 3⟩ : MigrationGame).makeMove 0 0 1 0).currentPlayer
          = 1) :=
  fun h => absurd
    ((makeMove_ignored_iff ⟨3, 1, [[2, 0, 0], [0, 0, 1], [0, 0, 0]], 3⟩ 0 0 1 0 (by decide)).1 h)
    (by decide)

/-! ## Weighted sums over the grid -/

theorem sum_map_congr_off {α : Type} (F G : α → Int) (c0 : α) (l : List α)
    (hFG : ∀ c, c ≠ c0 → G c = F c) (hnot : c0 ∉ l) : (l.map G).sum = (l.map F).sum := by
  induction l with
  | nil => rfl
  | cons c l ih =>
    have hc : c ≠ c0 := fun h => hnot (by rw [h]; exact List.mem_cons_self _ _)
    have hl : c0 ∉ l := fun h => hnot (List.mem_cons_of_mem _ h)
    rw [List.map_cons, List.map_cons, List.sum_cons, List.sum_cons, ih hl, hFG c hc]

theorem sum_map_update {α : Type} (F G : α → Int) (c0 : α) (l : List α)
    (hFG : ∀ c, c ≠ c0 → G c = F c) (hnd : l.Nodup) (hmem : c0 ∈ l) :
    (l.map G).sum = (l.map F).sum - F c0 + G c0 := by
  induction l with
  | nil => cases hmem
  | cons c l ih =>
    rw [List.nodup_cons] at hnd
    rw [List.map_cons, List.map_cons, List.sum_cons, List.sum_cons]
    by_cases hc : c = c0
    · subst hc
      rw [sum_map_congr_off F G c l hFG hnd.1]
      omega
    · have hl : c0 ∈ l := by
        rcases List.mem_cons.1 hmem with h | h
        · exact absurd h.symm hc
        · exact h
      rw [ih hnd.2 hl, hFG c hc]
      omega

theorem cellSum_setCell (w : Int → Int → Int → Int) (b : Board) (n : Int) (hb : IsBoard b n)
    (x y v : Int) (hx : 0 ≤ x ∧ x < n) (hy : 0 ≤ y ∧ y < n) :
    cellSum w (setCell b x y v) n = cellSum w b n - w (cell b x y) x y + w v x y := by
  unfold cellSum
  have h := sum_map_update (fun c : Int × Int => w (cell b c.1 c.2) c.1 c.2)
    (fun c : Int × Int => w (cell (setCell b x y v) c.1 c.2) c.1 c.2) (x, y) (cellsInOrder n)
    (by
      intro c hc
      simp only
      rw [cell_setCell_other]
      intro h
      exact hc (Prod.ext h.1 h.2))
    (nodup_cellsInOrder n) (mem_cellsInOrder.2 ⟨hx.1, hx.2, hy.1, hy.2⟩)
  simp only at h
  rw [h, cell_setCell_same b n hb x y v hx hy]

theorem cellSum_applyMove (w : Int → Int → Int → Int) (b : Board) (n : Int) (hb : IsBoard b n)
    (m : Move) (v : Int)
    (h1 : 0 ≤ m.x1 ∧ m.x1 < n ∧ 0 ≤ m.y1 ∧ m.y1 < n)
    (h2 : 0 ≤ m.x2 ∧ m.x2 < n ∧ 0 ≤ m.y2 ∧ m.y2 < n)
    (hne : ¬ (m.x1 = m.x2 ∧ m.y1 = m.y2)) :
    cellSum w (applyMove b m v) n =
      cellSum w b n - w (cell b m.x2 m.y2) m.x2 m.y2 + w v m.x2 m.y2
        - w (cell b m.x1 m.y1) m.x1 m.y1 + w 0 m.x1 m.y1 := by
  unfold applyMove
  rw [cellSum_setCell w _ n (isBoard_setCell b n hb _ _ _) _ _ _ ⟨h1.1, h1.2.1⟩ h1.2.2,
    cellSum_setCell w b n hb _ _ _ ⟨h2.1, h2.2.1⟩ h2.2.2, cell_setCell_other _ _ _ _ _ _ hne]

theorem wrapInt32_range (z : Int) : -2147483648 ≤ wrapInt32 z ∧ wrapInt32 z < 2147483648 := by
  unfold wrapInt32
  omega

theorem wrapInt32_of_range (z : Int) (h1 : -2147483648 ≤ z) (h2 : z < 2147483648) :
    wrapInt32 z = z := by
  unfold wrapInt32
  omega

theorem wrapInt32_add_congr (a a' s : Int) (h : wrapInt32 a = wrapInt32 a') :
    wrapInt32 (a + s) = wrapInt32 (a' + s) := by
  unfold wrapInt32 at *
  omega

theorem wrapInt32_wrap_add (a s : Int) : wrapInt32 (wrapInt32 a + s) = wrapInt32 (a + s) := by
  unfold wrapInt32
  omega

/-- One step of the loop of `evaluate` adds the weight of the cell, modulo 2^32. -/
theorem evaluateStep_wrap (b : Board) (n score x y : Int) :
    wrapInt32 (evaluateStep b n score x y)
      = wrapInt32 (score + evalWeight n (cell b x y) x y) := by
  by_cases h2 : cell b x y = 2
  · have h1 : ¬ cell b x y = 1 := by omega
    simp only [evaluateStep, evalWeight, if_pos h2, if_neg h1]
    unfold wrapInt32
    omega
  · by_cases h1 : cell b x y = 1
    · simp only [evaluateStep, evalWeight, if_neg h2, if_pos h1]
      unfold wrapInt32
      omega
    · simp only [evaluateStep, evalWeight, if_neg h2, if_neg h1, add_zero]

theorem evaluateStep_range (b : Board) (n score x y : Int)
    (h : -2147483648 ≤ score ∧ score < 2147483648) :
    -2147483648 ≤ evaluateStep b n score x y ∧ evaluateStep b n score x y < 2147483648 := by
  by_cases h2 : cell b x y = 2
  · have h1 : ¬ cell b x y = 1 := by omega
    simp only [evaluateStep, if_pos h2, if_neg h1]
    exact wrapInt32_range _
  · by_cases h1 : cell b x y = 1
    · simp only [evaluateStep, if_neg h2, if_pos h1]
      exact wrapInt32_range _
    · simp only [evaluateStep, if_neg h2, if_neg h1]
      exact h

theorem foldl_evaluateStep_wrap (b : Board) (n : Int) (l : List (Int × Int)) (init : Int) :
    wrapInt32 (l.foldl (fun score c => evaluateStep b n score c.1 c.2) init)
      = wrapInt32 (init + (l.map fun c => evalWeight n (cell b c.1 c.2) c.1 c.2).sum) := by
  induction l generalizing init with
  | nil => simp
  | cons c l ih =>
    rw [List.foldl_cons, ih, List.map_cons, List.sum_cons, ← add_assoc]
    exact wrapInt32_add_congr _ _ _ (evaluateStep_wrap b n init c.1 c.2)

theorem foldl_evaluateStep_range (b : Board) (n : Int) (l : List (Int × Int)) (init : Int)
    (h : -2147483648 ≤ init ∧ init < 2147483648) :
    -2147483648 ≤ l.foldl (fun score c => evaluateStep b n score c.1 c.2) init ∧
      l.foldl (fun score c => evaluateStep b n score c.1 c.2) init < 2147483648 := by
  induction l generalizing init with
  | nil => exact h
  | cons c l ih =>
    rw [List.foldl_cons]
    exact ih _ (evaluateStep_range b n init c.1 c.2 h)

/-- The score of `evaluate` is the exact weighted sum over the cells, reduced
to 32 bits. -/
theorem evaluate_eq_wrap_cellSum (b : Board) (n : Int) :
    evaluate b n = wrapInt32 (cellSum (evalWeight n) b n) := by
  have hfold : evaluate b n
      = (cellsInOrder n).foldl (fun score c => evaluateStep b n score c.1 c.2) 0 := by
    unfold evaluate
    rw [foldl_grid (fun score x y => evaluateStep b n score x y)]
    rfl
  have hr := foldl_evaluateStep_range b n (cellsInOrder n) 0 (by omega)
  have hw := foldl_evaluateStep_wrap b n (cellsInOrder n) 0
  rw [← hfold] at hr hw
  rw [wrapInt32_of_range _ hr.1 hr.2, zero_add] at hw
  exact hw

theorem evaluate_range (b : Board) (n : Int) :
    -2147483648 ≤ evaluate b n ∧ evaluate b n < 2147483648 := by
  rw [evaluate_eq_wrap_cellSum]
  exact wrapInt32_range _

theorem cellSum_eq_specEvaluate (b : Board) (n : Int) :
    cellSum (evalWeight n) b n = specEvaluate b n := by
  unfold cellSum specEvaluate
  generalize cellsInOrder n = l
  induction l with
  | nil => rfl
  | cons c l ih =>
    rw [List.map_cons, List.sum_cons, ih]
    by_cases h2 : cell b c.1 c.2 = 2
    · simp [evalWeight, h2, List.filter_cons]
      ring
    · by_cases h1 : cell b c.1 c.2 = 1
      · simp [evalWeight, h1, List.filter_cons]
        ring
      · simp [evalWeight, h2, h1, List.filter_cons]

theorem sum_two_filters (b : Board) (n : Int) (l : List (Int × Int)) :
    ((l.filter fun c => cell b c.1 c.2 = 2).map fun c => n - 1 - c.1).sum
        + ((l.filter fun c => cell b c.1 c.2 = 1).map fun c => c.2).sum
      = (l.map fun c => phiWeight n (cell b c.1 c.2) c.1 c.2).sum := by
  induction l with
  | nil => rfl
  | cons c l ih =>
    rw [List.map_cons, List.sum_cons, ← ih]
    by_cases h2 : cell b c.1 c.2 = 2
    · simp [phiWeight, h2, List.filter_cons]
      ring
    · by_cases h1 : cell b c.1 c.2 = 1
      · simp [phiWeight, h1, List.filter_cons]
        ring
      · simp [phiWeight, h2, h1, List.filter_cons]

theorem Phi_eq_cellSum (b : Board) (n : Int) : Phi b n = cellSum (phiWeight n) b n := by
  unfold Phi cellSum
  exact sum_two_filters b n _

theorem Phi_nonneg (b : Board) (n : Int) : 0 ≤ Phi b n := by
  rw [Phi_eq_cellSum]
  unfold cellSum
  apply List.sum_nonneg
  intro t ht
  rw [List.mem_map] at ht
  obtain ⟨c, hc, rfl⟩ := ht
  rw [mem_cellsInOrder] at hc
  unfold phiWeight
  split
  · omega
  · split
    · omega
    · omega

theorem cellSum_eval_applyMove_two (b : Board) (n : Int) (hb : IsBoard b n) (m : Move)
    (hm : m ∈ getMovesStatic 2 b n) :
    cellSum (evalWeight n) (applyMove b m 2) n = cellSum (evalWeight n) b n + 10 := by
  obtain ⟨h1, hs, hx, hy, h2, hd⟩ := mem_getMovesStatic.1 hm
  simp only [if_true, show ¬ ((2 : Int) = 1) by decide, if_false] at hx hy
  rw [cellSum_applyMove _ b n hb m 2 h1 h2 (by omega), hs, hd]
  simp only [evalWeight, if_true, show ¬ ((0 : Int) = 2) by decide,
    show ¬ ((0 : Int) = 1) by decide, if_false]
  omega

theorem cellSum_eval_applyMove_one (b : Board) (n : Int) (hb : IsBoard b n) (m : Move)
    (hm : m ∈ getMovesStatic 1 b n) :
    cellSum (evalWeight n) (applyMove b m 1) n = cellSum (evalWeight n) b n - 10 := by
  obtain ⟨h1, hs, hx, hy, h2, hd⟩ := mem_getMovesStatic.1 hm
  simp only [if_true, show ¬ ((1 : Int) = 2) by decide, if_false] at hx hy
  rw [cellSum_applyMove _ b n hb m 1 h1 h2 (by omega), hs, hd]
  simp only [evalWeight, if_true, show ¬ ((0 : Int) = 2) by decide,
    show ¬ ((0 : Int) = 1) by decide, show ¬ ((1 : Int) = 2) by decide, if_false]
  omega

/-- A move of player 2 raises the score by 10, in 32-bit arithmetic. -/
theorem evaluate_applyMove_two (b : Board) (n : Int) (hb : IsBoard b n) (m : Move)
    (hm : m ∈ getMovesStatic 2 b n) :
    evaluate (applyMove b m 2) n = wrapInt32 (evaluate b n + 10) := by
  rw [evaluate_eq_wrap_cellSum, evaluate_eq_wrap_cellSum, cellSum_eval_applyMove_two b n hb m hm,
    wrapInt32_wrap_add]

/-- A move of player 1 lowers the score by 10, in 32-bit arithmetic. -/
theorem evaluate_applyMove_one (b : Board) (n : Int) (hb : IsBoard b n) (m : Move)
    (hm : m ∈ getMovesStatic 1 b n) :
    evaluate (applyMove b m 1) n = wrapInt32 (evaluate b n - 10) := by
  rw [evaluate_eq_wrap_cellSum, evaluate_eq_wrap_cellSum, cellSum_eval_applyMove_one b n hb m hm,
    sub_eq_add_neg, sub_eq_add_neg, wrapInt32_wrap_add]

theorem Phi_applyMove (b : Board) (n : Int) (hb : IsBoard b n) (p : Int) (hp : p = 1 ∨ p = 2)
    (m : Move) (hm : m ∈ getMovesStatic p b n) : Phi (applyMove b m p) n = Phi b n - 1 := by
  obtain ⟨h1, hs, hx, hy, h2, hd⟩ := mem_getMovesStatic.1 hm
  rcases hp with rfl | rfl
  · simp only [if_true, show ¬ ((1 : Int) = 2) by decide, if_false] at hx hy
    rw [Phi_eq_cellSum, Phi_eq_cellSum, cellSum_applyMove _ b n hb m 1 h1 h2 (by omega), hs, hd]
    simp only [phiWeight, if_true, show ¬ ((0 : Int) = 2) by decide,
      show ¬ ((0 : Int) = 1) by decide, show ¬ ((1 : Int) = 2) by decide, if_false]
    omega
  · simp only [if_true, show ¬ ((2 : Int) = 1) by decide, if_false] at hx hy
    rw [Phi_eq_cellSum, Phi_eq_cellSum, cellSum_applyMove _ b n hb m 2 h1 h2 (by omega), hs, hd]
    simp only [phiWeight, if_true, show ¬ ((0 : Int) = 2) by decide,
      show ¬ ((0 : Int) = 1) by decide, if_false]
    omega

/-! ## The loops restore the board and compute the scores -/

theorem maxLoop_eq (call : Board → Int → Int → Option (Int × Board))
    (f : Move → Int → Int → Int) (beta : Int) (b : Board) (ms : List Move)
    (hundo : ∀ m ∈ ms, undoMove (applyMove b m 2) m 2 = b)
    (hcall : ∀ m ∈ ms, ∀ a be, call (applyMove b m 2) a be = some (f m a be, applyMove b m 2))
    (maxEval alpha : Int) :
    maxLoop call beta ms b maxEval alpha = some (maxLoopVal beta (ms.map f) maxEval alpha, b) := by
  induction ms generalizing maxEval alpha with
  | nil => rfl
  | cons m ms ih =>
    have hm : m ∈ m :: ms := List.mem_cons_self _ _
    have ih' := ih (fun m' h => hundo m' (List.mem_cons_of_mem _ h))
      (fun m' h => hcall m' (List.mem_cons_of_mem _ h))
    simp only [maxLoop, hcall m hm, hundo m hm, List.map_cons, maxLoopVal]
    by_cases hcut : beta ≤ max alpha (f m alpha beta)
    · rw [if_pos hcut, if_pos hcut]
    · rw [if_neg hcut, if_neg hcut]
      exact ih' _ _

theorem minLoop_eq (call : Board → Int → Int → Option (Int × Board))
    (f : Move → Int → Int → Int) (alpha : Int) (b : Board) (ms : List Move)
    (hundo : ∀ m ∈ ms, undoMove (applyMove b m 1) m 1 = b)
    (hcall : ∀ m ∈ ms, ∀ a be, call (applyMove b m 1) a be = some (f m a be, applyMove b m 1))
    (minEval beta : Int) :
    minLoop call alpha ms b minEval beta = some (minLoopVal alpha (ms.map f) minEval beta, b) := by
  induction ms generalizing minEval beta with
  | nil => rfl
  | cons m ms ih =>
    have hm : m ∈ m :: ms := List.mem_cons_self _ _
    have ih' := ih (fun m' h => hundo m' (List.mem_cons_of_mem _ h))
      (fun m' h => hcall m' (List.mem_cons_of_mem _ h))
    simp only [minLoop, hcall m hm, hundo m hm, List.map_cons, minLoopVal]
    by_cases hcut : min beta (f m alpha beta) ≤ alpha
    · rw [if_pos hcut, if_pos hcut]
    · rw [if_neg hcut, if_neg hcut]
      exact ih' _ _

theorem refMaxLoop_eq (call : Board → Int → Int → Option (Int × Board))
    (f : Move → Int) (beta : Int) (b : Board) (ms : List Move)
    (hundo : ∀ m ∈ ms, undoMove (applyMove b m 2) m 2 = b)
    (hcall : ∀ m ∈ ms, ∀ a be, call (applyMove b m 2) a be = some (f m, applyMove b m 2))
    (maxEval alpha : Int) :
    refMaxLoop call beta ms b maxEval alpha = some ((ms.map f).foldl max maxEval, b) := by
  induction ms generalizing maxEval alpha with
  | nil => rfl
  | cons m ms ih =>
    have hm : m ∈ m :: ms := List.mem_cons_self _ _
    have ih' := ih (fun m' h => hundo m' (List.mem_cons_of_mem _ h))
      (fun m' h => hcall m' (List.mem_cons_of_mem _ h))
    simp only [refMaxLoop, hcall m hm, hundo m hm, List.map_cons, List.foldl_cons]
    exact ih' _ _

theorem refMinLoop_eq (call : Board → Int → Int → Option (Int × Board))
    (f : Move → Int) (alpha : Int) (b : Board) (ms : List Move)
    (hundo : ∀ m ∈ ms, undoMove (applyMove b m 1) m 1 = b)
    (hcall : ∀ m ∈ ms, ∀ a be, call (applyMove b m 1) a be = some (f m, applyMove b m 1))
    (minEval beta : Int) :
    refMinLoop call alpha ms b minEval beta = some ((ms.map f).foldl min minEval, b) := by
  induction ms generalizing minEval beta with
  | nil => rfl
  | cons m ms ih =>
    have hm : m ∈ m :: ms := List.mem_cons_self _ _
    have ih' := ih (fun m' h => hundo m' (List.mem_cons_of_mem _ h))
      (fun m' h => hcall m' (List.mem_cons_of_mem _ h))
    simp only [refMinLoop, hcall m hm, hundo m hm, List.map_cons, List.foldl_cons]
    exact ih' _ _

theorem decideLoop_eq (call : Board → Option (Int × Board)) (s : Move → Int) (b : Board)
    (ms : List Move)
    (hundo : ∀ m ∈ ms, undoMove (applyMove b m 2) m 2 = b)
    (hcall : ∀ m ∈ ms, call (applyMove b m 2) = some (s m, applyMove b m 2))
    (maxEval : Int) (bestMove : Move) :
    decideLoop call ms b maxEval bestMove
      = some ((decideLoopVal s ms maxEval bestMove).1, (decideLoopVal s ms maxEval bestMove).2, b) := by
  induction ms generalizing maxEval bestMove with
  | nil => rfl
  | cons m ms ih =>
    have hm : m ∈ m :: ms := List.mem_cons_self _ _
    have ih' := ih (fun m' h => hundo m' (List.mem_cons_of_mem _ h))
      (fun m' h => hcall m' (List.mem_cons_of_mem _ h))
    simp only [decideLoop, hcall m hm, hundo m hm, decideLoopVal]
    by_cases hgt : s m > maxEval
    · rw [if_pos hgt, if_pos hgt]
      exact ih' _ _
    · rw [if_neg hgt, if_neg hgt]
      exact ih' _ _

/-- Every generated move of player `p` is undone exactly by `undoMove`. -/
theorem undo_generated (b : Board) (n : Int) (hb : IsBoard b n) (p : Int) (m : Move)
    (hm : m ∈ getMovesStatic p b n) : undoMove (applyMove b m p) m p = b := by
  obtain ⟨h1, hs, _, _, h2, hd⟩ := mem_getMovesStatic.1 hm
  exact undoMove_applyMove b n hb m p h1 h2 hs hd

theorem enoughFuel_child (fuel : Nat) (b : Board) (depth n : Int) (hb : IsBoard b n)
    (h : EnoughFuel (fuel + 1) b depth n) (hd : depth ≠ 0) (p : Int) (hp : p = 1 ∨ p = 2)
    (m : Move) (hm : m ∈ getMovesStatic p b n) :
    EnoughFuel fuel (applyMove b m p) (depth - 1) n := by
  unfold EnoughFuel at h ⊢
  rw [Phi_applyMove b n hb p hp m hm]
  push_cast at h
  omega

theorem not_enoughFuel_zero (b : Board) (depth n : Int) : ¬ EnoughFuel 0 b depth n := by
  unfold EnoughFuel
  have := Phi_nonneg b n
  push_cast
  omega

/-- With enough fuel `minimax` returns the score `abVal` and leaves the board
as it found it. -/
theorem minimax_eq (n : Int) (fuel : Nat) : ∀ (b : Board) (depth : Int) (isMax : Bool)
    (alpha beta : Int), IsBoard b n → EnoughFuel fuel b depth n →
    minimax fuel b depth isMax alpha beta n = some (abVal n fuel b depth isMax alpha beta, b) := by
  induction fuel with
  | zero => intro b depth _ _ _ _ h; exact absurd h (not_enoughFuel_zero b depth n)
  | succ fuel ih =>
    intro b depth isMax alpha beta hb hf
    unfold minimax abVal
    by_cases hd : depth = 0
    · rw [if_pos hd, if_pos hd]
    · rw [if_neg hd, if_neg hd]
      cases isMax with
      | true =>
        simp only [if_true]
        by_cases he : (getMovesStatic 2 b n).isEmpty = true
        · rw [if_pos he, if_pos he]
        · rw [if_neg he, if_neg he]
          exact maxLoop_eq _ (fun m a be => abVal n fuel (applyMove b m 2) (depth - 1) false a be)
            beta b _ (fun m hm => undo_generated b n hb 2 m hm)
            (fun m hm a be => ih _ _ _ _ _ (isBoard_applyMove b n hb m 2)
              (enoughFuel_child fuel b depth n hb hf hd 2 (Or.inr rfl) m hm)) _ _
      | false =>
        simp only [Bool.false_eq_true, if_false]
        by_cases he : (getMovesStatic 1 b n).isEmpty = true
        · rw [if_pos he, if_pos he]
        · rw [if_neg he, if_neg he]
          exact minLoop_eq _ (fun m a be => abVal n fuel (applyMove b m 1) (depth - 1) true a be)
            alpha b _ (fun m hm => undo_generated b n hb 1 m hm)
            (fun m hm a be => ih _ _ _ _ _ (isBoard_applyMove b n hb m 1)
              (enoughFuel_child fuel b depth n hb hf hd 1 (Or.inl rfl) m hm)) _ _

/-- With enough fuel the reference minimax returns the score `refVal` and
leaves the board as it found it. -/
theorem refMinimax_eq (n : Int) (fuel : Nat) : ∀ (b : Board) (depth : Int) (isMax : Bool)
    (alpha beta : Int), IsBoard b n → EnoughFuel fuel b depth n →
    refMinimax fuel b depth isMax alpha beta n = some (refVal n fuel b depth isMax, b) := by
  induction fuel with
  | zero => intro b depth _ _ _ _ h; exact absurd h (not_enoughFuel_zero b depth n)
  | succ fuel ih =>
    intro b depth isMax alpha beta hb hf
    unfold refMinimax refVal
    by_cases hd : depth = 0
    · rw [if_pos hd, if_pos hd]
    · rw [if_neg hd, if_neg hd]
      cases isMax with
      | true =>
        simp only [if_true]
        by_cases he : (getMovesStatic 2 b n).isEmpty = true
        · rw [if_pos he, if_pos he]
        · rw [if_neg he, if_neg he]
          exact refMaxLoop_eq _ (fun m => refVal n fuel (applyMove b m 2) (depth - 1) false)
            beta b _ (fun m hm => undo_generated b n hb 2 m hm)
            (fun m hm a be => ih _ _ _ _ _ (isBoard_applyMove b n hb m 2)
              (enoughFuel_child fuel b depth n hb hf hd 2 (Or.inr rfl) m hm)) _ _
      | false =>
        simp only [Bool.false_eq_true, if_false]
        by_cases he : (getMovesStatic 1 b n).isEmpty = true
        · rw [if_pos he, if_pos he]
        · rw [if_neg he, if_neg he]
          exact refMinLoop_eq _ (fun m => refVal n fuel (applyMove b m 1) (depth - 1) true)
            alpha b _ (fun m hm => undo_generated b n hb 1 m hm)
            (fun m hm a be => ih _ _ _ _ _ (isBoard_applyMove b n hb m 1)
              (enoughFuel_child fuel b depth n hb hf hd 1 (Or.inl rfl) m hm)) _ _

/-! ## Pruning does not change the scores that matter -/

theorem le_foldl_max (l : List Int) (init : Int) : init ≤ l.foldl max init := by
  induction l generalizing init with
  | nil => exact le_refl _
  | cons x l ih =>
    rw [List.foldl_cons]
    exact le_trans (le_max_left _ _) (ih _)

theorem foldl_min_le (l : List Int) (init : Int) : l.foldl min init ≤ init := by
  induction l generalizing init with
  | nil => exact le_refl _
  | cons x l ih =>
    rw [List.foldl_cons]
    exact le_trans (ih _) (min_le_left _ _)

theorem maxLoopVal_rel (alpha beta : Int) (r : Move → Int → Int → Int) (v : Move → Int)
    (ms : List Move)
    (hrel : ∀ m ∈ ms, ∀ a be, a < be → WindowRel a be (v m) (r m a be))
    (Mab Mref a : Int) (h0 : alpha ≤ a) (h1 : a < beta)
    (I1 : max a Mab = max a Mref) (I2 : a ≤ max alpha Mref) (I4 : a ≤ max alpha Mab) :
    WindowRel alpha beta ((ms.map v).foldl max Mref) (maxLoopVal beta (ms.map r) Mab a) := by
  induction ms generalizing Mab Mref a with
  | nil =>
    simp only [List.map_nil, List.foldl_nil, maxLoopVal]
    unfold WindowRel
    omega
  | cons m ms ih =>
    have hr := hrel m (List.mem_cons_self _ _) a beta h1
    have hV := le_foldl_max (ms.map v) (max Mref (v m))
    simp only [List.map_cons, List.foldl_cons, maxLoopVal]
    unfold WindowRel at hr
    by_cases hcut : beta ≤ max a (r m a beta)
    · rw [if_pos hcut]
      unfold WindowRel
      omega
    · rw [if_neg hcut]
      apply ih (fun m' h => hrel m' (List.mem_cons_of_mem _ h)) <;> omega

theorem minLoopVal_rel (alpha beta : Int) (r : Move → Int → Int → Int) (v : Move → Int)
    (ms : List Move)
    (hrel : ∀ m ∈ ms, ∀ a be, a < be → WindowRel a be (v m) (r m a be))
    (Mab Mref be : Int) (h0 : be ≤ beta) (h1 : alpha < be)
    (I1 : min be Mab = min be Mref) (I2 : min beta Mref ≤ be) (I4 : min beta Mab ≤ be) :
    WindowRel alpha beta ((ms.map v).foldl min Mref) (minLoopVal alpha (ms.map r) Mab be) := by
  induction ms generalizing Mab Mref be with
  | nil =>
    simp only [List.map_nil, List.foldl_nil, minLoopVal]
    unfold WindowRel
    omega
  | cons m ms ih =>
    have hr := hrel m (List.mem_cons_self _ _) alpha be h1
    have hV := foldl_min_le (ms.map v) (min Mref (v m))
    simp only [List.map_cons, List.foldl_cons, minLoopVal]
    unfold WindowRel at hr
    by_cases hcut : min be (r m alpha be) ≤ alpha
    · rw [if_pos hcut]
      unfold WindowRel
      omega
    · rw [if_neg hcut]
      apply ih (fun m' h => hrel m' (List.mem_cons_of_mem _ h)) <;> omega

/-- Alpha-beta against exhaustive search at one node: inside the window the two
scores are equal, outside they fall on the same side. -/
theorem abVal_rel (n : Int) (fuel : Nat) : ∀ (b : Board) (depth : Int) (isMax : Bool)
    (alpha beta : Int), alpha < beta →
    WindowRel alpha beta (refVal n fuel b depth isMax) (abVal n fuel b depth isMax alpha beta) := by
  induction fuel with
  | zero =>
    intro b depth isMax alpha beta _
    unfold refVal abVal WindowRel
    omega
  | succ fuel ih =>
    intro b depth isMax alpha beta hab
    unfold refVal abVal
    by_cases hd : depth = 0
    · rw [if_pos hd, if_pos hd]
      unfold WindowRel
      omega
    · rw [if_neg hd, if_neg hd]
      by_cases he : (getMovesStatic (if isMax = true then 2 else 1) b n).isEmpty = true
      · rw [if_pos he, if_pos he]
        unfold WindowRel
        omega
      · rw [if_neg he, if_neg he]
        cases isMax with
        | true =>
          simp only [if_true]
          exact maxLoopVal_rel alpha beta
            (fun m a be => abVal n fuel (applyMove b m 2) (depth - 1) false a be)
            (fun m => refVal n fuel (applyMove b m 2) (depth - 1) false) _
            (fun m _ a be h => ih _ _ _ a be h) _ _ _ (le_refl _) hab rfl
            (le_max_left _ _) (le_max_left _ _)
        | false =>
          simp only [Bool.false_eq_true, if_false]
          exact minLoopVal_rel alpha beta
            (fun m a be => abVal n fuel (applyMove b m 1) (depth - 1) true a be)
            (fun m => refVal n fuel (applyMove b m 1) (depth - 1) true) _
            (fun m _ a be h => ih _ _ _ a be h) _ _ _ (le_refl _) hab rfl
            (min_le_left _ _) (min_le_left _ _)

theorem minLoopVal_le (alpha : Int) (cs : List (Int → Int → Int)) (minEval beta : Int) :
    minLoopVal alpha cs minEval beta ≤ minEval := by
  induction cs generalizing minEval beta with
  | nil => exact le_refl _
  | cons c cs ih =>
    simp only [minLoopVal]
    split
    · exact min_le_left _ _
    · exact le_trans (ih _ _) (min_le_left _ _)

theorem le_maxLoopVal (beta : Int) (cs : List (Int → Int → Int)) (maxEval alpha : Int) :
    maxEval ≤ maxLoopVal beta cs maxEval alpha := by
  induction cs generalizing maxEval alpha with
  | nil => exact le_refl _
  | cons c cs ih =>
    simp only [maxLoopVal]
    split
    · exact le_max_left _ _
    · exact le_trans (le_max_left _ _) (ih _ _)

theorem abVal_min_le (n : Int) (fuel : Nat) (b : Board) (depth : Int) (hd : depth ≠ 0)
    (alpha beta : Int) : abVal n fuel b depth false alpha beta ≤ 100000 := by
  cases fuel with
  | zero => unfold abVal; omega
  | succ fuel =>
    unfold abVal
    rw [if_neg hd]
    simp only [Bool.false_eq_true, if_false]
    split
    · omega
    · exact minLoopVal_le _ _ _ _

theorem refVal_min_le (n : Int) (fuel : Nat) (b : Board) (depth : Int) (hd : depth ≠ 0) :
    refVal n fuel b depth false ≤ 100000 := by
  cases fuel with
  | zero => unfold refVal; omega
  | succ fuel =>
    unfold refVal
    rw [if_neg hd]
    simp only [Bool.false_eq_true, if_false]
    split
    · omega
    · exact foldl_min_le _ _

/-- At the root each candidate is searched with the full window: the pruned and
the exhaustive score are equal, or neither can beat the initial `maxEval`. -/
theorem root_agree (n : Int) (fuel : Nat) (b : Board) (depth : Int) :
    abVal n fuel b depth false (-100000) 100000 = refVal n fuel b depth false ∨
      (abVal n fuel b depth false (-100000) 100000 ≤ -100000 ∧
        refVal n fuel b depth false ≤ -100000) := by
  by_cases hd : depth = 0
  · left
    cases fuel with
    | zero => unfold abVal refVal; rfl
    | succ fuel => unfold abVal refVal; rw [if_pos hd, if_pos hd]
  · have h1 := abVal_rel n fuel b depth false (-100000) 100000 (by omega)
    have h2 := abVal_min_le n fuel b depth hd (-100000) 100000
    have h3 := refVal_min_le n fuel b depth hd
    unfold WindowRel at h1
    omega

theorem decideLoopVal_congr (r v : Move → Int) (ms : List Move)
    (h : ∀ m ∈ ms, r m = v m ∨ (r m ≤ -100000 ∧ v m ≤ -100000))
    (maxEval : Int) (hM : -100000 ≤ maxEval) (bestMove : Move) :
    decideLoopVal r ms maxEval bestMove = decideLoopVal v ms maxEval bestMove := by
  induction ms generalizing maxEval bestMove with
  | nil => rfl
  | cons m ms ih =>
    have hm := h m (List.mem_cons_self _ _)
    have ih' := ih (fun m' h' => h m' (List.mem_cons_of_mem _ h'))
    simp only [decideLoopVal]
    by_cases h1 : r m > maxEval
    · have h2 : v m > maxEval := by omega
      have e : r m = v m := by omega
      rw [if_pos h1, if_pos h2, e]
      exact ih' _ (by omega) _
    · have h2 : ¬ v m > maxEval := by omega
      rw [if_neg h1, if_neg h2]
      exact ih' _ hM _

/-! ## The root loop -/

theorem enoughFuel_root (fuel : Nat) (b : Board) (maxDepth n : Int) (hb : IsBoard b n)
    (hf : (1 ≤ maxDepth ∧ maxDepth ≤ fuel) ∨ Phi b n ≤ fuel)
    (m : Move) (hm : m ∈ getMovesStatic 2 b n) :
    EnoughFuel fuel (applyMove b m 2) (maxDepth - 1) n := by
  unfold EnoughFuel
  rw [Phi_applyMove b n hb 2 (Or.inr rfl) m hm]
  omega

theorem decideMoveState_nil (fuel : Nat) (maxDepth : Int) (b : Board) (n : Int)
    (h : getMovesStatic 2 b n = []) : decideMoveState fuel maxDepth b n = some (sentinel, b) := by
  unfold decideMoveState
  simp only [h]

theorem decideMoveState_cons (fuel : Nat) (maxDepth : Int) (b : Board) (n : Int)
    (hb : IsBoard b n) (hf : (1 ≤ maxDepth ∧ maxDepth ≤ fuel) ∨ Phi b n ≤ fuel)
    (m0 : Move) (ms : List Move) (h : getMovesStatic 2 b n = m0 :: ms) :
    decideMoveState fuel maxDepth b n = some
      ((decideLoopVal (fun m => abVal n fuel (applyMove b m 2) (maxDepth - 1) false (-100000) 100000)
        (m0 :: ms) (-100000) m0).1, b) := by
  have hloop := decideLoop_eq
    (fun b' => minimax fuel b' (maxDepth - 1) false (-100000) 100000 n)
    (fun m => abVal n fuel (applyMove b m 2) (maxDepth - 1) false (-100000) 100000) b
    (getMovesStatic 2 b n) (fun m hm => undo_generated b n hb 2 m hm)
    (fun m hm => minimax_eq n fuel _ _ _ _ _ (isBoard_applyMove b n hb m 2)
      (enoughFuel_root fuel b maxDepth n hb hf m hm)) (-100000) m0
  rw [h] at hloop
  unfold decideMoveState
  simp only [h, hloop]

theorem refDecideMove_nil (fuel : Nat) (maxDepth : Int) (b : Board) (n : Int)
    (h : getMovesStatic 2 b n = []) : refDecideMove fuel maxDepth b n = some sentinel := by
  unfold refDecideMove
  simp only [h]

theorem refDecideMove_cons (fuel : Nat) (maxDepth : Int) (b : Board) (n : Int)
    (hb : IsBoard b n) (hf : (1 ≤ maxDepth ∧ maxDepth ≤ fuel) ∨ Phi b n ≤ fuel)
    (m0 : Move) (ms : List Move) (h : getMovesStatic 2 b n = m0 :: ms) :
    refDecideMove fuel maxDepth b n = some
      (decideLoopVal (fun m => refVal n fuel (applyMove b m 2) (maxDepth - 1) false)
        (m0 :: ms) (-100000) m0).1 := by
  have hloop := decideLoop_eq
    (fun b' => refMinimax fuel b' (maxDepth - 1) false (-100000) 100000 n)
    (fun m => refVal n fuel (applyMove b m 2) (maxDepth - 1) false) b
    (getMovesStatic 2 b n) (fun m hm => undo_generated b n hb 2 m hm)
    (fun m hm => refMinimax_eq n fuel _ _ _ _ _ (isBoard_applyMove b n hb m 2)
      (enoughFuel_root fuel b maxDepth n hb hf m hm)) (-100000) m0
  rw [h] at hloop
  unfold refDecideMove
  simp only [h, hloop]

theorem decideLoopVal_mem (s : Move → Int) (ms : List Move) (maxEval : Int) (bestMove : Move) :
    (decideLoopVal s ms maxEval bestMove).1 = bestMove ∨
      (decideLoopVal s ms maxEval bestMove).1 ∈ ms := by
  induction ms generalizing maxEval bestMove with
  | nil => left; rfl
  | cons m ms ih =>
    simp only [decideLoopVal]
    split
    · rcases ih (s m) m with h | h
      · right; rw [h]; exact List.mem_cons_self _ _
      · right; exact List.mem_cons_of_mem _ h
    · rcases ih maxEval bestMove with h | h
      · left; exact h
      · right; exact List.mem_cons_of_mem _ h

/-- The root loop keeps the first candidate whose score is strictly above
everything before it and at least everything after it, unless no score exceeds
the initial `maxEval`. -/
theorem decideLoopVal_spec (s : Move → Int) (ms : List Move) (maxEval : Int) (bestMove : Move) :
    ((decideLoopVal s ms maxEval bestMove).1 = bestMove ∧ ∀ m ∈ ms, s m ≤ maxEval) ∨
      ∃ pre post, ms = pre ++ (decideLoopVal s ms maxEval bestMove).1 :: post ∧
        (∀ m ∈ pre, s m < s (decideLoopVal s ms maxEval bestMove).1) ∧
        (∀ m ∈ post, s m ≤ s (decideLoopVal s ms maxEval bestMove).1) ∧
        maxEval < s (decideLoopVal s ms maxEval bestMove).1 := by
  induction ms generalizing maxEval bestMove with
  | nil => left; exact ⟨rfl, fun m h => absurd h (List.not_mem_nil m)⟩
  | cons m ms ih =>
    simp only [decideLoopVal]
    by_cases hgt : s m > maxEval
    · rw [if_pos hgt]
      right
      rcases ih (s m) m with ⟨h1, h2⟩ | ⟨pre, post, h1, h2, h3, h4⟩
      · rw [h1]
        exact ⟨[], ms, rfl, fun m' h => absurd h (List.not_mem_nil m'), h2, hgt⟩
      · refine ⟨m :: pre, post, by rw [List.cons_append, ← h1], ?_, h3, by omega⟩
        intro m' hm'
        rcases List.mem_cons.1 hm' with e | e
        · rw [e]; exact h4
        · exact h2 m' e
    · rw [if_neg hgt]
      rcases ih maxEval bestMove with ⟨h1, h2⟩ | ⟨pre, post, h1, h2, h3, h4⟩
      · left
        refine ⟨h1, ?_⟩
        intro m' hm'
        rcases List.mem_cons.1 hm' with e | e
        · rw [e]; omega
        · exact h2 m' e
      · right
        refine ⟨m :: pre, post, by rw [List.cons_append, ← h1], ?_, h3, h4⟩
        intro m' hm'
        rcases List.mem_cons.1 hm' with e | e
        · rw [e]; omega
        · exact h2 m' e

/-! ## Scores at or below the initial `maxEval` -/

theorem minLoopVal_const (alpha E : Int) (cs : List (Int → Int → Int))
    (h : ∀ c ∈ cs, ∀ a be, c a be = E) (hne : cs ≠ []) (minEval beta : Int) :
    minLoopVal alpha cs minEval beta = min minEval E := by
  induction cs generalizing minEval beta with
  | nil => exact absurd rfl hne
  | cons c cs ih =>
    simp only [minLoopVal, h c (List.mem_cons_self _ _)]
    split
    · rfl
    · by_cases hcs : cs = []
      · subst hcs; rfl
      · rw [ih (fun c' h' => h c' (List.mem_cons_of_mem _ h')) hcs]
        omega

theorem le_minLoopVal (alpha L : Int) (cs : List (Int → Int → Int))
    (h : ∀ c ∈ cs, ∀ a be, L ≤ c a be) (minEval beta : Int) (hM : L ≤ minEval) :
    L ≤ minLoopVal alpha cs minEval beta := by
  induction cs generalizing minEval beta with
  | nil => exact hM
  | cons c cs ih =>
    have hc := h c (List.mem_cons_self _ _) alpha beta
    simp only [minLoopVal]
    split
    · exact le_min hM hc
    · exact ih (fun c' h' => h c' (List.mem_cons_of_mem _ h')) _ _ (le_min hM hc)

theorem le_abVal_max (n : Int) (fuel : Nat) (b : Board) (depth : Int) (hd : depth ≠ 0)
    (alpha beta : Int) : -100000 ≤ abVal n fuel b depth true alpha beta := by
  cases fuel with
  | zero => unfold abVal; omega
  | succ fuel =>
    unfold abVal
    rw [if_neg hd]
    simp only [if_true]
    split
    · omega
    · exact le_maxLoopVal _ _ _ _

theorem le_abVal_min (n : Int) (fuel : Nat) (b : Board) (depth : Int) (hd0 : depth ≠ 0)
    (hd1 : depth ≠ 1) (alpha beta : Int) : -100000 ≤ abVal n fuel b depth false alpha beta := by
  cases fuel with
  | zero => unfold abVal; omega
  | succ fuel =>
    unfold abVal
    rw [if_neg hd0]
    simp only [Bool.false_eq_true, if_false]
    split
    · omega
    · apply le_minLoopVal _ _ _ _ _ _ (by omega)
      intro c hc a be
      rw [List.mem_map] at hc
      obtain ⟨m, _, rfl⟩ := hc
      exact le_abVal_max n fuel _ _ (by omega) a be

theorem abVal_depth_one (n : Int) (f : Nat) (c : Board) (hc : IsBoard c n) (alpha beta : Int) :
    abVal n (f + 1) c 1 false alpha beta = 10000 ∨
      abVal n (f + 1) c 1 false alpha beta
        = min 100000 (if f = 0 then 0 else wrapInt32 (evaluate c n - 10)) := by
  unfold abVal
  rw [if_neg (by decide)]
  simp only [Bool.false_eq_true, if_false]
  by_cases he : (getMovesStatic 1 c n).isEmpty = true
  · left; rw [if_pos he]
  · right
    rw [if_neg he]
    apply minLoopVal_const
    · intro ch hch a be
      rw [List.mem_map] at hch
      obtain ⟨m, hm, rfl⟩ := hch
      cases f with
      | zero => simp only [abVal, if_true]
      | succ f =>
        unfold abVal
        rw [if_pos (by omega), evaluate_applyMove_one c n hc m hm, if_neg (by omega)]
    · intro h
      apply he
      rw [List.isEmpty_iff]
      exact List.map_eq_nil_iff.1 h

/-- Candidate scores that do not exceed the initial `maxEval` of the root loop
are all equal. -/
theorem root_score_const (n : Int) (fuel : Nat) (b : Board) (hb : IsBoard b n) (depth : Int) :
    ∃ K : Int, ∀ m ∈ getMovesStatic 2 b n,
      abVal n fuel (applyMove b m 2) depth false (-100000) 100000 ≤ -100000 →
      abVal n fuel (applyMove b m 2) depth false (-100000) 100000 = K := by
  cases fuel with
  | zero =>
    refine ⟨0, ?_⟩
    intro m _ _
    unfold abVal
    rfl
  | succ f =>
    by_cases hd0 : depth = 0
    · refine ⟨wrapInt32 (evaluate b n + 10), ?_⟩
      intro m hm _
      unfold abVal
      rw [if_pos hd0, evaluate_applyMove_two b n hb m hm]
    · by_cases hd1 : depth = 1
      · subst hd1
        refine ⟨if f = 0 then 0 else evaluate b n, ?_⟩
        intro m hm hle
        have hE := evaluate_applyMove_two b n hb m hm
        have hr := evaluate_range b n
        rcases abVal_depth_one n f (applyMove b m 2) (isBoard_applyMove b n hb m 2)
          (-100000) 100000 with h | h
        · omega
        · rw [h] at hle ⊢
          by_cases hf : f = 0
          · rw [if_pos hf] at hle ⊢
            omega
          · rw [if_neg hf, hE] at hle ⊢
            rw [if_neg hf]
            unfold wrapInt32 at hle ⊢
            omega
      · refine ⟨-100000, ?_⟩
        intro m _ hle
        have := le_abVal_min n (f + 1) (applyMove b m 2) depth hd0 hd1 (-100000) 100000
        omega

/-! ## The claims about the search -/

/-- C1: alpha-beta parity.  On an `n`×`n` board, for every `maxDepth ≥ 1` (and
fuel at least `maxDepth`), `decideMove` returns a move, and it is exactly the
move returned by the reference search, i.e. the same search with the two
`if(beta <= alpha) break;` cutoffs removed. -/
theorem decideMove_eq_refDecideMove (fuel : Nat) (maxDepth : Int) (b : Board) (n : Int)
    (hb : IsBoard b n) (hd : 1 ≤ maxDepth) (hf : maxDepth ≤ fuel) :
    ∃ mv : Move, decideMove fuel maxDepth b n = some mv ∧
      refDecideMove fuel maxDepth b n = some mv := by
  have hf' : (1 ≤ maxDepth ∧ maxDepth ≤ fuel) ∨ Phi b n ≤ fuel := Or.inl ⟨hd, hf⟩
  unfold decideMove
  cases h : getMovesStatic 2 b n with
  | nil =>
    exact ⟨sentinel, by rw [decideMoveState_nil fuel maxDepth b n h]; rfl,
      refDecideMove_nil fuel maxDepth b n h⟩
  | cons m0 ms =>
    rw [decideMoveState_cons fuel maxDepth b n hb hf' m0 ms h,
      refDecideMove_cons fuel maxDepth b n hb hf' m0 ms h]
    refine ⟨_, rfl, ?_⟩
    rw [decideLoopVal_congr _ _ _ (fun m _ => root_agree n fuel (applyMove b m 2) (maxDepth - 1))
      _ (le_refl _)]

set_option maxRecDepth 100000 in
/-- Witness for C1: a 3×3 position with two candidates searched four plies
deep, on which a cutoff changes the score of an inner node.  After the second
candidate `(1,0,2,0)` and the reply `(2,2,2,1)` the maximizer is searched with
the window `(-100000, -10)`: the pruned search stops at the first reply and
scores -10, the exhaustive one scores 10000.  Both searches still return the
first candidate `(0,1,1,1)`. -/
theorem decideMove_eq_refDecideMove_witness :
    getMovesStatic 2 [[2, 2, 0], [2, 0, 1], [0, 0, 1]] 3 = [⟨0, 1, 1, 1⟩, ⟨1, 0, 2, 0⟩] ∧
      minimax 3 [[2, 2, 0], [0, 0, 1], [2, 1, 0]] 2 true (-100000) (-10) 3
        = some (-10, [[2, 2, 0], [0, 0, 1], [2, 1, 0]]) ∧
      refMinimax 3 [[2, 2, 0], [0, 0, 1], [2, 1, 0]] 2 true (-100000) (-10) 3
        = some (10000, [[2, 2, 0], [0, 0, 1], [2, 1, 0]]) ∧
      decideMove 4 4 [[2, 2, 0], [2, 0, 1], [0, 0, 1]] 3 = some ⟨0, 1, 1, 1⟩ ∧
      refDecideMove 4 4 [[2, 2, 0], [2, 0, 1], [0, 0, 1]] 3 = some ⟨0, 1, 1, 1⟩ := by
  have hdec : decideMove 4 4 [[2, 2, 0], [2, 0, 1], [0, 0, 1]] 3 = some ⟨0, 1, 1, 1⟩ := by
    decide
  obtain ⟨mv, h1, h2⟩ := decideMove_eq_refDecideMove 4 4 [[2, 2, 0], [2, 0, 1], [0, 0, 1]] 3
    (by decide) (by decide) (by decide)
  rw [hdec] at h1
  rw [← h1] at h2
  exact ⟨by decide, by decide, by decide, hdec, h2⟩

/-- C3: on an `n`×`n` board, with enough fuel for the search to return,
`decideMove` returns the sentinel `(-1,-1,-1,-1)` if and only if
`getMovesStatic 2 board n` is empty; otherwise the move it returns is an element
of that list, so its source holds a 2, its destination is inside the grid and
empty, and it is one step in +x. -/
theorem decideMove_sentinel_iff (fuel : Nat) (maxDepth : Int) (b : Board) (n : Int)
    (hb : IsBoard b n) (hf : (1 ≤ maxDepth ∧ maxDepth ≤ fuel) ∨ Phi b n ≤ fuel) :
    ∃ mv : Move, decideMove fuel maxDepth b n = some mv ∧
      (mv = sentinel ↔ getMovesStatic 2 b n = []) ∧
      (getMovesStatic 2 b n ≠ [] →
        mv ∈ getMovesStatic 2 b n ∧ cell b mv.x1 mv.y1 = 2 ∧
        (0 ≤ mv.x2 ∧ mv.x2 < n ∧ 0 ≤ mv.y2 ∧ mv.y2 < n) ∧ cell b mv.x2 mv.y2 = 0 ∧
        mv.x2 = mv.x1 + 1 ∧ mv.y2 = mv.y1) := by
  unfold decideMove
  cases h : getMovesStatic 2 b n with
  | nil =>
    rw [decideMoveState_nil fuel maxDepth b n h]
    exact ⟨sentinel, rfl, ⟨fun _ => rfl, fun _ => rfl⟩, fun hne => absurd rfl hne⟩
  | cons m0 ms =>
    rw [decideMoveState_cons fuel maxDepth b n hb hf m0 ms h, Option.map_some']
    refine ⟨(decideLoopVal
        (fun m => abVal n fuel (applyMove b m 2) (maxDepth - 1) false (-100000) 100000)
        (m0 :: ms) (-100000) m0).1, rfl, ?_⟩
    have hmem : (decideLoopVal
        (fun m => abVal n fuel (applyMove b m 2) (maxDepth - 1) false (-100000) 100000)
        (m0 :: ms) (-100000) m0).1 ∈ getMovesStatic 2 b n := by
      rw [h]
      rcases decideLoopVal_mem
        (fun m => abVal n fuel (applyMove b m 2) (maxDepth - 1) false (-100000) 100000)
        (m0 :: ms) (-100000) m0 with e | e
      · rw [e]; exact List.mem_cons_self _ _
      · exact e
    obtain ⟨h1, hs, hx, hy, h2, hd⟩ := mem_getMovesStatic.1 hmem
    simp only [if_true, show ¬ ((2 : Int) = 1) by decide, if_false] at hx hy
    constructor
    · constructor
      · intro e
        rw [e] at h1
        exact absurd h1.1 (by decide)
      · intro e
        exact absurd e (List.cons_ne_nil _ _)
    · intro _
      rw [h] at hmem
      exact ⟨hmem, hs, h2, hd, hx, by omega⟩

/-- Witness for C3 on a 3×3 board. -/
theorem decideMove_sentinel_iff_witness :
    ∃ mv : Move, decideMove 3 3 [[2, 0, 0], [2, 0, 1], [0, 0, 1]] 3 = some mv ∧
      (mv = sentinel ↔ getMovesStatic 2 [[2, 0, 0], [2, 0, 1], [0, 0, 1]] 3 = []) :=
  have h := decideMove_sentinel_iff 3 3 [[2, 0, 0], [2, 0, 1], [0, 0, 1]] 3 (by decide)
    (Or.inl (by decide))
  h.elim fun mv hmv => ⟨mv, hmv.1, hmv.2.1⟩

/-- C4: apply/undo invariant.  On an `n`×`n` board, for every depth, window and
side to move, `minimax` (given enough fuel to return) returns with the buffer
equal to the board it was called with, cutoffs included; in `decideMove` every
candidate is undone exactly and the working copy equals the input board when the
function returns. -/
theorem minimax_restores_board (fuel : Nat) (b : Board) (n : Int) (hb : IsBoard b n) :
    (∀ (depth : Int) (isMax : Bool) (alpha beta : Int), EnoughFuel fuel b depth n →
        ∃ r : Int, minimax fuel b depth isMax alpha beta n = some (r, b)) ∧
      (∀ maxDepth : Int, ((1 ≤ maxDepth ∧ maxDepth ≤ fuel) ∨ Phi b n ≤ fuel) →
        (∀ m ∈ getMovesStatic 2 b n, ∃ r : Int,
          minimax fuel (applyMove b m 2) (maxDepth - 1) false (-100000) 100000 n
            = some (r, applyMove b m 2) ∧ undoMove (applyMove b m 2) m 2 = b) ∧
        ∃ mv : Move, decideMoveState fuel maxDepth b n = some (mv, b)) := by
  refine ⟨fun depth isMax alpha beta hf => ⟨_, minimax_eq n fuel b depth isMax alpha beta hb hf⟩,
    fun maxDepth hf => ⟨fun m hm => ⟨_, minimax_eq n fuel _ _ _ _ _ (isBoard_applyMove b n hb m 2)
      (enoughFuel_root fuel b maxDepth n hb hf m hm), undo_generated b n hb 2 m hm⟩, ?_⟩⟩
  cases h : getMovesStatic 2 b n with
  | nil => exact ⟨_, decideMoveState_nil fuel maxDepth b n h⟩
  | cons m0 ms => exact ⟨_, decideMoveState_cons fuel maxDepth b n hb hf m0 ms h⟩

/-- Witness for C4: a two-ply maximizing search on a 3×3 board returns with the
board it started from. -/
theorem minimax_restores_board_witness :
    ∃ r : Int, minimax 3 [[2, 0, 0], [2, 0, 1], [0, 0, 1]] 2 true (-100000) 100000 3
      = some (r, [[2, 0, 0], [2, 0, 1], [0, 0, 1]]) :=
  (minimax_restores_board 3 [[2, 0, 0], [2, 0, 1], [0, 0, 1]] 3 (by decide)).1 2 true
    (-100000) 100000 (by decide)

/-- C5: tie-break.  On an `n`×`n` board on which player 2 has a move, with
enough fuel, `decideMove` returns the earliest move, in `getMovesStatic` order,
among the candidates with the greatest backed-up score: every earlier candidate
scores strictly less and every later one at most as much.  The score of a
candidate is what `minimax` returns on the position after the move, at depth
`maxDepth - 1` with the minimizer to move and the window `(-100000, 100000)`. -/
theorem decideMove_earliest_max (fuel : Nat) (maxDepth : Int) (b : Board) (n : Int)
    (hb : IsBoard b n) (hne : getMovesStatic 2 b n ≠ [])
    (hf : (1 ≤ maxDepth ∧ maxDepth ≤ fuel) ∨ Phi b n ≤ fuel) :
    ∃ (score : Move → Int) (best : Move) (pre post : List Move),
      (∀ m ∈ getMovesStatic 2 b n,
        minimax fuel (applyMove b m 2) (maxDepth - 1) false (-100000) 100000 n
          = some (score m, applyMove b m 2)) ∧
      decideMove fuel maxDepth b n = some best ∧
      getMovesStatic 2 b n = pre ++ best :: post ∧
      (∀ m ∈ pre, score m < score best) ∧ (∀ m ∈ post, score m ≤ score best) := by
  refine ⟨fun m => abVal n fuel (applyMove b m 2) (maxDepth - 1) false (-100000) 100000, ?_⟩
  have hscore : ∀ m ∈ getMovesStatic 2 b n,
      minimax fuel (applyMove b m 2) (maxDepth - 1) false (-100000) 100000 n
        = some (abVal n fuel (applyMove b m 2) (maxDepth - 1) false (-100000) 100000,
            applyMove b m 2) :=
    fun m hm => minimax_eq n fuel _ _ _ _ _ (isBoard_applyMove b n hb m 2)
      (enoughFuel_root fuel b maxDepth n hb hf m hm)
  obtain ⟨K, hK⟩ := root_score_const n fuel b hb (maxDepth - 1)
  unfold decideMove
  cases h : getMovesStatic 2 b n with
  | nil => exact absurd h hne
  | cons m0 ms =>
    rw [h] at hscore hK
    rw [decideMoveState_cons fuel maxDepth b n hb hf m0 ms h]
    rcases decideLoopVal_spec
      (fun m => abVal n fuel (applyMove b m 2) (maxDepth - 1) false (-100000) 100000)
      (m0 :: ms) (-100000) m0 with ⟨h1, h2⟩ | ⟨pre, post, h1, h2, h3, _⟩
    · refine ⟨m0, [], ms, hscore, by rw [h1]; rfl, rfl,
        fun m hm => absurd hm (List.not_mem_nil m), ?_⟩
      intro m hm
      have e0 := hK m0 (List.mem_cons_self _ _) (h2 m0 (List.mem_cons_self _ _))
      have e1 := hK m (List.mem_cons_of_mem _ hm) (h2 m (List.mem_cons_of_mem _ hm))
      simp only at e0 e1 ⊢
      omega
    · exact ⟨_, pre, post, hscore, rfl, h1, h2, h3⟩

/-- Witness for C5 on a 3×3 board with two candidates. -/
theorem decideMove_earliest_max_witness :
    ∃ (score : Move → Int) (best : Move) (pre post : List Move),
      (∀ m ∈ getMovesStatic 2 [[2, 2, 0], [0, 0, 1], [0, 0, 0]] 3,
        minimax 3 (applyMove [[2, 2, 0], [0, 0, 1], [0, 0, 0]] m 2) (3 - 1) false (-100000) 100000 3
          = some (score m, applyMove [[2, 2, 0], [0, 0, 1], [0, 0, 0]] m 2)) ∧
      decideMove 3 3 [[2, 2, 0], [0, 0, 1], [0, 0, 0]] 3 = some best ∧
      getMovesStatic 2 [[2, 2, 0], [0, 0, 1], [0, 0, 0]] 3 = pre ++ best :: post ∧
      (∀ m ∈ pre, score m < score best) ∧ (∀ m ∈ post, score m ≤ score best) :=
  decideMove_earliest_max 3 3 [[2, 2, 0], [0, 0, 1], [0, 0, 0]] 3 (by decide) (by decide)
    (Or.inl (by decide))

/-! ## `initBoard` -/

theorem foldl_nested {α β γ : Type} (f : α → γ → α) (g : β → List γ) (l : List β) (init : α) :
    l.foldl (fun acc i => (g i).foldl f acc) init = (l.flatMap g).foldl f init := by
  induction l generalizing init with
  | nil => rfl
  | cons i l ih =>
    rw [List.foldl_cons, List.flatMap_cons, List.foldl_append]
    exact ih _

theorem isBoard_foldl_setCell (n v : Int) (l : List (Int × Int)) (b : Board) (hb : IsBoard b n) :
    IsBoard (l.foldl (fun b c => setCell b c.1 c.2 v) b) n := by
  induction l generalizing b with
  | nil => exact hb
  | cons c l ih =>
    rw [List.foldl_cons]
    exact ih _ (isBoard_setCell b n hb _ _ _)

theorem cell_foldl_setCell (n v : Int) (l : List (Int × Int)) (b : Board) (hb : IsBoard b n)
    (hl : ∀ c ∈ l, 0 ≤ c.1 ∧ c.1 < n ∧ 0 ≤ c.2 ∧ c.2 < n) (x y : Int) :
    cell (l.foldl (fun b c => setCell b c.1 c.2 v) b) x y
      = if (x, y) ∈ l then v else cell b x y := by
  induction l generalizing b with
  | nil => simp
  | cons c l ih =>
    have hc := hl c (List.mem_cons_self _ _)
    rw [List.foldl_cons, ih _ (isBoard_setCell b n hb _ _ _)
      (fun c' h => hl c' (List.mem_cons_of_mem _ h))]
    by_cases hmem : (x, y) ∈ l
    · rw [if_pos hmem, if_pos (List.mem_cons_of_mem _ hmem)]
    · rw [if_neg hmem]
      by_cases hxy : (x, y) = c
      · rw [if_pos (by rw [hxy]; exact List.mem_cons_self _ _)]
        have h1 : x = c.1 := by rw [← hxy]
        have h2 : y = c.2 := by rw [← hxy]
        rw [h1, h2]
        exact cell_setCell_same b n hb _ _ _ ⟨hc.1, hc.2.1⟩ hc.2.2
      · have hnot : (x, y) ∉ c :: l := by
          intro h
          rcases List.mem_cons.1 h with e | e
          · exact hxy e
          · exact hmem e
        rw [if_neg hnot]
        apply cell_setCell_other
        intro h
        exact hxy (Prod.ext h.1 h.2)

/-- The cells written by the first pair of loops of `initBoard`. -/
theorem mem_regionOne (n x y : Int) :
    (x, y) ∈ (List.range (ceilHalfMinusOne n).toNat).flatMap (fun (r : Nat) =>
        (List.range ((n - r - 1) - (r + 1)).toNat).map
          fun (i : Nat) => ((r : Int) + 1 + i, n - 1 - (r : Int)))
      ↔ ∃ yRow : Int, 0 ≤ yRow ∧ yRow < ceilHalfMinusOne n ∧ y = n - 1 - yRow ∧
          yRow < x ∧ x < n - yRow - 1 := by
  rw [List.mem_flatMap]
  constructor
  · rintro ⟨r, hr, hc⟩
    rw [List.mem_map] at hc
    obtain ⟨i, hi, hc⟩ := hc
    rw [List.mem_range] at hr hi
    rw [Prod.mk.injEq] at hc
    exact ⟨r, by omega, by omega, by omega, by omega, by omega⟩
  · rintro ⟨yRow, h1, h2, h3, h4, h5⟩
    refine ⟨yRow.toNat, List.mem_range.2 (by omega), ?_⟩
    rw [List.mem_map]
    refine ⟨(x - yRow - 1).toNat, List.mem_range.2 (by omega), ?_⟩
    rw [Prod.mk.injEq]
    omega

/-- The cells written by the second pair of loops of `initBoard`. -/
theorem mem_regionTwo (n x y : Int) :
    (x, y) ∈ (List.range (ceilHalfMinusOne n).toNat).flatMap (fun (r : Nat) =>
        (List.range ((n - r - 1) - (r + 1)).toNat).map
          fun (i : Nat) => ((r : Int), (r : Int) + 1 + i))
      ↔ 0 ≤ x ∧ x < ceilHalfMinusOne n ∧ x < y ∧ y < n - x - 1 := by
  rw [List.mem_flatMap]
  constructor
  · rintro ⟨r, hr, hc⟩
    rw [List.mem_map] at hc
    obtain ⟨i, hi, hc⟩ := hc
    rw [List.mem_range] at hr hi
    rw [Prod.mk.injEq] at hc
    omega
  · rintro ⟨h1, h2, h3, h4⟩
    refine ⟨x.toNat, List.mem_range.2 (by omega), ?_⟩
    rw [List.mem_map]
    refine ⟨(y - x - 1).toNat, List.mem_range.2 (by omega), ?_⟩
    rw [Prod.mk.injEq]
    omega

theorem isBoard_zero (n : Int) (hn : 0 ≤ n) :
    IsBoard (List.replicate n.toNat (List.replicate n.toNat (0 : Int))) n := by
  refine ⟨hn, List.length_replicate _ _, ?_⟩
  intro row hrow
  rw [List.eq_of_mem_replicate hrow, List.length_replicate]

theorem cell_zero (n x y : Int) :
    cell (List.replicate n.toNat (List.replicate n.toNat (0 : Int))) x y = 0 := by
  unfold cell
  split
  · simp only [List.getD_eq_getElem?_getD, List.getElem?_replicate]
    by_cases h1 : x.toNat < n.toNat
    · rw [if_pos h1, Option.getD_some, List.getElem?_replicate]
      by_cases h2 : y.toNat < n.toNat
      · rw [if_pos h2, Option.getD_some]
      · rw [if_neg h2, Option.getD_none]
    · rw [if_neg h1, Option.getD_none, List.getElem?_nil, Option.getD_none]
  · rfl

theorem initBoard_eq (n : Int) :
    initBoard n =
      ((List.range (ceilHalfMinusOne n).toNat).flatMap (fun (r : Nat) =>
        (List.range ((n - r - 1) - (r + 1)).toNat).map
          fun (i : Nat) => ((r : Int), (r : Int) + 1 + i))).foldl
        (fun b c => setCell b c.1 c.2 2)
        (((List.range (ceilHalfMinusOne n).toNat).flatMap (fun (r : Nat) =>
          (List.range ((n - r - 1) - (r + 1)).toNat).map
            fun (i : Nat) => ((r : Int) + 1 + i, n - 1 - (r : Int)))).foldl
          (fun b c => setCell b c.1 c.2 1)
          (List.replicate n.toNat (List.replicate n.toNat (0 : Int)))) := by
  unfold initBoard
  simp only [← foldl_nested, List.foldl_map]

theorem isBoard_initBoard (n : Int) (hn : 0 ≤ n) : IsBoard (initBoard n) n := by
  rw [initBoard_eq]
  exact isBoard_foldl_setCell n 2 _ _ (isBoard_foldl_setCell n 1 _ _ (isBoard_zero n hn))

theorem cell_initBoard (n : Int) (hn : 0 ≤ n) (x y : Int) :
    cell (initBoard n) x y =
      if 0 ≤ x ∧ x < ceilHalfMinusOne n ∧ x < y ∧ y < n - x - 1 then 2
      else if y ≤ n - 1 ∧ n - 1 - y < ceilHalfMinusOne n ∧ n - 1 - y < x ∧ x < y then 1
      else 0 := by
  rw [initBoard_eq]
  rw [cell_foldl_setCell n 2 _ _ (isBoard_foldl_setCell n 1 _ _ (isBoard_zero n hn)),
    cell_foldl_setCell n 1 _ _ (isBoard_zero n hn), cell_zero]
  · apply if_congr (mem_regionTwo n x y) rfl
    apply if_congr _ rfl rfl
    rw [mem_regionOne]
    constructor
    · rintro ⟨yRow, h1, h2, h3, h4, h5⟩
      omega
    · intro h
      exact ⟨n - 1 - y, by omega, by omega, by omega, by omega, by omega⟩
  · intro c hc
    obtain ⟨yRow, h1, h2, h3, h4, h5⟩ := (mem_regionOne n c.1 c.2).1 hc
    unfold ceilHalfMinusOne at h2
    omega
  · intro c hc
    have := (mem_regionTwo n c.1 c.2).1 hc
    unfold ceilHalfMinusOne at this
    omega

/-- C11: for `n ≥ 1`, with `k = ceil(n/2 - 1)`, the board built by `initBoard` is
`n`×`n`; a cell holds 1 iff it is `(x, n-1-yRow)` for some `yRow` in `[0,k)` with
`yRow < x < n-yRow-1`; it holds 2 iff `x < k` and `x < y < n-x-1`; every other
cell holds 0, and no cell lies in both regions. -/
theorem initBoard_regions (n : Int) (hn : 1 ≤ n) :
    IsBoard (initBoard n) n ∧
      ∀ x y : Int, 0 ≤ x → x < n → 0 ≤ y → y < n →
        (cell (initBoard n) x y = 1 ↔
          ∃ yRow : Int, 0 ≤ yRow ∧ yRow < ceilHalfMinusOne n ∧ y = n - 1 - yRow ∧
            yRow < x ∧ x < n - yRow - 1) ∧
        (cell (initBoard n) x y = 2 ↔ x < ceilHalfMinusOne n ∧ x < y ∧ y < n - x - 1) ∧
        (cell (initBoard n) x y = 0 ∨ cell (initBoard n) x y = 1 ∨ cell (initBoard n) x y = 2) ∧
        ¬ ((∃ yRow : Int, 0 ≤ yRow ∧ yRow < ceilHalfMinusOne n ∧ y = n - 1 - yRow ∧
              yRow < x ∧ x < n - yRow - 1) ∧
            (x < ceilHalfMinusOne n ∧ x < y ∧ y < n - x - 1)) := by
  refine ⟨isBoard_initBoard n (by omega), ?_⟩
  intro x y hx0 hxn hy0 hyn
  have hone : (∃ yRow : Int, 0 ≤ yRow ∧ yRow < ceilHalfMinusOne n ∧ y = n - 1 - yRow ∧
      yRow < x ∧ x < n - yRow - 1) ↔
      (y ≤ n - 1 ∧ n - 1 - y < ceilHalfMinusOne n ∧ n - 1 - y < x ∧ x < y) := by
    constructor
    · rintro ⟨yRow, h1, h2, h3, h4, h5⟩
      omega
    · intro h
      exact ⟨n - 1 - y, by omega, by omega, by omega, by omega, by omega⟩
  rw [hone, cell_initBoard n (by omega) x y]
  by_cases h2 : 0 ≤ x ∧ x < ceilHalfMinusOne n ∧ x < y ∧ y < n - x - 1
  · rw [if_pos h2]
    refine ⟨?_, ?_, by omega, ?_⟩
    · constructor
      · intro h; omega
      · intro h; omega
    · exact ⟨fun _ => h2.2, fun _ => rfl⟩
    · intro h; omega
  · rw [if_neg h2]
    by_cases h1 : y ≤ n - 1 ∧ n - 1 - y < ceilHalfMinusOne n ∧ n - 1 - y < x ∧ x < y
    · rw [if_pos h1]
      refine ⟨⟨fun _ => h1, fun _ => rfl⟩, ?_, by omega, ?_⟩
      · constructor
        · intro h; omega
        · intro h; exact absurd ⟨hx0, h⟩ h2
      · intro h; exact h2 ⟨hx0, h.2⟩
    · rw [if_neg h1]
      refine ⟨?_, ?_, by omega, ?_⟩
      · constructor
        · intro h; omega
        · intro h; exact absurd h h1
      · constructor
        · intro h; omega
        · intro h; exact absurd ⟨hx0, h⟩ h2
      · intro h; exact h1 h.1

/-- Witness for C11 at `n = 6`: the board is 6×6, six cells hold 1, six hold 2
and the remaining 24 hold 0. -/
theorem initBoard_regions_witness :
    IsBoard (initBoard 6) 6 ∧ countCells 1 (initBoard 6) 6 = 6 ∧
      countCells 2 (initBoard 6) 6 = 6 ∧ countCells 0 (initBoard 6) 6 = 24 :=
  ⟨(initBoard_regions 6 (by decide)).1, by decide, by decide, by decide⟩

/-! ## More on `minimax`, `makeMove` and depth-1 search -/

/-- C12 as stated fails at `depth = 0`: player 1 has no move on this board, yet
`minimax` at a minimizing ply returns `evaluate`, here -20, not +10000. -/
theorem minimax_stuck_depth_zero_counterexample :
    ¬ (getMovesStatic 1 [[1, 0], [0, 0]] 2 = [] →
        minimax 1 [[1, 0], [0, 0]] 0 false (-100000) 100000 2
          = some (10000, [[1, 0], [0, 0]])) := by
  decide

/-- C12 amended: on a board on which player 1 has no legal move, `minimax` at a
minimizing ply returns +10000 for every remaining depth other than 0 and every
window, and at depth 0 it returns `evaluate board n`; one unit of fuel is
enough and the board is left alone. -/
theorem minimax_stuck_minimizer (fuel : Nat) (b : Board) (n : Int) (depth alpha beta : Int)
    (_hb : IsBoard b n) (hstuck : getMovesStatic 1 b n = []) :
    (depth ≠ 0 → minimax (fuel + 1) b depth false alpha beta n = some (10000, b)) ∧
      (depth = 0 → minimax (fuel + 1) b depth false alpha beta n = some (evaluate b n, b)) := by
  constructor
  · intro hd
    unfold minimax
    rw [if_neg hd]
    simp only [Bool.false_eq_true, if_false, hstuck, List.isEmpty_nil, if_true]
  · intro hd
    unfold minimax
    rw [if_pos hd]

/-- Witness for C12 amended: the board of the counterexample at depth 3 and at
depth 0. -/
theorem minimax_stuck_minimizer_witness :
    minimax 1 [[1, 0], [0, 0]] 3 false (-100000) 100000 2 = some (10000, [[1, 0], [0, 0]]) ∧
      minimax 1 [[1, 0], [0, 0]] 0 false (-100000) 100000 2
        = some (evaluate [[1, 0], [0, 0]] 2, [[1, 0], [0, 0]]) :=
  ⟨(minimax_stuck_minimizer 0 [[1, 0], [0, 0]] 2 3 (-100000) 100000 (by decide) (by decide)).1
      (by decide),
    (minimax_stuck_minimizer 0 [[1, 0], [0, 0]] 2 0 (-100000) 100000 (by decide) (by decide)).2
      rfl⟩

/-- C14: round trip.  On an `n`×`n` board, when `makeMove x1 y1 x2 y2` is
applied (both pairs inside the grid, source non-empty, destination empty), the
inverse `makeMove x2 y2 x1 y1` is applied too and restores the board; and
`currentPlayer` is back at its original value when that was 1 or 2. -/
theorem makeMove_round_trip (g : MigrationGame) (x1 y1 x2 y2 : Int)
    (hb : IsBoard g.board g.n)
    (h1 : 0 ≤ x1 ∧ x1 < g.n ∧ 0 ≤ y1 ∧ y1 < g.n) (h2 : 0 ≤ x2 ∧ x2 < g.n ∧ 0 ≤ y2 ∧ y2 < g.n)
    (hs : cell g.board x1 y1 ≠ 0) (hd : cell g.board x2 y2 = 0) :
    ((g.makeMove x1 y1 x2 y2).makeMove x2 y2 x1 y1).board = g.board ∧
      ((g.makeMove x1 y1 x2 y2).makeMove x2 y2 x1 y1).n = g.n ∧
      (g.currentPlayer = 1 ∨ g.currentPlayer = 2 →
        ((g.makeMove x1 y1 x2 y2).makeMove x2 y2 x1 y1).currentPlayer = g.currentPlayer) := by
  have hne : ¬ (x2 = x1 ∧ y2 = y1) := by
    rintro ⟨e1, e2⟩
    rw [e1, e2] at hd
    exact hs hd
  have hc := cell_applyMove g.board g.n hb ⟨x1, y1, x2, y2⟩ (cell g.board x1 y1) h1 h2
  simp only at hc
  have hA := isBoard_applyMove g.board g.n hb ⟨x1, y1, x2, y2⟩ (cell g.board x1 y1)
  rw [makeMove_of_accepted g x1 y1 x2 y2 h1 h2 hs hd]
  have e2 := makeMove_of_accepted
    { g with board := applyMove g.board ⟨x1, y1, x2, y2⟩ (cell g.board x1 y1),
             currentPlayer := if g.currentPlayer = 1 then 2 else 1 } x2 y2 x1 y1 h2 h1
    (by simp only; rw [hc, if_neg hne, if_pos ⟨rfl, rfl⟩]; exact hs)
    (by simp only; rw [hc, if_pos ⟨rfl, rfl⟩])
  rw [e2]
  simp only
  refine ⟨?_, trivial, ?_⟩
  · apply board_ext _ _ g.n (isBoard_applyMove _ _ hA _ _) hb
    intro x y _ _ _ _
    have hc2 := cell_applyMove _ g.n hA ⟨x2, y2, x1, y1⟩
      (cell (applyMove g.board ⟨x1, y1, x2, y2⟩ (cell g.board x1 y1)) x2 y2) h2 h1 x y
    simp only at hc2
    rw [hc2]
    by_cases hxd : x = x2 ∧ y = y2
    · rw [if_pos hxd, hxd.1, hxd.2, hd]
    · rw [if_neg hxd]
      by_cases hxs : x = x1 ∧ y = y1
      · rw [if_pos hxs, hc, if_neg hne, if_pos ⟨rfl, rfl⟩, hxs.1, hxs.2]
      · rw [if_neg hxs, hc, if_neg hxs, if_neg hxd]
  · intro hcp
    rcases hcp with e | e
    · rw [e]; rfl
    · rw [e]; rfl

/-- Witness for C14: player 1 steps from (1,2) to (1,1) and back. -/
theorem makeMove_round_trip_witness :
    (((⟨3, 1, [[2, 0, 0], [0, 0, 1], [0, 0, 0]], 3⟩ : MigrationGame).makeMove 1 2 1 1).makeMove
        1 1 1 2).board = [[2, 0, 0], [0, 0, 1], [0, 0, 0]] :=
  (makeMove_round_trip ⟨3, 1, [[2, 0, 0], [0, 0, 1], [0, 0, 0]], 3⟩ 1 2 1 1
    (by decide) (by decide) (by decide) (by decide) (by decide)).1

theorem decideLoopVal_of_le (s : Move → Int) (ms : List Move) (maxEval : Int) (bestMove : Move)
    (h : ∀ m ∈ ms, s m ≤ maxEval) : decideLoopVal s ms maxEval bestMove = (bestMove, maxEval) := by
  induction ms with
  | nil => rfl
  | cons m ms ih =>
    have hm := h m (List.mem_cons_self _ _)
    simp only [decideLoopVal]
    rw [if_neg (by omega)]
    exact ih (fun m' h' => h m' (List.mem_cons_of_mem _ h'))

/-! ## Range of `evaluate` -/

theorem cellSum_eval_le_sum (b : Board) (n : Int) :
    cellSum (evalWeight n) b n ≤ ((cellsInOrder n).map fun c => 10 * c.1).sum := by
  unfold cellSum
  apply List.sum_le_sum
  intro c hc
  rw [mem_cellsInOrder] at hc
  unfold evalWeight
  split
  · omega
  · split
    · omega
    · omega

theorem neg_sum_le_cellSum_eval (b : Board) (n : Int) :
    -((cellsInOrder n).map fun c => 10 * (n - c.2)).sum ≤ cellSum (evalWeight n) b n := by
  unfold cellSum
  have h : ((cellsInOrder n).map fun c => -(10 * (n - c.2))).sum
      ≤ ((cellsInOrder n).map fun c => evalWeight n (cell b c.1 c.2) c.1 c.2).sum := by
    apply List.sum_le_sum
    intro c hc
    rw [mem_cellsInOrder] at hc
    unfold evalWeight
    split
    · omega
    · split
      · omega
      · omega
  have e : ∀ l : List (Int × Int), (l.map fun c => -(10 * (n - c.2))).sum
      = -(l.map fun c => 10 * (n - c.2)).sum := by
    intro l
    induction l with
    | nil => rfl
    | cons c l ih => simp only [List.map_cons, List.sum_cons, ih]; omega
  rw [e] at h
  exact h

set_option maxRecDepth 100000 in
/-- C16 as stated fails: on the 13×13 board whose cells all hold 2 the score is
10140, not below the stuck-minimizer value 10000. -/
theorem evaluate_exceeds_sentinel_counterexample :
    IsBoard (List.replicate 13 (List.replicate 13 2)) 13 ∧
      ¬ (-10000 < evaluate (List.replicate 13 (List.replicate 13 2)) 13 ∧
          evaluate (List.replicate 13 (List.replicate 13 2)) 13 < 10000) := by
  decide

set_option maxRecDepth 100000 in
/-- C16 amended: for every `n ≤ 12` and every `n`×`n` board the static score
lies strictly between the two stuck-player values: `-10000 < evaluate b n` and
`evaluate b n < 10000`. -/
theorem evaluate_between_sentinels (b : Board) (n : Int) (hb : IsBoard b n) (hn : n ≤ 12) :
    -10000 < evaluate b n ∧ evaluate b n < 10000 := by
  have h0 : 0 ≤ n := hb.1
  have hU := cellSum_eval_le_sum b n
  have hL := neg_sum_le_cellSum_eval b n
  have hbound : ((cellsInOrder n).map fun c => 10 * c.1).sum < 10000 ∧
      ((cellsInOrder n).map fun c => 10 * (n - c.2)).sum < 10000 := by
    interval_cases n <;> decide
  rw [evaluate_eq_wrap_cellSum, wrapInt32_of_range _ (by omega) (by omega)]
  omega

/-- Witness for C16 amended on the initial 6×6 board. -/
theorem evaluate_between_sentinels_witness :
    -10000 < evaluate (initBoard 6) 6 ∧ evaluate (initBoard 6) 6 < 10000 :=
  evaluate_between_sentinels (initBoard 6) 6 (by decide) (by decide)

/-! ## Every play is finite -/

theorem playMoves_length (n : Int) (steps : List (Int × Move)) :
    ∀ (b b' : Board), IsBoard b n → playMoves n b steps = some b' →
      IsBoard b' n ∧ Phi b' n = Phi b n - steps.length := by
  induction steps with
  | nil =>
    intro b b' hb h
    simp only [playMoves, Option.some.injEq] at h
    subst h
    exact ⟨hb, by simp⟩
  | cons s steps ih =>
    intro b b' hb h
    obtain ⟨p, m⟩ := s
    simp only [playMoves] at h
    by_cases hc : (p = 1 ∨ p = 2) ∧ m ∈ getMovesStatic p b n
    · rw [if_pos hc] at h
      obtain ⟨h1, h2⟩ := ih _ _ (isBoard_applyMove b n hb m p) h
      refine ⟨h1, ?_⟩
      rw [h2, Phi_applyMove b n hb p hc.1 m hc.2, List.length_cons]
      push_cast
      omega
    · rw [if_neg hc] at h
      cases h

theorem maxLoopVal_stuck (beta : Int) (cs : List (Int → Int → Int))
    (h : ∀ c ∈ cs, ∀ a be, c a be = 10000 ∨ c a be = -10000) (maxEval alpha : Int)
    (hM : (maxEval = -100000 ∧ cs ≠ []) ∨ maxEval = 10000 ∨ maxEval = -10000) :
    maxLoopVal beta cs maxEval alpha = 10000 ∨ maxLoopVal beta cs maxEval alpha = -10000 := by
  induction cs generalizing maxEval alpha with
  | nil =>
    rcases hM with ⟨_, h'⟩ | h'
    · exact absurd rfl h'
    · exact h'
  | cons c cs ih =>
    have hc := h c (List.mem_cons_self _ _) alpha beta
    simp only [maxLoopVal]
    have hM' : max maxEval (c alpha beta) = 10000 ∨ max maxEval (c alpha beta) = -10000 := by
      omega
    split
    · exact hM'
    · exact ih (fun c' h' => h c' (List.mem_cons_of_mem _ h')) _ _ (Or.inr hM')

theorem minLoopVal_stuck (alpha : Int) (cs : List (Int → Int → Int))
    (h : ∀ c ∈ cs, ∀ a be, c a be = 10000 ∨ c a be = -10000) (minEval beta : Int)
    (hM : (minEval = 100000 ∧ cs ≠ []) ∨ minEval = 10000 ∨ minEval = -10000) :
    minLoopVal alpha cs minEval beta = 10000 ∨ minLoopVal alpha cs minEval beta = -10000 := by
  induction cs generalizing minEval beta with
  | nil =>
    rcases hM with ⟨_, h'⟩ | h'
    · exact absurd rfl h'
    · exact h'
  | cons c cs ih =>
    have hc := h c (List.mem_cons_self _ _) alpha beta
    simp only [minLoopVal]
    have hM' : min minEval (c alpha beta) = 10000 ∨ min minEval (c alpha beta) = -10000 := by
      omega
    split
    · exact hM'
    · exact ih (fun c' h' => h c' (List.mem_cons_of_mem _ h')) _ _ (Or.inr hM')

/-- Below depth 0 the base case is never reached: the score comes from stuck
positions only. -/
theorem abVal_negative_depth (n : Int) (fuel : Nat) : ∀ (b : Board) (depth : Int) (isMax : Bool)
    (alpha beta : Int), IsBoard b n → depth < 0 → Phi b n < fuel →
    abVal n fuel b depth isMax alpha beta = 10000 ∨
      abVal n fuel b depth isMax alpha beta = -10000 := by
  induction fuel with
  | zero =>
    intro b depth _ _ _ _ _ h
    have := Phi_nonneg b n
    simp only [Nat.cast_zero] at h
    omega
  | succ fuel ih =>
    intro b depth isMax alpha beta hb hd hf
    unfold abVal
    rw [if_neg (by omega)]
    cases isMax with
    | true =>
      simp only [if_true]
      by_cases he : (getMovesStatic 2 b n).isEmpty = true
      · rw [if_pos he]; right; rfl
      · rw [if_neg he]
        apply maxLoopVal_stuck
        · intro c hc a be
          rw [List.mem_map] at hc
          obtain ⟨m, hm, rfl⟩ := hc
          apply ih _ _ _ _ _ (isBoard_applyMove b n hb m 2) (by omega)
          rw [Phi_applyMove b n hb 2 (Or.inr rfl) m hm]
          push_cast at hf
          omega
        · left
          refine ⟨rfl, ?_⟩
          intro h
          apply he
          rw [List.isEmpty_iff]
          exact List.map_eq_nil_iff.1 h
    | false =>
      simp only [Bool.false_eq_true, if_false]
      by_cases he : (getMovesStatic 1 b n).isEmpty = true
      · rw [if_pos he]; left; rfl
      · rw [if_neg he]
        apply minLoopVal_stuck
        · intro c hc a be
          rw [List.mem_map] at hc
          obtain ⟨m, hm, rfl⟩ := hc
          apply ih _ _ _ _ _ (isBoard_applyMove b n hb m 1) (by omega)
          rw [Phi_applyMove b n hb 1 (Or.inl rfl) m hm]
          push_cast at hf
          omega
        · left
          refine ⟨rfl, ?_⟩
          intro h
          apply he
          rw [List.isEmpty_iff]
          exact List.map_eq_nil_iff.1 h

/-- C20: every play is finite.  On an `n`×`n` board, applying any generated
move of player 1 or 2 lowers `Phi` by exactly one; so a chain of successively
generated and applied moves from `b` has length at most `Phi b n`; and with
more than `Phi b n` units of fuel `minimax` returns for every integer depth,
window and side, below depth 0 with a score that comes from stuck positions
only (the `depth == 0` base case is not reached there). -/
theorem play_is_finite (b : Board) (n : Int) (hb : IsBoard b n) :
    (∀ (p : Int) (m : Move), p = 1 ∨ p = 2 → m ∈ getMovesStatic p b n →
        Phi (applyMove b m p) n = Phi b n - 1) ∧
      (∀ (steps : List (Int × Move)) (b' : Board), playMoves n b steps = some b' →
        (steps.length : Int) ≤ Phi b n) ∧
      (∀ (fuel : Nat) (depth : Int) (isMax : Bool) (alpha beta : Int), Phi b n < fuel →
        ∃ r : Int, minimax fuel b depth isMax alpha beta n = some (r, b) ∧
          (depth < 0 → r = 10000 ∨ r = -10000)) := by
  refine ⟨fun p m hp hm => Phi_applyMove b n hb p hp m hm, ?_, ?_⟩
  · intro steps b' h
    obtain ⟨_, h2⟩ := playMoves_length n steps b b' hb h
    have := Phi_nonneg b' n
    omega
  · intro fuel depth isMax alpha beta hf
    exact ⟨_, minimax_eq n fuel b depth isMax alpha beta hb (Or.inr hf),
      fun hd => abVal_negative_depth n fuel b depth isMax alpha beta hb hd hf⟩

/-- Witness for C20: on a 3×3 board with `Phi = 6`, seven units of fuel let
`minimax` return at depth -1. -/
theorem play_is_finite_witness :
    ∃ r : Int, minimax 7 [[2, 2, 0], [0, 0, 1], [0, 0, 0]] (-1) true (-100000) 100000 3
        = some (r, [[2, 2, 0], [0, 0, 1], [0, 0, 0]]) ∧
      ((-1 : Int) < 0 → r = 10000 ∨ r = -10000) :=
  (play_is_finite [[2, 2, 0], [0, 0, 1], [0, 0, 0]] 3 (by decide)).2.2 7 (-1) true
    (-100000) 100000 (by decide)

/-! ## The bot's turn -/

theorem decideMove_cases (fuel : Nat) (maxDepth : Int) (b : Board) (n : Int)
    (hb : IsBoard b n) (hf : (1 ≤ maxDepth ∧ maxDepth ≤ fuel) ∨ Phi b n ≤ fuel) :
    ∃ mv : Move, decideMove fuel maxDepth b n = some mv ∧
      ((getMovesStatic 2 b n = [] ∧ mv = sentinel) ∨ mv ∈ getMovesStatic 2 b n) := by
  unfold decideMove
  cases h : getMovesStatic 2 b n with
  | nil =>
    rw [decideMoveState_nil fuel maxDepth b n h]
    exact ⟨sentinel, rfl, Or.inl ⟨rfl, rfl⟩⟩
  | cons m0 ms =>
    rw [decideMoveState_cons fuel maxDepth b n hb hf m0 ms h, Option.map_some']
    refine ⟨_, rfl, Or.inr ?_⟩
    rcases decideLoopVal_mem
      (fun m => abVal n fuel (applyMove b m 2) (maxDepth - 1) false (-100000) 100000)
      (m0 :: ms) (-100000) m0 with e | e
    · rw [e]; exact List.mem_cons_self _ _
    · exact e

/-- C15: the bot's turn.  On an `n`×`n` board, with enough fuel for the search
to return, `calculateBotMove` returns the move of `decideMove board n` and the
state it was called on; `runBot` leaves the state unchanged when that move is
the sentinel, and otherwise yields the state with the move applied: destination
2, source 0, all other cells unchanged, `currentPlayer` flipped.  `makeMove`
never rejects the move chosen by the engine. -/
theorem runBot_applies_engine_move (fuel : Nat) (g : MigrationGame)
    (hb : IsBoard g.board g.n)
    (hf : (1 ≤ g.botDepth ∧ g.botDepth ≤ fuel) ∨ Phi g.board g.n ≤ fuel) :
    ∃ mv : Move, decideMove fuel g.botDepth g.board g.n = some mv ∧
      g.calculateBotMove fuel = some (mv, g) ∧
      (mv = sentinel → g.runBot fuel = some g) ∧
      (mv ≠ sentinel →
        g.runBot fuel = some
          { g with board := applyMove g.board mv 2,
                   currentPlayer := if g.currentPlayer = 1 then 2 else 1 } ∧
        cell (applyMove g.board mv 2) mv.x2 mv.y2 = 2 ∧
        cell (applyMove g.board mv 2) mv.x1 mv.y1 = 0 ∧
        ∀ x y : Int, ¬ (x = mv.x1 ∧ y = mv.y1) → ¬ (x = mv.x2 ∧ y = mv.y2) →
          cell (applyMove g.board mv 2) x y = cell g.board x y) := by
  obtain ⟨mv, hmv, hcase⟩ := decideMove_cases fuel g.botDepth g.board g.n hb hf
  have hcalc : g.calculateBotMove fuel = some (mv, g) := by
    unfold MigrationGame.calculateBotMove
    simp only [hmv]
  refine ⟨mv, hmv, hcalc, ?_, ?_⟩
  · intro hs
    unfold MigrationGame.runBot
    simp only [hcalc, hs, sentinel, ne_eq, not_true_eq_false, if_false]
  · intro hns
    rcases hcase with ⟨_, hs⟩ | hmem
    · exact absurd hs hns
    · obtain ⟨h1, hsrc, hx, hy, h2, hdst⟩ := mem_getMovesStatic.1 hmem
      have hne : ¬ (mv.x2 = mv.x1 ∧ mv.y2 = mv.y1) := by
        rintro ⟨e1, e2⟩
        rw [e1, e2, hsrc] at hdst
        exact absurd hdst (by decide)
      have hc := cell_applyMove g.board g.n hb mv 2 h1 h2
      refine ⟨?_, ?_, ?_, ?_⟩
      · unfold MigrationGame.runBot
        simp only [hcalc]
        rw [if_pos (by omega),
          makeMove_of_accepted g mv.x1 mv.y1 mv.x2 mv.y2 h1 h2 (by rw [hsrc]; decide) hdst, hsrc]
      · rw [hc, if_neg hne, if_pos ⟨rfl, rfl⟩]
      · rw [hc, if_pos ⟨rfl, rfl⟩]
      · intro x y hx' hy'
        rw [hc, if_neg hx', if_neg hy']

/-- Witness for C15: the bot moves on the initial 4×4 board. -/
theorem runBot_applies_engine_move_witness :
    ∃ mv : Move, decideMove 2 2 (initBoard 4) 4 = some mv ∧
      (MigrationGame.new 4 2).calculateBotMove 2 = some (mv, MigrationGame.new 4 2) :=
  have h := runBot_applies_engine_move 2 (MigrationGame.new 4 2) (by decide) (Or.inl (by decide))
  h.elim fun mv hmv => ⟨mv, hmv.1, hmv.2.1⟩

/-! ## The board invariant -/

theorem length_filter_eq_sum {α : Type} (p : α → Prop) [DecidablePred p] (l : List α) :
    ((l.filter fun c => p c).length : Int) = (l.map fun c => if p c then (1 : Int) else 0).sum := by
  induction l with
  | nil => rfl
  | cons c l ih =>
    by_cases hc : p c
    · simp only [List.filter_cons, hc, decide_True, if_true, List.length_cons, List.map_cons,
        List.sum_cons, ← ih]
      push_cast
      omega
    · simp only [List.filter_cons, hc, decide_False, if_false, List.map_cons, List.sum_cons, ← ih]
      simp

theorem countCells_eq_cellSum (v : Int) (b : Board) (n : Int) :
    (countCells v b n : Int) = cellSum (fun c _ _ => if c = v then 1 else 0) b n := by
  unfold countCells cellSum
  exact length_filter_eq_sum (fun c : Int × Int => cell b c.1 c.2 = v) _

theorem countCells_applyMove (v : Int) (b : Board) (n : Int) (hb : IsBoard b n) (m : Move) (p : Int)
    (h1 : 0 ≤ m.x1 ∧ m.x1 < n ∧ 0 ≤ m.y1 ∧ m.y1 < n)
    (h2 : 0 ≤ m.x2 ∧ m.x2 < n ∧ 0 ≤ m.y2 ∧ m.y2 < n)
    (hs : cell b m.x1 m.y1 = p) (hp : p ≠ 0) (hd : cell b m.x2 m.y2 = 0) :
    countCells v (applyMove b m p) n = countCells v b n := by
  have hne : ¬ (m.x1 = m.x2 ∧ m.y1 = m.y2) := by
    rintro ⟨e1, e2⟩
    rw [← e1, ← e2, hs] at hd
    exact hp hd
  have h := cellSum_applyMove (fun c _ _ => if c = v then 1 else 0) b n hb m p h1 h2 hne
  rw [← countCells_eq_cellSum, ← countCells_eq_cellSum, hs, hd] at h
  simp only at h
  omega

theorem makeMove_inv (n d : Int) (ones twos : Nat) (g : MigrationGame)
    (hg : BoardInv n d ones twos g) (x1 y1 x2 y2 : Int) :
    BoardInv n d ones twos (g.makeMove x1 y1 x2 y2) := by
  by_cases hrej : ¬ (0 ≤ x1 ∧ x1 < g.n ∧ 0 ≤ y1 ∧ y1 < g.n) ∨
      ¬ (0 ≤ x2 ∧ x2 < g.n ∧ 0 ≤ y2 ∧ y2 < g.n) ∨ cell g.board x1 y1 = 0 ∨ cell g.board x2 y2 ≠ 0
  · rw [makeMove_of_rejected g x1 y1 x2 y2 hrej]
    exact hg
  · simp only [not_or, not_not] at hrej
    obtain ⟨h1, h2, hs, hd⟩ := hrej
    obtain ⟨hn, hdep, hb, hcells, hone, htwo⟩ := hg
    rw [makeMove_of_accepted g x1 y1 x2 y2 h1 h2 hs hd]
    rw [hn] at h1 h2
    have hc := cell_applyMove g.board n hb ⟨x1, y1, x2, y2⟩ (cell g.board x1 y1) h1 h2
    refine ⟨hn, hdep, isBoard_applyMove _ _ hb _ _, ?_, ?_, ?_⟩
    · intro x y
      simp only
      rw [hc]
      simp only
      split
      · left; rfl
      · split
        · have := hcells x1 y1
          omega
        · exact hcells x y
    · simp only
      rw [countCells_applyMove 1 g.board n hb ⟨x1, y1, x2, y2⟩ _ h1 h2 rfl hs hd]
      exact hone
    · simp only
      rw [countCells_applyMove 2 g.board n hb ⟨x1, y1, x2, y2⟩ _ h1 h2 rfl hs hd]
      exact htwo

theorem runBot_cases (fuel : Nat) (g g' : MigrationGame) (h : g.runBot fuel = some g') :
    g' = g ∨ ∃ x1 y1 x2 y2 : Int, g' = g.makeMove x1 y1 x2 y2 := by
  unfold MigrationGame.runBot MigrationGame.calculateBotMove at h
  cases hm : decideMove fuel g.botDepth g.board g.n with
  | none => simp only [hm] at h; cases h
  | some m =>
    simp only [hm] at h
    by_cases hx : m.x1 ≠ -1
    · rw [if_pos hx] at h
      right
      exact ⟨m.x1, m.y1, m.x2, m.y2, (Option.some.inj h).symm⟩
    · rw [if_neg hx] at h
      left
      exact (Option.some.inj h).symm

theorem step_inv (n d : Int) (ones twos : Nat) (fuel : Nat) (g g' : MigrationGame)
    (hg : BoardInv n d ones twos g) (op : GameOp) (h : g.step fuel op = some g') :
    BoardInv n d ones twos g' := by
  cases op with
  | makeMove x1 y1 x2 y2 =>
    simp only [MigrationGame.step, Option.some.injEq] at h
    rw [← h]
    exact makeMove_inv n d ones twos g hg x1 y1 x2 y2
  | runBot =>
    simp only [MigrationGame.step] at h
    rcases runBot_cases fuel g g' h with e | ⟨x1, y1, x2, y2, e⟩
    · rw [e]; exact hg
    · rw [e]; exact makeMove_inv n d ones twos g hg x1 y1 x2 y2

theorem run_inv (n d : Int) (ones twos : Nat) (fuel : Nat) (ops : List GameOp) :
    ∀ g g' : MigrationGame, BoardInv n d ones twos g → MigrationGame.run fuel g ops = some g' →
      BoardInv n d ones twos g' := by
  induction ops with
  | nil =>
    intro g g' hg h
    simp only [MigrationGame.run, Option.some.injEq] at h
    rw [← h]
    exact hg
  | cons op ops ih =>
    intro g g' hg h
    simp only [MigrationGame.run] at h
    cases hs : g.step fuel op with
    | none => simp only [hs] at h; cases h
    | some g1 =>
      simp only [hs] at h
      exact ih g1 g' (step_inv n d ones twos fuel g g1 hg op hs) h

theorem length_grid (l1 l2 : List Nat) :
    (l1.flatMap fun (i : Nat) => l2.map fun (j : Nat) => ((i : Int), (j : Int))).length
      = l1.length * l2.length := by
  induction l1 with
  | nil => simp
  | cons i l1 ih =>
    rw [List.flatMap_cons, List.length_append, ih, List.length_map, List.length_cons]
    ring

theorem length_cellsInOrder (n : Int) : (cellsInOrder n).length = n.toNat * n.toNat := by
  unfold cellsInOrder
  rw [length_grid, List.length_range]

theorem Phi_le_cube (b : Board) (n : Int) (hn : 0 ≤ n) : Phi b n ≤ n * n * n := by
  rw [Phi_eq_cellSum]
  unfold cellSum
  have h := List.sum_le_card_nsmul
    ((cellsInOrder n).map fun c => phiWeight n (cell b c.1 c.2) c.1 c.2) n (by
      intro t ht
      rw [List.mem_map] at ht
      obtain ⟨c, hc, rfl⟩ := ht
      rw [mem_cellsInOrder] at hc
      unfold phiWeight
      split
      · omega
      · split
        · omega
        · omega)
  rw [List.length_map, length_cellsInOrder, nsmul_eq_mul] at h
  have e : ((n.toNat * n.toNat : Nat) : Int) = n * n := by
    push_cast
    rw [Int.toNat_of_nonneg hn]
  rw [e] at h
  exact h

theorem run_progress (n d : Int) (ones twos : Nat) (fuel : Nat)
    (hf : (1 ≤ d ∧ d ≤ fuel) ∨ n * n * n ≤ fuel) (ops : List GameOp) :
    ∀ g : MigrationGame, BoardInv n d ones twos g →
      ∃ g' : MigrationGame, MigrationGame.run fuel g ops = some g' := by
  induction ops with
  | nil => intro g _; exact ⟨g, rfl⟩
  | cons op ops ih =>
    intro g hg
    have hstep : ∃ g1, g.step fuel op = some g1 := by
      cases op with
      | makeMove x1 y1 x2 y2 => exact ⟨_, rfl⟩
      | runBot =>
        obtain ⟨hn, hdep, hb, _⟩ := hg
        have hf' : (1 ≤ g.botDepth ∧ g.botDepth ≤ fuel) ∨ Phi g.board g.n ≤ fuel := by
          rcases hf with h | h
          · left; rw [hdep]; exact h
          · right
            rw [hn]
            exact le_trans (Phi_le_cube g.board n hb.1) h
        rw [← hn] at hb
        obtain ⟨mv, hmv, _⟩ := decideMove_cases fuel g.botDepth g.board g.n hb hf'
        simp only [MigrationGame.step, MigrationGame.runBot, MigrationGame.calculateBotMove, hmv]
        split
        · exact ⟨_, rfl⟩
        · exact ⟨_, rfl⟩
    obtain ⟨g1, hg1⟩ := hstep
    obtain ⟨g', hg'⟩ := ih g1 (step_inv n d ones twos fuel g g1 hg op hg1)
    exact ⟨g', by simp only [MigrationGame.run, hg1, hg']⟩

theorem new_inv (n d : Int) (hn : 1 ≤ n) :
    BoardInv n d (countCells 1 (initBoard n) n) (countCells 2 (initBoard n) n)
      (MigrationGame.new n d) := by
  refine ⟨rfl, rfl, isBoard_initBoard n (by omega), ?_, rfl, rfl⟩
  intro x y
  show cell (initBoard n) x y = 0 ∨ cell (initBoard n) x y = 1 ∨ cell (initBoard n) x y = 2
  rw [cell_initBoard n (by omega) x y]
  split
  · right; right; rfl
  · split
    · right; left; rfl
    · left; rfl

/-- C13: board invariant.  In every state reached from the constructor (size
`n ≥ 1`) by any sequence of `makeMove` calls with arbitrary integer arguments
and `runBot` calls, the board is `n`×`n`, every cell holds 0, 1 or 2, and the
numbers of cells holding 1 and holding 2 are those of the initial board.  With
enough fuel for the bot's searches every such sequence of calls runs through. -/
theorem board_invariant (n d : Int) (hn : 1 ≤ n) (fuel : Nat) (ops : List GameOp) :
    (∀ g' : MigrationGame, (MigrationGame.new n d).run fuel ops = some g' →
        g'.n = n ∧ IsBoard g'.board n ∧
        (∀ x y : Int, cell g'.board x y = 0 ∨ cell g'.board x y = 1 ∨ cell g'.board x y = 2) ∧
        countCells 1 g'.board n = countCells 1 (initBoard n) n ∧
        countCells 2 g'.board n = countCells 2 (initBoard n) n) ∧
      (((1 ≤ d ∧ d ≤ fuel) ∨ n * n * n ≤ fuel) →
        ∃ g' : MigrationGame, (MigrationGame.new n d).run fuel ops = some g') := by
  constructor
  · intro g' h
    obtain ⟨h1, _, h3, h4, h5, h6⟩ := run_inv n d _ _ fuel ops _ g' (new_inv n d hn) h
    exact ⟨h1, h3, h4, h5, h6⟩
  · intro hf
    exact run_progress n d _ _ fuel hf ops _ (new_inv n d hn)

/-- Witness for C13: a 4×4 game after an out-of-turn move, a bot move and a
rejected move. -/
theorem board_invariant_witness :
    ∃ g' : MigrationGame,
      (MigrationGame.new 4 2).run 2
        [GameOp.makeMove 0 1 3 3, GameOp.runBot, GameOp.makeMove 5 5 0 0] = some g' :=
  (board_invariant 4 2 (by decide) 2
    [GameOp.makeMove 0 1 3 3, GameOp.runBot, GameOp.makeMove 5 5 0 0]).2 (Or.inl (by decide))

/-! ## Checked indexing never leaves the board -/

theorem readCell_eq_some (b : Board) (n : Int) (hb : IsBoard b n) (x y : Int)
    (hx : 0 ≤ x ∧ x < n) (hy : 0 ≤ y ∧ y < n) : readCell b x y = some (cell b x y) := by
  obtain ⟨_, hlen, hrow⟩ := hb
  have hlt : x.toNat < b.length := by omega
  have hr : (b[x.toNat]).length = n.toNat := hrow _ (List.getElem_mem _)
  have hlt2 : y.toNat < (b[x.toNat]).length := by omega
  unfold readCell cell
  rw [if_pos ⟨hx.1, hy.1⟩, if_pos ⟨hx.1, hy.1⟩]
  simp only [List.getD_eq_getElem?_getD, List.getElem?_eq_getElem hlt, Option.getD_some,
    List.getElem?_eq_getElem hlt2]

theorem readCell_eq_none (b : Board) (n : Int) (hb : IsBoard b n) (x y : Int)
    (h : ¬ (0 ≤ x ∧ x < n ∧ 0 ≤ y ∧ y < n)) : readCell b x y = none := by
  obtain ⟨_, hlen, hrow⟩ := hb
  unfold readCell
  by_cases h0 : 0 ≤ x ∧ 0 ≤ y
  · rw [if_pos h0]
    by_cases hlt : x.toNat < b.length
    · have hr : (b[x.toNat]).length = n.toNat := hrow _ (List.getElem_mem _)
      simp only [List.getElem?_eq_getElem hlt]
      rw [List.getElem?_eq_none_iff]
      omega
    · have : b[x.toNat]? = none := by rw [List.getElem?_eq_none_iff]; omega
      simp only [this]
  · rw [if_neg h0]

theorem writeCell_eq_some (b : Board) (n : Int) (hb : IsBoard b n) (x y v : Int)
    (hx : 0 ≤ x ∧ x < n) (hy : 0 ≤ y ∧ y < n) : writeCell b x y v = some (setCell b x y v) := by
  obtain ⟨_, hlen, hrow⟩ := hb
  have hlt : x.toNat < b.length := by omega
  have hr : (b[x.toNat]).length = n.toNat := hrow _ (List.getElem_mem _)
  have hlt2 : y.toNat < (b[x.toNat]).length := by omega
  unfold writeCell setCell
  rw [if_pos ⟨hx.1, hy.1⟩, if_pos ⟨hx.1, hy.1⟩]
  simp only [List.getD_eq_getElem?_getD, List.getElem?_eq_getElem hlt, Option.getD_some,
    if_pos hlt2]

theorem foldl_some {α γ : Type} (fC : Option α → γ → Option α) (f : α → γ → α) (l : List γ)
    (h : ∀ c ∈ l, ∀ acc, fC (some acc) c = some (f acc c)) (init : α) :
    l.foldl fC (some init) = some (l.foldl f init) := by
  induction l generalizing init with
  | nil => rfl
  | cons c l ih =>
    rw [List.foldl_cons, List.foldl_cons, h c (List.mem_cons_self _ _)]
    exact ih (fun c' h' => h c' (List.mem_cons_of_mem _ h')) _

theorem getMovesStepC_eq (p : Int) (b : Board) (n : Int) (hb : IsBoard b n) (dx dy : Int)
    (moves : List Move) (x y : Int) (hx : 0 ≤ x ∧ x < n) (hy : 0 ≤ y ∧ y < n) :
    getMovesStepC p b n dx dy (some moves) x y = some (getMovesStep p b n dx dy moves x y) := by
  unfold getMovesStepC getMovesStep
  simp only [readCell_eq_some b n hb x y hx hy]
  by_cases hc : cell b x y = p
  · rw [if_pos hc, if_pos hc]
    by_cases hg : x + dx ≥ 0 ∧ y + dy ≥ 0 ∧ x + dx < n ∧ y + dy < n
    · rw [if_pos hg]
      simp only [readCell_eq_some b n hb (x + dx) (y + dy) ⟨hg.1, hg.2.2.1⟩ ⟨hg.2.1, hg.2.2.2⟩]
      by_cases hd : cell b (x + dx) (y + dy) = 0
      · rw [if_pos hd, if_pos ⟨hg.1, hg.2.1, hg.2.2.1, hg.2.2.2, hd⟩]
      · rw [if_neg hd, if_neg (fun h => hd h.2.2.2.2)]
    · rw [if_neg hg, if_neg (fun h => hg ⟨h.1, h.2.1, h.2.2.1, h.2.2.2.1⟩)]
  · rw [if_neg hc, if_neg hc]

theorem getMovesStaticC_eq (p : Int) (b : Board) (n : Int) (hb : IsBoard b n) :
    getMovesStaticC p b n = some (getMovesStatic p b n) := by
  unfold getMovesStaticC getMovesStatic
  simp only []
  rw [foldl_grid (fun moves x y => getMovesStepC p b n (if p = 2 then 1 else 0)
        (if p = 1 then -1 else 0) moves x y),
    foldl_grid (fun moves x y => getMovesStep p b n (if p = 2 then 1 else 0)
        (if p = 1 then -1 else 0) moves x y)]
  apply foldl_some
  intro c hc acc
  have hc' : c ∈ cellsInOrder n := hc
  rw [mem_cellsInOrder] at hc'
  exact getMovesStepC_eq p b n hb _ _ acc c.1 c.2 ⟨hc'.1, hc'.2.1⟩ hc'.2.2

theorem evaluateStepC_eq (b : Board) (n : Int) (hb : IsBoard b n) (score : Int) (x y : Int)
    (hx : 0 ≤ x ∧ x < n) (hy : 0 ≤ y ∧ y < n) :
    evaluateStepC b n (some score) x y = some (evaluateStep b n score x y) := by
  unfold evaluateStepC evaluateStep
  simp only [readCell_eq_some b n hb x y hx hy]

theorem evaluateC_eq (b : Board) (n : Int) (hb : IsBoard b n) :
    evaluateC b n = some (evaluate b n) := by
  unfold evaluateC evaluate
  rw [foldl_grid (fun score x y => evaluateStepC b n score x y),
    foldl_grid (fun score x y => evaluateStep b n score x y)]
  apply foldl_some
  intro c hc acc
  have hc' : c ∈ cellsInOrder n := hc
  rw [mem_cellsInOrder] at hc'
  exact evaluateStepC_eq b n hb acc c.1 c.2 ⟨hc'.1, hc'.2.1⟩ hc'.2.2

theorem makeMoveC_eq (g : MigrationGame) (hb : IsBoard g.board g.n) (x1 y1 x2 y2 : Int) :
    g.makeMoveC x1 y1 x2 y2 = some (g.makeMove x1 y1 x2 y2) := by
  unfold MigrationGame.makeMoveC MigrationGame.makeMove
  by_cases hv : (!g.isValid x1 y1 || !g.isValid x2 y2) = true
  · rw [if_pos hv, if_pos hv]
  · rw [if_neg hv, if_neg hv]
    simp only [Bool.or_eq_true, Bool.not_eq_true', not_or, Bool.not_eq_false, isValid_iff] at hv
    obtain ⟨h1, h2⟩ := hv
    simp only [readCell_eq_some g.board g.n hb x1 y1 ⟨h1.1, h1.2.1⟩ h1.2.2,
      readCell_eq_some g.board g.n hb x2 y2 ⟨h2.1, h2.2.1⟩ h2.2.2]
    by_cases hp : cell g.board x1 y1 = 0
    · rw [if_pos hp, if_pos hp]
    · rw [if_neg hp, if_neg hp]
      by_cases hd : cell g.board x2 y2 ≠ 0
      · rw [if_pos hd, if_pos hd]
      · rw [if_neg hd, if_neg hd]
        simp only [writeCell_eq_some g.board g.n hb x2 y2 _ ⟨h2.1, h2.2.1⟩ h2.2.2,
          writeCell_eq_some _ g.n (isBoard_setCell g.board g.n hb _ _ _) x1 y1 _
            ⟨h1.1, h1.2.1⟩ h1.2.2]

theorem applyMoveC_eq (b : Board) (n : Int) (hb : IsBoard b n) (m : Move) (v : Int)
    (h1 : 0 ≤ m.x1 ∧ m.x1 < n ∧ 0 ≤ m.y1 ∧ m.y1 < n)
    (h2 : 0 ≤ m.x2 ∧ m.x2 < n ∧ 0 ≤ m.y2 ∧ m.y2 < n) :
    applyMoveC b m v = some (applyMove b m v) := by
  unfold applyMoveC applyMove
  simp only [writeCell_eq_some b n hb _ _ _ ⟨h2.1, h2.2.1⟩ h2.2.2,
    writeCell_eq_some _ n (isBoard_setCell b n hb _ _ _) _ _ _ ⟨h1.1, h1.2.1⟩ h1.2.2]

theorem undoMoveC_eq (b : Board) (n : Int) (hb : IsBoard b n) (m : Move) (v : Int)
    (h1 : 0 ≤ m.x1 ∧ m.x1 < n ∧ 0 ≤ m.y1 ∧ m.y1 < n)
    (h2 : 0 ≤ m.x2 ∧ m.x2 < n ∧ 0 ≤ m.y2 ∧ m.y2 < n) :
    undoMoveC b m v = some (undoMove b m v) := by
  unfold undoMoveC undoMove
  simp only [writeCell_eq_some b n hb _ _ _ ⟨h1.1, h1.2.1⟩ h1.2.2,
    writeCell_eq_some _ n (isBoard_setCell b n hb _ _ _) _ _ _ ⟨h2.1, h2.2.1⟩ h2.2.2]

theorem legal_generated (b : Board) (n : Int) (hb : IsBoard b n) (p : Int) (m : Move)
    (hm : m ∈ getMovesStatic p b n) :
    (0 ≤ m.x1 ∧ m.x1 < n ∧ 0 ≤ m.y1 ∧ m.y1 < n) ∧ (0 ≤ m.x2 ∧ m.x2 < n ∧ 0 ≤ m.y2 ∧ m.y2 < n) ∧
      undoMove (applyMove b m p) m p = b := by
  obtain ⟨h1, _, _, _, h2, _⟩ := mem_getMovesStatic.1 hm
  exact ⟨h1, h2, undo_generated b n hb p m hm⟩

theorem maxLoopC_eq (callC : Board → Int → Int → Outcome (Int × Board))
    (call : Board → Int → Int → Option (Int × Board)) (beta : Int) (b : Board) (n : Int)
    (hb : IsBoard b n) (ms : List Move)
    (hleg : ∀ m ∈ ms, (0 ≤ m.x1 ∧ m.x1 < n ∧ 0 ≤ m.y1 ∧ m.y1 < n) ∧
      (0 ≤ m.x2 ∧ m.x2 < n ∧ 0 ≤ m.y2 ∧ m.y2 < n) ∧ undoMove (applyMove b m 2) m 2 = b)
    (hcall : ∀ m ∈ ms, ∀ a be,
      callC (applyMove b m 2) a be = Outcome.ofOption (call (applyMove b m 2) a be) ∧
      (call (applyMove b m 2) a be = none ∨
        ∃ r, call (applyMove b m 2) a be = some (r, applyMove b m 2)))
    (maxEval alpha : Int) :
    maxLoopC callC beta ms b maxEval alpha = Outcome.ofOption (maxLoop call beta ms b maxEval alpha) ∧
      (maxLoop call beta ms b maxEval alpha = none ∨
        ∃ r, maxLoop call beta ms b maxEval alpha = some (r, b)) := by
  induction ms generalizing maxEval alpha with
  | nil => exact ⟨rfl, Or.inr ⟨maxEval, rfl⟩⟩
  | cons m ms ih =>
    obtain ⟨h1, h2, hu⟩ := hleg m (List.mem_cons_self _ _)
    obtain ⟨hC, hframe⟩ := hcall m (List.mem_cons_self _ _) alpha beta
    have ih' := ih (fun m' h => hleg m' (List.mem_cons_of_mem _ h))
      (fun m' h => hcall m' (List.mem_cons_of_mem _ h))
    simp only [maxLoopC, maxLoop, applyMoveC_eq b n hb m 2 h1 h2, hC]
    rcases hframe with hnone | ⟨r, hsome⟩
    · simp only [hnone, Outcome.ofOption]
      exact ⟨trivial, Or.inl trivial⟩
    · simp only [hsome, Outcome.ofOption,
        undoMoveC_eq _ n (isBoard_applyMove b n hb m 2) m 2 h1 h2, hu]
      by_cases hcut : beta ≤ max alpha r
      · rw [if_pos hcut, if_pos hcut]
        exact ⟨rfl, Or.inr ⟨_, rfl⟩⟩
      · rw [if_neg hcut, if_neg hcut]
        exact ih' _ _

theorem minLoopC_eq (callC : Board → Int → Int → Outcome (Int × Board))
    (call : Board → Int → Int → Option (Int × Board)) (alpha : Int) (b : Board) (n : Int)
    (hb : IsBoard b n) (ms : List Move)
    (hleg : ∀ m ∈ ms, (0 ≤ m.x1 ∧ m.x1 < n ∧ 0 ≤ m.y1 ∧ m.y1 < n) ∧
      (0 ≤ m.x2 ∧ m.x2 < n ∧ 0 ≤ m.y2 ∧ m.y2 < n) ∧ undoMove (applyMove b m 1) m 1 = b)
    (hcall : ∀ m ∈ ms, ∀ a be,
      callC (applyMove b m 1) a be = Outcome.ofOption (call (applyMove b m 1) a be) ∧
      (call (applyMove b m 1) a be = none ∨
        ∃ r, call (applyMove b m 1) a be = some (r, applyMove b m 1)))
    (minEval beta : Int) :
    minLoopC callC alpha ms b minEval beta = Outcome.ofOption (minLoop call alpha ms b minEval beta) ∧
      (minLoop call alpha ms b minEval beta = none ∨
        ∃ r, minLoop call alpha ms b minEval beta = some (r, b)) := by
  induction ms generalizing minEval beta with
  | nil => exact ⟨rfl, Or.inr ⟨minEval, rfl⟩⟩
  | cons m ms ih =>
    obtain ⟨h1, h2, hu⟩ := hleg m (List.mem_cons_self _ _)
    obtain ⟨hC, hframe⟩ := hcall m (List.mem_cons_self _ _) alpha beta
    have ih' := ih (fun m' h => hleg m' (List.mem_cons_of_mem _ h))
      (fun m' h => hcall m' (List.mem_cons_of_mem _ h))
    simp only [minLoopC, minLoop, applyMoveC_eq b n hb m 1 h1 h2, hC]
    rcases hframe with hnone | ⟨r, hsome⟩
    · simp only [hnone, Outcome.ofOption]
      exact ⟨trivial, Or.inl trivial⟩
    · simp only [hsome, Outcome.ofOption,
        undoMoveC_eq _ n (isBoard_applyMove b n hb m 1) m 1 h1 h2, hu]
      by_cases hcut : min beta r ≤ alpha
      · rw [if_pos hcut, if_pos hcut]
        exact ⟨rfl, Or.inr ⟨_, rfl⟩⟩
      · rw [if_neg hcut, if_neg hcut]
        exact ih' _ _

theorem decideLoopC_eq (callC : Board → Outcome (Int × Board))
    (call : Board → Option (Int × Board)) (b : Board) (n : Int)
    (hb : IsBoard b n) (ms : List Move)
    (hleg : ∀ m ∈ ms, (0 ≤ m.x1 ∧ m.x1 < n ∧ 0 ≤ m.y1 ∧ m.y1 < n) ∧
      (0 ≤ m.x2 ∧ m.x2 < n ∧ 0 ≤ m.y2 ∧ m.y2 < n) ∧ undoMove (applyMove b m 2) m 2 = b)
    (hcall : ∀ m ∈ ms,
      callC (applyMove b m 2) = Outcome.ofOption (call (applyMove b m 2)) ∧
      (call (applyMove b m 2) = none ∨ ∃ r, call (applyMove b m 2) = some (r, applyMove b m 2)))
    (maxEval : Int) (bestMove : Move) :
    decideLoopC callC ms b maxEval bestMove
      = Outcome.ofOption (decideLoop call ms b maxEval bestMove) := by
  induction ms generalizing maxEval bestMove with
  | nil => rfl
  | cons m ms ih =>
    obtain ⟨h1, h2, hu⟩ := hleg m (List.mem_cons_self _ _)
    obtain ⟨hC, hframe⟩ := hcall m (List.mem_cons_self _ _)
    have ih' := ih (fun m' h => hleg m' (List.mem_cons_of_mem _ h))
      (fun m' h => hcall m' (List.mem_cons_of_mem _ h))
    simp only [decideLoopC, decideLoop, applyMoveC_eq b n hb m 2 h1 h2, hC]
    rcases hframe with hnone | ⟨r, hsome⟩
    · simp only [hnone, Outcome.ofOption]
    · simp only [hsome, Outcome.ofOption,
        undoMoveC_eq _ n (isBoard_applyMove b n hb m 2) m 2 h1 h2, hu]
      by_cases hgt : r > maxEval
      · rw [if_pos hgt, if_pos hgt]
        exact ih' _ _
      · rw [if_neg hgt, if_neg hgt]
        exact ih' _ _

/-- For any amount of fuel the checked `minimax` never indexes outside the
board: it agrees with the unchecked one, which either runs out of fuel or
returns with the board it was called with. -/
theorem minimaxC_eq (n : Int) (fuel : Nat) : ∀ (b : Board) (depth : Int) (isMax : Bool)
    (alpha beta : Int), IsBoard b n →
    minimaxC fuel b depth isMax alpha beta n
        = Outcome.ofOption (minimax fuel b depth isMax alpha beta n) ∧
      (minimax fuel b depth isMax alpha beta n = none ∨
        ∃ r, minimax fuel b depth isMax alpha beta n = some (r, b)) := by
  induction fuel with
  | zero =>
    intro b depth isMax alpha beta _
    exact ⟨rfl, Or.inl rfl⟩
  | succ fuel ih =>
    intro b depth isMax alpha beta hb
    unfold minimaxC minimax
    by_cases hd : depth = 0
    · rw [if_pos hd, if_pos hd]
      simp only [evaluateC_eq b n hb]
      exact ⟨rfl, Or.inr ⟨_, rfl⟩⟩
    · rw [if_neg hd, if_neg hd]
      cases isMax with
      | true =>
        simp only [if_true, getMovesStaticC_eq 2 b n hb]
        by_cases he : (getMovesStatic 2 b n).isEmpty = true
        · rw [if_pos he, if_pos he]
          exact ⟨rfl, Or.inr ⟨_, rfl⟩⟩
        · rw [if_neg he, if_neg he]
          exact maxLoopC_eq _ _ beta b n hb _ (fun m hm => legal_generated b n hb 2 m hm)
            (fun m _ a be => ih _ _ _ a be (isBoard_applyMove b n hb m 2)) _ _
      | false =>
        simp only [Bool.false_eq_true, if_false, getMovesStaticC_eq 1 b n hb]
        by_cases he : (getMovesStatic 1 b n).isEmpty = true
        · rw [if_pos he, if_pos he]
          exact ⟨rfl, Or.inr ⟨_, rfl⟩⟩
        · rw [if_neg he, if_neg he]
          exact minLoopC_eq _ _ alpha b n hb _ (fun m hm => legal_generated b n hb 1 m hm)
            (fun m _ a be => ih _ _ _ a be (isBoard_applyMove b n hb m 1)) _ _

theorem decideMoveC_eq (fuel : Nat) (maxDepth : Int) (b : Board) (n : Int) (hb : IsBoard b n) :
    decideMoveC fuel maxDepth b n = Outcome.ofOption (decideMove fuel maxDepth b n) := by
  unfold decideMoveC decideMove decideMoveState
  simp only [getMovesStaticC_eq 2 b n hb]
  cases h : getMovesStatic 2 b n with
  | nil => rfl
  | cons m0 ms =>
    simp only []
    have hloop := decideLoopC_eq
      (fun b' => minimaxC fuel b' (maxDepth - 1) false (-100000) 100000 n)
      (fun b' => minimax fuel b' (maxDepth - 1) false (-100000) 100000 n) b n hb
      (getMovesStatic 2 b n) (fun m hm => legal_generated b n hb 2 m hm)
      (fun m _ => minimaxC_eq n fuel _ _ _ _ _ (isBoard_applyMove b n hb m 2)) (-100000) m0
    rw [h] at hloop
    rw [hloop]
    cases decideLoop (fun b' => minimax fuel b' (maxDepth - 1) false (-100000) 100000 n)
      (m0 :: ms) b (-100000) m0 with
    | none => rfl
    | some r => rfl

theorem ofOption_ne_outOfRange {α : Type} (o : Option α) :
    Outcome.ofOption o ≠ Outcome.outOfRange := by
  cases o with
  | none => intro h; cases h
  | some a => intro h; cases h

/-- C17: guarded indexing in the core.  On an `n`×`n` board, with every index
into the vectors checked, `getMovesStatic` (any player tag), `evaluate`,
`makeMove` (any coordinates), `minimax` (any depth, window, side and fuel) and
`decideMove` never take the out-of-range branch: each checked function returns
what the unchecked one returns. -/
theorem guarded_indexing (b : Board) (n : Int) (hb : IsBoard b n) :
    (∀ p : Int, getMovesStaticC p b n = some (getMovesStatic p b n)) ∧
      evaluateC b n = some (evaluate b n) ∧
      (∀ (currentPlayer botDepth x1 y1 x2 y2 : Int),
        (⟨n, currentPlayer, b, botDepth⟩ : MigrationGame).makeMoveC x1 y1 x2 y2
          = some ((⟨n, currentPlayer, b, botDepth⟩ : MigrationGame).makeMove x1 y1 x2 y2)) ∧
      (∀ (fuel : Nat) (depth : Int) (isMax : Bool) (alpha beta : Int),
        minimaxC fuel b depth isMax alpha beta n ≠ Outcome.outOfRange ∧
        minimaxC fuel b depth isMax alpha beta n
          = Outcome.ofOption (minimax fuel b depth isMax alpha beta n)) ∧
      (∀ (fuel : Nat) (maxDepth : Int),
        decideMoveC fuel maxDepth b n ≠ Outcome.outOfRange ∧
        decideMoveC fuel maxDepth b n = Outcome.ofOption (decideMove fuel maxDepth b n)) := by
  refine ⟨fun p => getMovesStaticC_eq p b n hb, evaluateC_eq b n hb, ?_, ?_, ?_⟩
  · intro cp d x1 y1 x2 y2
    exact makeMoveC_eq ⟨n, cp, b, d⟩ hb x1 y1 x2 y2
  · intro fuel depth isMax alpha beta
    have h := (minimaxC_eq n fuel b depth isMax alpha beta hb).1
    exact ⟨by rw [h]; exact ofOption_ne_outOfRange _, h⟩
  · intro fuel maxDepth
    have h := decideMoveC_eq fuel maxDepth b n hb
    exact ⟨by rw [h]; exact ofOption_ne_outOfRange _, h⟩

/-- Witness for C17: the checked search on the initial 4×4 board stays inside
the board. -/
theorem guarded_indexing_witness :
    decideMoveC 2 2 (initBoard 4) 4 ≠ Outcome.outOfRange :=
  ((guarded_indexing (initBoard 4) 4 (by decide)).2.2.2.2 2 2).1

theorem getCell_eq_none_iff (g : MigrationGame) (hb : IsBoard g.board g.n) (x y : Int) :
    g.getCell x y = none ↔ ¬ (0 ≤ x ∧ x < g.n ∧ 0 ≤ y ∧ y < g.n) := by
  unfold MigrationGame.getCell
  constructor
  · intro h hin
    rw [readCell_eq_some g.board g.n hb x y ⟨hin.1, hin.2.1⟩ hin.2.2] at h
    cases h
  · intro h
    exact readCell_eq_none g.board g.n hb x y h

/-- C18 fails on the code: `getCell` indexes `board[x][y]` without a bounds
test, so on a fresh 4×4 game `getCell(-1, 0)` and `getCell(0, 4)` access the
vectors out of range. -/
theorem getCell_unguarded :
    (MigrationGame.new 4 3).getCell (-1) 0 = none ∧ (MigrationGame.new 4 3).getCell 0 4 = none := by
  decide

/-! ## Exact sums over the grid and the 32-bit range -/

theorem grid_sum_fst (g : Int → Int) (l1 l2 : List Nat) :
    ((l1.flatMap fun (i : Nat) => l2.map fun (j : Nat) => ((i : Int), (j : Int))).map
        fun c => g c.1).sum = l2.length * (l1.map fun (i : Nat) => g i).sum := by
  induction l1 with
  | nil => simp
  | cons i l1 ih =>
    rw [List.flatMap_cons, List.map_append, List.sum_append, ih, List.map_cons, List.sum_cons,
      List.map_map]
    have e : (l2.map ((fun c : Int × Int => g c.1) ∘ fun (j : Nat) => ((i : Int), (j : Int)))).sum
        = l2.length * g i := by
      generalize l2 = l
      induction l with
      | nil => simp
      | cons j l ihl =>
        rw [List.map_cons, List.sum_cons, ihl, List.length_cons]
        simp only [Function.comp]
        push_cast
        ring
    rw [e]
    ring

theorem grid_sum_snd (g : Int → Int) (l1 l2 : List Nat) :
    ((l1.flatMap fun (i : Nat) => l2.map fun (j : Nat) => ((i : Int), (j : Int))).map
        fun c => g c.2).sum = l1.length * (l2.map fun (j : Nat) => g j).sum := by
  induction l1 with
  | nil => simp
  | cons i l1 ih =>
    rw [List.flatMap_cons, List.map_append, List.sum_append, ih, List.map_map, List.length_cons]
    have e : (l2.map ((fun c : Int × Int => g c.2) ∘ fun (j : Nat) => ((i : Int), (j : Int))))
        = l2.map fun (j : Nat) => g j := rfl
    rw [e]
    push_cast
    ring

theorem sum_range_ten (k : Nat) :
    ((List.range k).map fun (i : Nat) => 10 * (i : Int)).sum = 5 * k * (k - 1) := by
  induction k with
  | zero => simp
  | succ k ih =>
    rw [List.range_succ, List.map_append, List.sum_append, ih]
    simp only [List.map_cons, List.map_nil, List.sum_cons, List.sum_nil]
    push_cast
    ring

theorem sum_range_ten_sub (n : Int) (k : Nat) :
    ((List.range k).map fun (j : Nat) => 10 * (n - (j : Int))).sum
      = 10 * n * k - 5 * k * (k - 1) := by
  induction k with
  | zero => simp
  | succ k ih =>
    rw [List.range_succ, List.map_append, List.sum_append, ih]
    simp only [List.map_cons, List.map_nil, List.sum_cons, List.sum_nil]
    push_cast
    ring

/-- The largest score a board of size `n` can have: every cell holds 2. -/
theorem sum_ten_x (n : Int) (hn : 0 ≤ n) :
    ((cellsInOrder n).map fun c => 10 * c.1).sum = 5 * n * n * (n - 1) := by
  unfold cellsInOrder
  rw [grid_sum_fst (fun x => 10 * x), sum_range_ten, List.length_range]
  have e : ((n.toNat : Nat) : Int) = n := Int.toNat_of_nonneg hn
  rw [e]
  ring

/-- Minus the smallest score a board of size `n` can have: every cell holds 1. -/
theorem sum_ten_n_sub_y (n : Int) (hn : 0 ≤ n) :
    ((cellsInOrder n).map fun c => 10 * (n - c.2)).sum = 5 * n * n * (n + 1) := by
  unfold cellsInOrder
  rw [grid_sum_snd (fun y => 10 * (n - y)), sum_range_ten_sub, List.length_range]
  have e : ((n.toNat : Nat) : Int) = n := Int.toNat_of_nonneg hn
  rw [e]
  ring

theorem isBoard_constBoard (k : Nat) (v : Int) : IsBoard (constBoard k v) k := by
  refine ⟨by omega, by unfold constBoard; rw [List.length_replicate]; omega, ?_⟩
  intro row hrow
  unfold constBoard at hrow
  rw [List.eq_of_mem_replicate hrow, List.length_replicate]
  omega

theorem cell_constBoard (k : Nat) (v x y : Int) (hx : 0 ≤ x ∧ x < k) (hy : 0 ≤ y ∧ y < k) :
    cell (constBoard k v) x y = v := by
  unfold cell constBoard
  rw [if_pos ⟨hx.1, hy.1⟩]
  simp only [List.getD_eq_getElem?_getD, List.getElem?_replicate]
  rw [if_pos (by omega), Option.getD_some, List.getElem?_replicate, if_pos (by omega),
    Option.getD_some]

theorem cellSum_eval_constBoard_two (k : Nat) :
    cellSum (evalWeight k) (constBoard k 2) k = 5 * k * k * (k - 1) := by
  rw [← sum_ten_x k (by omega)]
  unfold cellSum
  apply congrArg
  apply List.map_congr_left
  intro c hc
  rw [mem_cellsInOrder] at hc
  rw [cell_constBoard k 2 c.1 c.2 ⟨hc.1, hc.2.1⟩ hc.2.2]
  simp only [evalWeight, if_true]
  ring

/-- C7 as stated fails: on the 755×755 board whose cells all hold 2 the sum of
`10 * x` over the cells is 2148994250, above `2^31 - 1`; the 32-bit score of
`evaluate` is -2145973046. -/
theorem evaluate_wraps_counterexample :
    IsBoard (constBoard 755 2) 755 ∧ specEvaluate (constBoard 755 2) 755 = 2148994250 ∧
      evaluate (constBoard 755 2) 755 = -2145973046 ∧
      evaluate (constBoard 755 2) 755 ≠ specEvaluate (constBoard 755 2) 755 := by
  have hs : cellSum (evalWeight 755) (constBoard 755 2) 755 = 2148994250 := by
    have h := cellSum_eval_constBoard_two 755
    norm_num at h
    exact h
  have h1 : specEvaluate (constBoard 755 2) 755 = 2148994250 := by
    rw [← cellSum_eq_specEvaluate, hs]
  have h2 : evaluate (constBoard 755 2) 755 = -2145973046 := by
    rw [evaluate_eq_wrap_cellSum, hs]
    decide
  refine ⟨isBoard_constBoard 755 2, h1, h2, ?_⟩
  rw [h1, h2]
  decide

/-- For `n ≤ 754` the exact weighted sum lies inside the 32-bit range, so
`evaluate` returns it unchanged. -/
theorem evaluate_exact_of_le (b : Board) (n : Int) (hb : IsBoard b n) (hn : n ≤ 754) :
    evaluate b n = cellSum (evalWeight n) b n := by
  have h0 : 0 ≤ n := hb.1
  have hU := cellSum_eval_le_sum b n
  have hL := neg_sum_le_cellSum_eval b n
  rw [sum_ten_x n h0] at hU
  rw [sum_ten_n_sub_y n h0] at hL
  have hsq : n * n ≤ 568516 := by nlinarith
  have hsq0 : 0 ≤ n * n := mul_nonneg h0 h0
  have hup : 5 * n * n * (n - 1) ≤ 2140462740 := by nlinarith
  have hlo : 5 * n * n * (n + 1) ≤ 2146147900 := by nlinarith
  rw [evaluate_eq_wrap_cellSum]
  exact wrapInt32_of_range _ (by omega) (by omega)

/-- C7 amended: on an `n`×`n` board `evaluate b n` is the sum of `10 * x` over
the cells holding 2 minus the sum of `10 * (n - y)` over the cells holding 1
(cells holding 0 contribute nothing), reduced to the 32-bit range; for
`n ≤ 754` the sum lies inside the range and `evaluate b n` equals it exactly. -/
theorem evaluate_eq_specEvaluate (b : Board) (n : Int) (hb : IsBoard b n) :
    evaluate b n = wrapInt32 (specEvaluate b n) ∧
      (n ≤ 754 → evaluate b n = specEvaluate b n) := by
  refine ⟨by rw [evaluate_eq_wrap_cellSum, cellSum_eq_specEvaluate], ?_⟩
  intro hn
  rw [evaluate_exact_of_le b n hb hn, cellSum_eq_specEvaluate]

/-- Witness for C7 amended on a 3×3 board with one piece of each player. -/
theorem evaluate_eq_specEvaluate_witness :
    evaluate [[0, 0, 0], [0, 0, 1], [0, 2, 0]] 3 = specEvaluate [[0, 0, 0], [0, 0, 1], [0, 2, 0]] 3 :=
  (evaluate_eq_specEvaluate [[0, 0, 0], [0, 0, 1], [0, 2, 0]] 3 (by decide)).2 (by decide)

theorem cellSum_foldl_setCell (w : Int → Int → Int → Int) (n v : Int) (l : List (Int × Int)) :
    ∀ (b : Board), IsBoard b n → l.Nodup →
      (∀ c ∈ l, 0 ≤ c.1 ∧ c.1 < n ∧ 0 ≤ c.2 ∧ c.2 < n) →
      cellSum w (l.foldl (fun b c => setCell b c.1 c.2 v) b) n
        = cellSum w b n + (l.map fun c => w v c.1 c.2 - w (cell b c.1 c.2) c.1 c.2).sum := by
  induction l with
  | nil => intro b _ _ _; simp
  | cons c l ih =>
    intro b hb hnd hl
    rw [List.nodup_cons] at hnd
    have hc := hl c (List.mem_cons_self _ _)
    rw [List.foldl_cons, ih _ (isBoard_setCell b n hb _ _ _) hnd.2
      (fun c' h => hl c' (List.mem_cons_of_mem _ h)),
      cellSum_setCell w b n hb c.1 c.2 v ⟨hc.1, hc.2.1⟩ hc.2.2, List.map_cons, List.sum_cons]
    have e : (l.map fun c' => w v c'.1 c'.2 - w (cell (setCell b c.1 c.2 v) c'.1 c'.2) c'.1 c'.2)
        = l.map fun c' => w v c'.1 c'.2 - w (cell b c'.1 c'.2) c'.1 c'.2 := by
      apply List.map_congr_left
      intro c' hc'
      rw [cell_setCell_other]
      intro h
      exact hnd.1 (by rw [← Prod.ext h.1 h.2]; exact hc')
    rw [e]
    omega

set_option maxRecDepth 100000 in
theorem edgeCells_nodup : edgeCells.Nodup := by
  decide

set_option maxRecDepth 100000 in
theorem edgeCells_inside :
    ∀ c ∈ edgeCells, 0 ≤ c.1 ∧ c.1 < (755 : Int) ∧ 0 ≤ c.2 ∧ c.2 < (755 : Int) := by
  decide

theorem isBoard_edgeBoard : IsBoard edgeBoard 755 :=
  isBoard_foldl_setCell 755 0 edgeCells _ (isBoard_constBoard 755 2)

theorem cell_edgeBoard (x y : Int) (hx : 0 ≤ x ∧ x < 755) (hy : 0 ≤ y ∧ y < 755) :
    cell edgeBoard x y = if (x, y) ∈ edgeCells then 0 else 2 := by
  unfold edgeBoard
  rw [cell_foldl_setCell 755 0 edgeCells _ (isBoard_constBoard 755 2) edgeCells_inside,
    cell_constBoard 755 2 x y (by omega) (by omega)]

set_option maxRecDepth 100000 in
theorem cellSum_eval_edgeBoard : cellSum (evalWeight 755) edgeBoard 755 = 2147483640 := by
  unfold edgeBoard
  rw [cellSum_foldl_setCell (evalWeight 755) 755 0 edgeCells _ (isBoard_constBoard 755 2)
    edgeCells_nodup edgeCells_inside]
  have hs : cellSum (evalWeight 755) (constBoard 755 2) 755 = 2148994250 := by
    have h := cellSum_eval_constBoard_two 755
    norm_num at h
    exact h
  have e : (edgeCells.map fun c =>
      evalWeight 755 0 c.1 c.2 - evalWeight 755 (cell (constBoard 755 2) c.1 c.2) c.1 c.2)
      = edgeCells.map fun c => -(10 * c.1) := by
    apply List.map_congr_left
    intro c hc
    have hin := edgeCells_inside c hc
    rw [cell_constBoard 755 2 c.1 c.2 ⟨hin.1, hin.2.1⟩ hin.2.2]
    simp only [evalWeight, if_true, show ¬ ((0 : Int) = 2) by decide,
      show ¬ ((0 : Int) = 1) by decide, if_false]
    omega
  have e2 : (edgeCells.map fun c => -(10 * c.1)).sum = -1510610 := by
    decide
  rw [hs, e, e2]
  rfl

/-! ## Depth-1 search -/

set_option maxRecDepth 100000 in
/-- C19 as stated fails at the edge of the 32-bit range: on `edgeBoard` the
score is 2147483640 and `(753,0,754,0)` is a candidate, but the position after
it scores -2147483646, not 2147483650. -/
theorem evaluate_plus_ten_wraps_counterexample :
    IsBoard edgeBoard 755 ∧ (⟨753, 0, 754, 0⟩ : Move) ∈ getMovesStatic 2 edgeBoard 755 ∧
      evaluate edgeBoard 755 = 2147483640 ∧
      evaluate (applyMove edgeBoard ⟨753, 0, 754, 0⟩ 2) 755 = -2147483646 ∧
      evaluate (applyMove edgeBoard ⟨753, 0, 754, 0⟩ 2) 755 ≠ evaluate edgeBoard 755 + 10 := by
  have hmem : (⟨753, 0, 754, 0⟩ : Move) ∈ getMovesStatic 2 edgeBoard 755 := by
    rw [mem_getMovesStatic]
    refine ⟨by decide, ?_, by decide, by decide, by decide, ?_⟩
    · show cell edgeBoard 753 0 = 2
      rw [cell_edgeBoard 753 0 (by decide) (by decide), if_neg (by decide)]
    · show cell edgeBoard 754 0 = 0
      rw [cell_edgeBoard 754 0 (by decide) (by decide), if_pos (by decide)]
  have h1 : evaluate edgeBoard 755 = 2147483640 := by
    rw [evaluate_eq_wrap_cellSum, cellSum_eval_edgeBoard]
    decide
  have h2 : evaluate (applyMove edgeBoard ⟨753, 0, 754, 0⟩ 2) 755 = -2147483646 := by
    rw [evaluate_applyMove_two edgeBoard 755 isBoard_edgeBoard _ hmem, h1]
    decide
  refine ⟨isBoard_edgeBoard, hmem, h1, h2, ?_⟩
  rw [h1, h2]
  decide

/-- C19 amended: depth-1 search cannot discriminate.  On an `n`×`n` board on
which player 2 has a move, every candidate leads to a position with the same
`evaluate`: `evaluate b n + 10` reduced to the 32-bit range, which is exactly
`evaluate b n + 10` when that is at most `2^31 - 1`, in particular for
`n ≤ 754`; and `decideMove` with `maxDepth = 1` returns the first element of
`getMovesStatic 2 b n`. -/
theorem decideMove_depth_one (fuel : Nat) (b : Board) (n : Int) (hb : IsBoard b n)
    (m0 : Move) (ms : List Move) (hmoves : getMovesStatic 2 b n = m0 :: ms) (hf : 1 ≤ fuel) :
    (∀ m ∈ getMovesStatic 2 b n,
        evaluate (applyMove b m 2) n = wrapInt32 (evaluate b n + 10)) ∧
      (evaluate b n + 10 ≤ 2147483647 →
        ∀ m ∈ getMovesStatic 2 b n, evaluate (applyMove b m 2) n = evaluate b n + 10) ∧
      (n ≤ 754 →
        ∀ m ∈ getMovesStatic 2 b n, evaluate (applyMove b m 2) n = evaluate b n + 10) ∧
      (∀ m ∈ getMovesStatic 2 b n,
        minimax fuel (applyMove b m 2) (1 - 1) false (-100000) 100000 n
          = some (wrapInt32 (evaluate b n + 10), applyMove b m 2)) ∧
      decideMove fuel 1 b n = some m0 := by
  have hE : ∀ m ∈ getMovesStatic 2 b n,
      evaluate (applyMove b m 2) n = wrapInt32 (evaluate b n + 10) :=
    fun m hm => evaluate_applyMove_two b n hb m hm
  obtain ⟨f, rfl⟩ : ∃ f, fuel = f + 1 := ⟨fuel - 1, by omega⟩
  have hs : ∀ m ∈ getMovesStatic 2 b n,
      abVal n (f + 1) (applyMove b m 2) (1 - 1) false (-100000) 100000
        = wrapInt32 (evaluate b n + 10) := by
    intro m hm
    unfold abVal
    rw [if_pos (by omega), hE m hm]
  refine ⟨hE, ?_, ?_, ?_, ?_⟩
  · intro hle m hm
    have hr := evaluate_range b n
    rw [hE m hm]
    exact wrapInt32_of_range _ (by omega) (by omega)
  · intro hn m hm
    rw [evaluate_exact_of_le _ n (isBoard_applyMove b n hb m 2) hn,
      evaluate_exact_of_le b n hb hn, cellSum_eval_applyMove_two b n hb m hm]
  · intro m hm
    unfold minimax
    rw [if_pos (by omega), hE m hm]
  · unfold decideMove
    rw [decideMoveState_cons (f + 1) 1 b n hb (Or.inl ⟨le_refl _, by push_cast; omega⟩) m0 ms hmoves,
      Option.map_some']
    rw [hmoves] at hs
    have h0 := hs m0 (List.mem_cons_self _ _)
    simp only [decideLoopVal]
    by_cases hgt : abVal n (f + 1) (applyMove b m0 2) (1 - 1) false (-100000) 100000 > -100000
    · rw [if_pos hgt, decideLoopVal_of_le]
      intro m hm
      rw [hs m (List.mem_cons_of_mem _ hm), h0]
    · rw [if_neg hgt, decideLoopVal_of_le]
      intro m hm
      rw [hs m (List.mem_cons_of_mem _ hm)]
      omega

/-- Witness for C19 amended on a 3×3 board with two candidates. -/
theorem decideMove_depth_one_witness :
    decideMove 1 1 [[2, 2, 0], [0, 0, 1], [0, 0, 0]] 3 = some ⟨0, 0, 1, 0⟩ :=
  (decideMove_depth_one 1 [[2, 2, 0], [0, 0, 1], [0, 0, 0]] 3 (by decide) ⟨0, 0, 1, 0⟩
    [⟨0, 1, 1, 1⟩] (by decide) (by decide)).2.2.2.2

end Migration
